import Mathlib

/-!
Verification of the Aura encrypted document store.

This file gives a shallow embedding, in Lean 4, of the core of the Aura
database: the symmetric AEAD layer (`aura-security/src/symmetric.rs`), the
fixed page layout and encrypted pager (`aura-store/src/page.rs`,
`aura-store/src/pager.rs`), the postcard document serialisation
(`aura-common/src/document.rs`), the query executor
(`aura-query/src/executor.rs`), and the on-disk B-tree
(`aura-store/src/btree/`).  Byte buffers are modelled as `List Nat` (each
element a byte value), machine integers as `Nat` with explicit `% 2 ^ w`
truncation where the code truncates, and fallible operations return
`Except`.  Theorems at the end settle the specification claims against
these definitions.
-/

namespace Aura

/-! ## Little-endian byte encoding helpers -/

/-- Encode `n` as `w` little-endian bytes (`n` truncated to `2 ^ (8 * w)`),
exactly as a `w`-byte machine integer is laid out in memory. -/
def leBytes : Nat → Nat → List Nat
  | 0, _ => []
  | w + 1, n => n % 256 :: leBytes w (n / 256)

/-- Decode a little-endian byte list back to a natural number. -/
def leVal : List Nat → Nat
  | [] => 0
  | b :: bs => b + 256 * leVal bs

/-! ## Symmetric AEAD (`aura-security/src/symmetric.rs`)

XChaCha20-Poly1305 is a stream cipher with a MAC: the ciphertext is the
plaintext XORed with a keystream derived from the key and the 24-byte
nonce, followed by a 16-byte authentication tag over the ciphertext.  We
embed it at that structural level: `ksByte` is a concrete stand-in for the
keystream and `tagBytes` for the Poly1305 tag.  All theorems below depend
only on the stream/tag structure (XOR involution, tag recomputation), not
on the particular mixing functions. -/

def KEY_SIZE : Nat := 32

def NONCE_SIZE : Nat := 24

def TAG_SIZE : Nat := 16

/-- Keystream byte `i` for a given key and nonce (stand-in mixing function). -/
def ksByte (key nonce : List Nat) (i : Nat) : Nat :=
  (leVal key + 7 * leVal nonce + 13 * i + 1) % 256

/-- XOR a byte list with the keystream starting at position `i`.  Applying
it twice at the same position restores the input (XOR involution). -/
def streamX (key nonce : List Nat) : Nat → List Nat → List Nat
  | _, [] => []
  | i, b :: bs => (b ^^^ ksByte key nonce i) :: streamX key nonce (i + 1) bs

/-- Authentication tag over a ciphertext (stand-in for Poly1305): 16 bytes
determined by the key, the nonce and the ciphertext. -/
def tagBytes (key nonce ct : List Nat) : List Nat :=
  leBytes 16 ((ct.foldl (fun a b => a * 261 + b + 7) (leVal key + leVal nonce + ct.length)) % 256 ^ 16)

inductive CryptoError
  | kemFailed
  | invalidSignature
  | decryptionFailed
deriving DecidableEq, Repr

/-- Model of `symmetric::encrypt`.  The Rust function draws a fresh random
24-byte nonce from the OS RNG; here the nonce is passed explicitly as the
random input.  Fails exactly when the key length is malformed (the
`new_from_slice` error, mapped to `KemFailed` by the source).  Output is
`nonce ‖ ciphertext ‖ tag`. -/
def encrypt (data key nonce : List Nat) : Except CryptoError (List Nat) :=
  if key.length = KEY_SIZE then
    .ok (nonce ++ streamX key nonce 0 data ++ tagBytes key nonce (streamX key nonce 0 data))
  else
    .error .kemFailed

/-- Model of `symmetric::decrypt`: requires at least `24 + 16` bytes,
splits off the nonce, verifies the tag over the ciphertext body, and
returns the XOR-decrypted plaintext; tag mismatch is `DecryptionFailed`. -/
def decrypt (encrypted_data key : List Nat) : Except CryptoError (List Nat) :=
  if encrypted_data.length < NONCE_SIZE + TAG_SIZE then .error .decryptionFailed
  else if h : key.length = KEY_SIZE then
    let nonce := encrypted_data.take NONCE_SIZE
    let payload := encrypted_data.drop NONCE_SIZE
    let ct := payload.take (payload.length - TAG_SIZE)
    let tag := payload.drop (payload.length - TAG_SIZE)
    if tagBytes key nonce ct = tag then .ok (streamX key nonce 0 ct)
    else .error .decryptionFailed
  else .error .kemFailed

/-! ## Postcard wire format (`aura-common/src/document.rs`, external `postcard` crate)

The documents, the primary index and the B-tree nodes are (de)serialised
with the `postcard` crate.  Its wire format: unsigned integers are
little-endian LEB128 varints; signed integers are zigzag-encoded varints;
`f64` is its 8-byte little-endian bit pattern; sequences, strings and maps
are a varint length followed by the elements; enum variants are a varint
discriminant followed by the payload; `bool` is one byte `0`/`1`;
`Option` is `0` for `None` or `1` followed by the payload. -/

/-- LEB128 varint encoding of an unsigned integer (7 data bits per byte,
high bit = continuation). -/
def varint (n : Nat) : List Nat :=
  if n < 128 then [n] else (n % 128 + 128) :: varint (n / 128)
termination_by n
decreasing_by exact Nat.div_lt_self (by omega) (by omega)

/-- LEB128 varint decoding; returns the value and the remaining bytes. -/
def varintDec : List Nat → Option (Nat × List Nat)
  | [] => none
  | b :: bs =>
    if b < 128 then some (b, bs)
    else
      match varintDec bs with
      | some (m, rest) => some (m * 128 + (b - 128), rest)
      | none => none

/-- Zigzag encoding of a signed integer, as used by postcard for `i64`. -/
def zigzag (i : Int) : Nat :=
  if 0 ≤ i then (2 * i).toNat else (-(2 * i) - 1).toNat

/-- Inverse of the zigzag encoding. -/
def unzigzag (n : Nat) : Int :=
  if n % 2 = 0 then ((n / 2 : Nat) : Int) else -(((n / 2 : Nat) : Int) + 1)

/-! ## Document value model (`aura-common/src/document.rs`)

`DataValue` mirrors the Rust tagged union.  Strings are represented by
their UTF-8 byte lists, `f64` by its 64-bit IEEE-754 bit pattern (the
exact bits postcard writes), `Vec<DataValue>` by `ValueList` and
`HashMap<String, DataValue>` by `KvList` (one concrete iteration order of
the hash map; postcard serialises the entries in iteration order).  The
mutual list types are the standard Lean encoding of the nested
`Vec`/`HashMap` fields. -/

mutual
inductive DataValue where
  | null
  | boolean (b : Bool)
  | integer (i : Int)
  | float (bits : Nat)
  | text (s : List Nat)
  | binary (bs : List Nat)
  | encrypted (bs : List Nat)
  | array (xs : ValueList)
  | object (kvs : KvList)
deriving DecidableEq

inductive ValueList where
  | nil
  | cons (v : DataValue) (tl : ValueList)
deriving DecidableEq

inductive KvList where
  | nil
  | cons (k : List Nat) (v : DataValue) (tl : KvList)
deriving DecidableEq
end

def ValueList.length : ValueList → Nat
  | .nil => 0
  | .cons _ tl => 1 + tl.length

def KvList.length : KvList → Nat
  | .nil => 0
  | .cons _ _ tl => 1 + tl.length

/-- Model of `AuraDocument`: primary key `id` (UTF-8 bytes), `version`
(`u64`) and the column map in iteration order. -/
structure AuraDocument where
  id : List Nat
  version : Nat
  data : KvList
deriving DecidableEq

/-- Postcard encoding of a string: varint byte length, then the bytes. -/
def encStr (s : List Nat) : List Nat := varint s.length ++ s

mutual
/-- Postcard encoding of one `DataValue`: varint variant discriminant
(declaration order in the Rust enum), then the payload. -/
def encVal : DataValue → List Nat
  | .null => varint 0
  | .boolean b => varint 1 ++ [if b then 1 else 0]
  | .integer i => varint 2 ++ varint (zigzag i)
  | .float bits => varint 3 ++ leBytes 8 bits
  | .text s => varint 4 ++ encStr s
  | .binary bs => varint 5 ++ encStr bs
  | .encrypted bs => varint 6 ++ encStr bs
  | .array xs => varint 7 ++ varint xs.length ++ encList xs
  | .object kvs => varint 8 ++ varint kvs.length ++ encKvs kvs

/-- Elements of a `Vec<DataValue>`, concatenated. -/
def encList : ValueList → List Nat
  | .nil => []
  | .cons v tl => encVal v ++ encList tl

/-- Entries of a `HashMap<String, DataValue>`, concatenated. -/
def encKvs : KvList → List Nat
  | .nil => []
  | .cons k v tl => encStr k ++ encVal v ++ encKvs tl
end

mutual
/-- Recursion depth needed to decode a value (bounded by nesting). -/
def szV : DataValue → Nat
  | .array xs => szL xs + 1
  | .object kvs => szK kvs + 1
  | _ => 1

def szL : ValueList → Nat
  | .nil => 0
  | .cons v tl => max (szV v) (szL tl)

def szK : KvList → Nat
  | .nil => 0
  | .cons _ v tl => max (szV v) (szK tl)
end

/-- Postcard decoding of a string. -/
def decStr (bs : List Nat) : Option (List Nat × List Nat) :=
  match varintDec bs with
  | some (n, r) => if n ≤ r.length then some (r.take n, r.drop n) else none
  | none => none

mutual
/-- Postcard decoding of one `DataValue`; `fuel` bounds the nesting depth
(the Rust decoder recurses on the input structure). -/
def decVal : Nat → List Nat → Option (DataValue × List Nat)
  | 0, _ => none
  | fuel + 1, bs =>
    match varintDec bs with
    | none => none
    | some (d, rest) =>
      match d with
      | 0 => some (.null, rest)
      | 1 =>
        match rest with
        | 0 :: r => some (.boolean false, r)
        | 1 :: r => some (.boolean true, r)
        | _ => none
      | 2 =>
        match varintDec rest with
        | some (n, r) => some (.integer (unzigzag n), r)
        | none => none
      | 3 => if 8 ≤ rest.length then some (.float (leVal (rest.take 8)), rest.drop 8) else none
      | 4 =>
        match decStr rest with
        | some (s, r) => some (.text s, r)
        | none => none
      | 5 =>
        match decStr rest with
        | some (s, r) => some (.binary s, r)
        | none => none
      | 6 =>
        match decStr rest with
        | some (s, r) => some (.encrypted s, r)
        | none => none
      | 7 =>
        match varintDec rest with
        | some (n, r) =>
          match decList fuel n r with
          | some (xs, r2) => some (.array xs, r2)
          | none => none
        | none => none
      | 8 =>
        match varintDec rest with
        | some (n, r) =>
          match decKvs fuel n r with
          | some (kvs, r2) => some (.object kvs, r2)
          | none => none
        | none => none
      | _ => none
termination_by fuel bs => (fuel, 0)

/-- Decode `n` sequence elements. -/
def decList : Nat → Nat → List Nat → Option (ValueList × List Nat)
  | _, 0, bs => some (.nil, bs)
  | fuel, n + 1, bs =>
    match decVal fuel bs with
    | some (v, r) =>
      match decList fuel n r with
      | some (tl, r2) => some (.cons v tl, r2)
      | none => none
    | none => none
termination_by fuel n bs => (fuel, n + 1)

/-- Decode `n` map entries. -/
def decKvs : Nat → Nat → List Nat → Option (KvList × List Nat)
  | _, 0, bs => some (.nil, bs)
  | fuel, n + 1, bs =>
    match decStr bs with
    | some (k, r) =>
      match decVal fuel r with
      | some (v, r2) =>
        match decKvs fuel n r2 with
        | some (tl, r3) => some (.cons k v tl, r3)
        | none => none
      | none => none
    | none => none
termination_by fuel n bs => (fuel, n + 1)
end

/-- Does the map hold an entry with key `k`? (`HashMap::contains_key`). -/
def kvHasKey : KvList → List Nat → Bool
  | .nil, _ => false
  | .cons k' _ tl, k => k' == k || kvHasKey tl k

/-- Value stored under key `k`, if any (`HashMap::get`). -/
def kvLookup : KvList → List Nat → Option DataValue
  | .nil, _ => none
  | .cons k' v tl, k => if k' == k then some v else kvLookup tl k

mutual
/-- Well-formedness of a value as produced by the Rust types: every `f64`
bit pattern fits in 64 bits, and every `HashMap` has pairwise distinct
keys.  (Both hold automatically for every value of the Rust types.) -/
def wfV : DataValue → Bool
  | .float bits => bits < 2 ^ 64
  | .array xs => wfL xs
  | .object kvs => wfK kvs
  | _ => true

def wfL : ValueList → Bool
  | .nil => true
  | .cons v tl => wfV v && wfL tl

def wfK : KvList → Bool
  | .nil => true
  | .cons k v tl => !kvHasKey tl k && (wfV v && wfK tl)
end

/-- Model of `AuraDocument::to_bytes` (postcard struct encoding: the three
fields in declaration order). -/
def to_bytes (doc : AuraDocument) : List Nat :=
  encStr doc.id ++ varint doc.version ++ varint doc.data.length ++ encKvs doc.data

/-- Model of `AuraDocument::from_bytes` (postcard struct decoding; trailing
bytes are ignored, as `postcard::from_bytes` does). -/
def from_bytes (bs : List Nat) : Option AuraDocument :=
  match decStr bs with
  | some (i, r1) =>
    match varintDec r1 with
    | some (ver, r2) =>
      match varintDec r2 with
      | some (n, r3) =>
        match decKvs (r3.length + 1) n r3 with
        | some (kvs, _) => some ⟨i, ver, kvs⟩
        | none => none
      | none => none
    | none => none
  | none => none

/-! ## Rust `==` on documents

`AuraDocument` and `DataValue` derive `PartialEq`.  The derived instance is
structural except at `f64`, where Rust uses IEEE-754 equality: two floats
are equal iff neither is NaN and they denote the same value (`+0.0 ==
-0.0`; a NaN is not equal to anything, itself included), and at
`HashMap`, where two maps are equal iff they have the same length and
every key of the left maps to an `==`-equal value in the right. -/

/-- NaN test on an IEEE-754 binary64 bit pattern: exponent all ones,
mantissa non-zero. -/
def isNanBits (n : Nat) : Bool := (n / 2 ^ 52) % 2 ^ 11 == 2 ^ 11 - 1 && n % 2 ^ 52 != 0

/-- Bit patterns of `+0.0` and `-0.0`. -/
def isZeroBits (n : Nat) : Bool := n == 0 || n == 2 ^ 63

/-- Rust `f64::eq` on bit patterns. -/
def f64eq (a b : Nat) : Bool :=
  !isNanBits a && !isNanBits b && (a == b || (isZeroBits a && isZeroBits b))

mutual
/-- Derived `PartialEq` on `DataValue`. -/
def valEq : DataValue → DataValue → Bool
  | .null, .null => true
  | .boolean a, .boolean b => a == b
  | .integer a, .integer b => a == b
  | .float a, .float b => f64eq a b
  | .text a, .text b => a == b
  | .binary a, .binary b => a == b
  | .encrypted a, .encrypted b => a == b
  | .array xs, .array ys => listValEq xs ys
  | .object a, .object b => KvList.length a == KvList.length b && kvsSubEq a b
  | _, _ => false

/-- `PartialEq` on `Vec<DataValue>`: pointwise. -/
def listValEq : ValueList → ValueList → Bool
  | .nil, .nil => true
  | .cons v tl, .cons w tl2 => valEq v w && listValEq tl tl2
  | _, _ => false

/-- Left-to-right half of `HashMap` equality: every entry of `a` maps, in
`b`, to an `==`-equal value. -/
def kvsSubEq : KvList → KvList → Bool
  | .nil, _ => true
  | .cons k v tl, b =>
    (match kvLookup b k with
     | some w => valEq v w
     | none => false) && kvsSubEq tl b
end

/-- Derived `PartialEq` on `AuraDocument`. -/
def docEq (a b : AuraDocument) : Bool :=
  a.id == b.id && a.version == b.version &&
    (KvList.length a.data == KvList.length b.data && kvsSubEq a.data b.data)

mutual
/-- No float anywhere in the value is a NaN. -/
def noNanV : DataValue → Bool
  | .float bits => !isNanBits bits
  | .array xs => noNanL xs
  | .object kvs => noNanK kvs
  | _ => true

def noNanL : ValueList → Bool
  | .nil => true
  | .cons v tl => noNanV v && noNanL tl

def noNanK : KvList → Bool
  | .nil => true
  | .cons _ v tl => noNanV v && noNanK tl
end

/-- Document used by the C7 counterexample: one column holding
`f64::NAN` (bit pattern `0x7FF8000000000000`). -/
def nanDoc : AuraDocument :=
  ⟨[120], 1, .cons [102] (.float 9221120237041090560) .nil⟩

/-- Document used by the C7 witness: id `"us"`, columns `a ↦ -5` and
`b ↦ [Null, true]`. -/
def witDoc : AuraDocument :=
  ⟨[117, 115], 1,
    .cons [97] (.integer (-5))
      (.cons [98] (.array (.cons .null (.cons (.boolean true) .nil))) .nil)⟩

/-! ## Primary index (`aura-store/src/index.rs`)

A `BTreeMap<String, u32>` plus a dirty flag.  The map is modelled as an
association list sorted by the byte-wise lexicographic key order that
`BTreeMap<String, _>` maintains. -/

/-- Byte-wise lexicographic strict order on keys (Rust `str` ordering). -/
def keyLtB : List Nat → List Nat → Bool
  | [], [] => false
  | [], _ :: _ => true
  | _ :: _, [] => false
  | a :: as2, b :: bs2 => if a < b then true else if b < a then false else keyLtB as2 bs2

structure PrimaryIndex where
  map : List (List Nat × Nat)
  dirty : Bool
deriving DecidableEq

/-- `BTreeMap::insert`: set-or-replace, keeping the entries sorted. -/
def idxInsert : List (List Nat × Nat) → List Nat → Nat → List (List Nat × Nat)
  | [], k, v => [(k, v)]
  | (k', v') :: tl, k, v =>
    if keyLtB k k' then (k, v) :: (k', v') :: tl
    else if k = k' then (k, v) :: tl
    else (k', v') :: idxInsert tl k v

/-- `BTreeMap::get`. -/
def idxGet : List (List Nat × Nat) → List Nat → Option Nat
  | [], _ => none
  | (k', v') :: tl, k => if k' = k then some v' else idxGet tl k

/-- `PrimaryIndex::insert`: updates the map and marks the index dirty. -/
def PrimaryIndex.insert (idx : PrimaryIndex) (key : List Nat) (page_id : Nat) : PrimaryIndex :=
  ⟨idxInsert idx.map key page_id, true⟩

/-- `PrimaryIndex::get`. -/
def PrimaryIndex.get (idx : PrimaryIndex) (key : List Nat) : Option Nat :=
  idxGet idx.map key

/-- `PrimaryIndex::to_bytes`: postcard encoding of the map (varint length,
then each entry as string ‖ varint u32). -/
def PrimaryIndex.to_bytes (idx : PrimaryIndex) : List Nat :=
  varint idx.map.length ++ (idx.map.flatMap fun e => encStr e.1 ++ varint e.2)

/-- Decode `n` map entries of the primary index. -/
def decIdxEntries : Nat → List Nat → Option (List (List Nat × Nat) × List Nat)
  | 0, bs => some ([], bs)
  | n + 1, bs =>
    match decStr bs with
    | some (k, r) =>
      match varintDec r with
      | some (v, r2) =>
        match decIdxEntries n r2 with
        | some (es, r3) => some ((k, v) :: es, r3)
        | none => none
      | none => none
    | none => none

/-- `PrimaryIndex::from_bytes`: postcard decoding; a freshly loaded index
is not dirty. -/
def PrimaryIndex.from_bytes (bs : List Nat) : Option PrimaryIndex :=
  match varintDec bs with
  | some (n, r) =>
    match decIdxEntries n r with
    | some (es, _) => some ⟨es, false⟩
    | none => none
  | none => none

/-! ## Page layout (`aura-store/src/page.rs`)

`Page` is `#[repr(C)] { id: u32, page_type: u8, used_space: u16,
next_page: u32, reserved: [u8; 88], data: [u8; 3997] }`.  With C layout
rules this struct occupies 4100 bytes: offsets are `id` 0–3, `page_type`
4, one alignment padding byte at 5, `used_space` 6–7, `next_page` 8–11,
`reserved` 12–99, `data` 100–4096, then 3 tail padding bytes.  The pager
reinterprets the struct as bytes but reads/writes only `PAGE_SIZE = 4096`
bytes of it, so the byte at offset 4096 — the *last* element of `data` —
is not part of the on-disk image. -/

def PAGE_SIZE : Nat := 4096

def DATA_SIZE : Nat := 3997

def ENCRYPTED_PAGE_SIZE : Nat := PAGE_SIZE + NONCE_SIZE + TAG_SIZE

structure Page where
  id : Nat
  page_type : Nat
  used_space : Nat
  next_page : Nat
  reserved : List Nat
  data : List Nat
deriving DecidableEq

/-- `Page::new`. -/
def Page.new (id : Nat) : Page :=
  ⟨id, 1, 0, 0, List.replicate 88 0, List.replicate DATA_SIZE 0⟩

/-- Field sizes guaranteed by the Rust types (`u32`/`u8`/`u16`/`u32` and
the two fixed arrays). -/
def Page.wf (p : Page) : Prop :=
  p.id < 2 ^ 32 ∧ p.page_type < 2 ^ 8 ∧ p.used_space < 2 ^ 16 ∧ p.next_page < 2 ^ 32 ∧
    p.reserved.length = 88 ∧ p.data.length = DATA_SIZE

instance (p : Page) : Decidable p.wf := by unfold Page.wf; infer_instance

/-- First 4096 bytes of the in-memory `repr(C)` image of a `Page` (the
plaintext that `write_page` encrypts): little-endian fields, one padding
byte after `page_type`, and all but the last byte of `data`. -/
def pageBytes (p : Page) : List Nat :=
  (leBytes 4 p.id ++ [p.page_type % 256] ++ [0] ++ leBytes 2 p.used_space ++
    leBytes 4 p.next_page ++ p.reserved ++ p.data).take PAGE_SIZE

/-- Rebuild a `Page` from a 4096-byte image, as `read_page` does: `copy`
into a zeroed struct, so the last `data` byte (offset 4096 of the struct)
stays `0`. -/
def bytesToPage (bs : List Nat) : Page :=
  { id := leVal (bs.take 4)
    page_type := leVal ((bs.drop 4).take 1)
    used_space := leVal ((bs.drop 6).take 2)
    next_page := leVal ((bs.drop 8).take 4)
    reserved := (bs.drop 12).take 88
    data := (bs.drop 100).take 3996 ++ [0] }

/-! ## Pager (`aura-store/src/pager.rs`)

The file is a byte list; `seek + write_all` past the end of the file
zero-fills the gap; `read_exact` fails with an I/O error if fewer bytes
remain than requested. -/

inductive StoreError
  | io
  | pageNotFound (id : Nat)
  | tampered (id : Nat)
deriving DecidableEq, Repr

structure Pager where
  file : List Nat
  total_pages : Nat
  master_key : List Nat
  index : PrimaryIndex
deriving DecidableEq

/-- Positional `write_all` at `off` (zero-filling any gap past EOF). -/
def writeAt (file : List Nat) (off : Nat) (bytes : List Nat) : List Nat :=
  file.take off ++ List.replicate (off - file.length) 0 ++ bytes ++ file.drop (off + bytes.length)

/-- Positional `read_exact` of `len` bytes at `off`. -/
def readAt (file : List Nat) (off len : Nat) : Option (List Nat) :=
  if off + len ≤ file.length then some ((file.drop off).take len) else none

/-- `Pager::write_page`: seek to `id * 4136`, encrypt the 4096-byte image
(under a fresh random nonce, passed explicitly), write 4136 bytes, and
bump `total_pages` when writing at or past the end. -/
def write_page (p : Pager) (page : Page) (nonce : List Nat) : Except StoreError Pager :=
  match encrypt (pageBytes page) p.master_key nonce with
  | .error _ => .error (.tampered page.id)
  | .ok enc =>
    .ok { p with
      file := writeAt p.file (page.id * ENCRYPTED_PAGE_SIZE) enc
      total_pages := if p.total_pages ≤ page.id then page.id + 1 else p.total_pages }

/-- `Pager::read_page`: bounds check against `total_pages`, read exactly
4136 bytes, decrypt (tag failure ⇒ `Tampered`), length check, rebuild. -/
def read_page (p : Pager) (id : Nat) : Except StoreError Page :=
  if p.total_pages ≤ id then .error (.pageNotFound id)
  else
    match readAt p.file (id * ENCRYPTED_PAGE_SIZE) ENCRYPTED_PAGE_SIZE with
    | none => .error .io
    | some enc =>
      match decrypt enc p.master_key with
      | .error _ => .error (.tampered id)
      | .ok plaintext =>
        if plaintext.length ≠ PAGE_SIZE then .error (.tampered id)
        else .ok (bytesToPage plaintext)

/-- `Pager::allocate_page`: page 0 is reserved for the index. -/
def allocate_page (p : Pager) : Nat × Pager :=
  let id := if p.total_pages = 0 then 1 else p.total_pages
  (id, { p with total_pages := id + 1 })

/-- `Pager::sync_index`.  Returns the post-state together with an optional
error (the Rust method mutates `self` before it can fail). -/
def sync_index (p : Pager) (nonce : List Nat) : Pager × Option StoreError :=
  if p.index.dirty = false then (p, none)
  else
    let bytes := p.index.to_bytes
    let p1 := if p.total_pages = 0 then { p with total_pages := 1 } else p
    if DATA_SIZE < bytes.length then (p1, some .io)
    else
      let pg : Page :=
        { id := 0, page_type := 2, used_space := bytes.length, next_page := 0
          reserved := List.replicate 88 0
          data := bytes ++ List.replicate (DATA_SIZE - bytes.length) 0 }
      match write_page p1 pg nonce with
      | .error e => (p1, some e)
      | .ok p2 => ({ p2 with index := ⟨p2.index.map, false⟩ }, none)

/-- `Pager::open`: `total_pages = file_len / 4136` (truncating integer
division); if the file has pages, try to read page 0 and load the index
from it when it decodes as an index page, otherwise keep a fresh empty
index.  Only I/O failures (not modelled) can make it fail. -/
def open_pager (file : List Nat) (master_key : List Nat) : Except StoreError Pager :=
  let p0 : Pager := ⟨file, file.length / ENCRYPTED_PAGE_SIZE, master_key, ⟨[], false⟩⟩
  if 0 < p0.total_pages then
    match read_page p0 0 with
    | .ok page =>
      if page.page_type = 2 then
        match PrimaryIndex.from_bytes (page.data.take page.used_space) with
        | some idx => .ok { p0 with index := idx }
        | none => .ok p0
      else .ok p0
    | .error _ => .ok p0
  else .ok p0

/-- Compose a `write_page` with the `read_page` of the same id, keeping
the result page (used to state the C2 counterexample without binders). -/
def pageRoundTrip (p : Pager) (pg : Page) (nonce : List Nat) : Option Page :=
  match write_page p pg nonce with
  | .ok p' =>
    match read_page p' pg.id with
    | .ok q => some q
    | .error _ => none
  | .error _ => none

/-- Pager over an empty file with an all-zero master key, as produced by
`open_pager [] (List.replicate 32 0)`. -/
def cePager : Pager := ⟨[], 0, List.replicate 32 0, ⟨[], false⟩⟩

/-- Page whose final `data` byte is non-zero (everything else default). -/
def cePage : Page :=
  { id := 0, page_type := 1, used_space := 42, next_page := 0
    reserved := List.replicate 88 0
    data := List.replicate 3996 0 ++ [7] }

def ceNonce : List Nat := List.replicate 24 5

/-- Pager state reached by opening an empty file and calling
`allocate_page` once: `total_pages = 2` but the file is still empty. -/
def allocPager : Pager := (allocate_page ⟨[], 0, List.replicate 32 0, ⟨[], false⟩⟩).2

/-! ## Query executor (`aura-query/src/executor.rs`)

SQL parsing is done by the external `sqlparser` crate; the executor
receives the parsed AST.  We model the two statement shapes it handles:
an INSERT is represented by the document the executor builds from the
column/value lists (that construction is pure), and a SELECT by the table
name and the primary-key literal of its WHERE clause.  The textual result
strings are abstracted to their information content (the found document /
the inserted id). -/

inductive QueryError
  | parse
  | unimplemented
  | store (e : StoreError)
  | serialization
deriving DecidableEq

/-- Parsed shape of `SELECT * FROM <table> WHERE id = '<pk>'`. -/
structure SelectQuery where
  table : List Nat
  whereKey : List Nat
deriving DecidableEq

/-- UTF-8 bytes of `"user_007"`. -/
def user007 : List Nat := [117, 115, 101, 114, 95, 48, 48, 55]

/-- The key `handle_select` looks up: the source ignores the parsed query
(`_query`) and hard-codes `"user_007"`. -/
def selectTargetKey (_query : SelectQuery) : List Nat := user007

/-- `QueryEngine::handle_select`: index lookup of the (hard-coded) target
key; on a hit, read that page, deserialise `used_space` bytes into a
document; a miss is a "not found" message, not an error. -/
def handle_select (p : Pager) (q : SelectQuery) : Except QueryError (Option AuraDocument) :=
  let target_id := selectTargetKey q
  match p.index.get target_id with
  | some page_id =>
    match read_page p page_id with
    | .error e => .error (.store e)
    | .ok page =>
      match from_bytes (page.data.take page.used_space) with
      | some doc => .ok (some doc)
      | none => .error .serialization
  | none => .ok none

/-- `QueryEngine::write_document_to_disk`: serialise, reject documents
over `DATA_SIZE` bytes *before* allocating, then allocate a fresh page,
copy the bytes in, set `used_space` and write through the pager.  Returns
the post-state pager alongside the result. -/
def write_document_to_disk (p : Pager) (doc : AuraDocument) (nonce : List Nat) :
    Pager × Except QueryError Nat :=
  let bytes := to_bytes doc
  if DATA_SIZE < bytes.length then (p, .error .serialization)
  else
    let a := allocate_page p
    let pg : Page :=
      { id := a.1, page_type := 1, used_space := bytes.length, next_page := 0
        reserved := List.replicate 88 0
        data := bytes ++ List.replicate (DATA_SIZE - bytes.length) 0 }
    match write_page a.2 pg nonce with
    | .error e => (a.2, .error (.store e))
    | .ok p2 => (p2, .ok a.1)

/-- `QueryEngine::handle_insert` from the point where the document has
been built: write it to disk, insert `(id, page_id)` into the primary
index, and `sync_index`.  The two nonces are the random inputs of the two
page writes. -/
def handle_insert (p : Pager) (doc : AuraDocument) (nonce1 nonce2 : List Nat) :
    Pager × Except QueryError (List Nat) :=
  match write_document_to_disk p doc nonce1 with
  | (p1, .error e) => (p1, .error e)
  | (p1, .ok new_page_id) =>
    let p2 := { p1 with index := p1.index.insert doc.id new_page_id }
    match sync_index p2 nonce2 with
    | (p3, some e) => (p3, .error (.store e))
    | (p3, none) => (p3, .ok doc.id)

/-- Document whose serialised form exceeds one page (a 3996-byte binary
column pushes the encoding to 4004 bytes). -/
def bigDoc : AuraDocument :=
  ⟨[107], 1, .cons [98] (.binary (List.replicate 3996 1)) .nil⟩

/-! ## B-tree (`aura-store/src/btree/node.rs`, `aura-store/src/btree/manager.rs`)

Keys are Rust `String`s, compared byte-wise (`keyLtB`); data values are
`u32` page ids.  The manager persists one node per page: `read_node` is
`read_page` + postcard decode, `write_node` is postcard encode +
`write_page`.  Both round-trips are established independently
(`from_bytes_to_bytes`, `page_write_read_aux`), so the node storage is
modelled as a direct map from page id to node, together with the pager's
`total_pages` allocation counter (`allocate_page` logic reproduced in
`Store.alloc`).  All algorithms below (`search`, `insert`,
`insert_non_full`, `split_child`) are literal translations of
`manager.rs`; a Rust panic (out-of-bounds index, `remove` on an empty
vector) and an I/O/decode error are both modelled as `none`, and
recursion/loops take explicit fuel. -/

inductive NodeType
  | internal
  | leaf
deriving DecidableEq

structure BTreeNode where
  id : Nat
  parent : Option Nat
  node_type : NodeType
  keys : List (List Nat)
  children : List Nat
deriving DecidableEq

/-- `BTreeNode::new_leaf`. -/
def BTreeNode.new_leaf (id : Nat) : BTreeNode := ⟨id, none, .leaf, [], []⟩

/-- `BTreeNode::is_full` (`NODE_CAPACITY = 50`). -/
def BTreeNode.is_full (n : BTreeNode) : Bool := 50 ≤ n.keys.length

/-- Node storage: the pager's pages restricted to B-tree nodes, plus its
`total_pages` counter. -/
structure Store where
  pages : Nat → Option BTreeNode
  total_pages : Nat

def Store.read (s : Store) (i : Nat) : Option BTreeNode := s.pages i

/-- LEB128 varint with structural fuel (`fuel ≥ n` suffices; equal to
`varint` by `varintS_eq`), so node images evaluate by reduction. -/
def varintF : Nat → Nat → List Nat
  | 0, n => [n]
  | fuel + 1, n => if n < 128 then [n] else (n % 128 + 128) :: varintF fuel (n / 128)

def varintS (n : Nat) : List Nat := varintF n n

/-- `encStr` via the fuelled varint. -/
def encStrS (s : List Nat) : List Nat := varintS s.length ++ s

/-- postcard varint of a `u32` field. -/
def varint32 (n : Nat) : List Nat := varintS (n % 2 ^ 32)

/-- postcard serialization of a `BTreeNode` (`BTreeNode::to_bytes`,
`postcard::to_allocvec`), fields in declaration order: `id` (`u32`
varint), `parent` (`Option<u32>`: tag byte `0`/`1` then payload),
`node_type` (enum discriminant, `Internal = 0`, `Leaf = 1`), `keys`
(`Vec<String>`: varint count, then varint-length-prefixed UTF-8 bytes)
and `children` (`Vec<u32>`: varint count, then varints). -/
def nodeBytes (n : BTreeNode) : List Nat :=
  varint32 n.id ++
  (match n.parent with
   | none => [0]
   | some p => 1 :: varint32 p) ++
  (match n.node_type with
   | .internal => [0]
   | .leaf => [1]) ++
  varintS n.keys.length ++ (n.keys.map encStrS).flatten ++
  varintS n.children.length ++ (n.children.map varint32).flatten

/-- postcard varint decoder for a `u32` (out-of-range values are a
decode error). -/
def decU32 (bs : List Nat) : Option (Nat × List Nat) :=
  match varintDec bs with
  | none => none
  | some (v, rest) => if v < 2 ^ 32 then some (v, rest) else none

/-- Decode `m` length-prefixed strings (the `keys` vector). -/
def decKeyList : Nat → List Nat → Option (List (List Nat) × List Nat)
  | 0, bs => some ([], bs)
  | m + 1, bs =>
    match decStr bs with
    | none => none
    | some (k, bs2) =>
      match decKeyList m bs2 with
      | none => none
      | some (ks, bs3) => some (k :: ks, bs3)

/-- Decode `m` `u32` varints (the `children` vector). -/
def decChildList : Nat → List Nat → Option (List Nat × List Nat)
  | 0, bs => some ([], bs)
  | m + 1, bs =>
    match decU32 bs with
    | none => none
    | some (c, bs2) =>
      match decChildList m bs2 with
      | none => none
      | some (cs, bs3) => some (c :: cs, bs3)

/-- Tail of the `BTreeNode` decode after `id` and `parent`: node type,
keys and children. -/
def decNodeRest (id : Nat) (parent : Option Nat) (b3 : List Nat) : Option BTreeNode :=
  match varintDec b3 with
  | none => none
  | some (t, b4) =>
    match (if t = 0 then some NodeType.internal
           else if t = 1 then some NodeType.leaf else none) with
    | none => none
    | some ty =>
      match varintDec b4 with
      | none => none
      | some (nk, b5) =>
        match decKeyList nk b5 with
        | none => none
        | some (keys, b6) =>
          match varintDec b6 with
          | none => none
          | some (nc, b7) =>
            match decChildList nc b7 with
            | none => none
            | some (children, _) => some ⟨id, parent, ty, keys, children⟩

/-- postcard deserialization of a `BTreeNode` (`BTreeNode::from_bytes`,
`postcard::from_bytes`; trailing bytes are ignored). -/
def decNode (bs : List Nat) : Option BTreeNode :=
  match decU32 bs with
  | none => none
  | some (id, b1) =>
    match b1 with
    | 0 :: b2 => decNodeRest id none b2
    | 1 :: b2 =>
      match decU32 b2 with
      | none => none
      | some (p, b3) => decNodeRest id (some p) b3
    | _ => none

/-- What `data[..used_space]` holds after the pager persists the page:
the `repr(C)` page image is 4097 bytes but only 4096 reach the file, so
`data[3996]` — present exactly when the node image has the full
`DATA_SIZE = 3997` bytes — reads back as `0` (see
`write_then_read_page`). -/
def storedBytes (bs : List Nat) : List Nat :=
  if bs.length ≤ 3996 then bs else bs.take 3996 ++ [0]

/-- `BTreeManager::write_node`, composed with the pager persistence and
the decode the next `read_node` of the same page performs: serialize the
node, fail when the image exceeds `DATA_SIZE` (manager.rs:145-149), else
store at `node.id` whatever the truncated image decodes to (`none` when
it no longer decodes); `write_page` bumps `total_pages` when writing at
or past the end. -/
def Store.write (s : Store) (n : BTreeNode) : Option Store :=
  let bytes := nodeBytes n
  if DATA_SIZE < bytes.length then none
  else some ⟨fun i => if i = n.id then decNode (storedBytes bytes) else s.pages i,
             max s.total_pages (n.id + 1)⟩

/-- The store after a loss-free node write: the value a successful
`Store.write` produces whenever the node image stays strictly below the
truncation boundary (`nodeBytes n ≤ 3996`, cf. `Store.write_put`). -/
def Store.put (s : Store) (n : BTreeNode) : Store :=
  ⟨fun i => if i = n.id then some n else s.pages i, max s.total_pages (n.id + 1)⟩

/-- `Pager::allocate_page`, as used by the manager. -/
def Store.alloc (s : Store) : Nat × Store :=
  let id := if s.total_pages = 0 then 1 else s.total_pages
  (id, ⟨s.pages, id + 1⟩)

/-- Rust `slice::partition_point` on a partitioned slice: the length of
the maximal prefix satisfying the predicate. -/
def ppoint (pred : List Nat → Bool) (keys : List (List Nat)) : Nat :=
  (keys.takeWhile pred).length

/-- Rust `a <= b` on strings (used by `search`). -/
def keyLeB (a b : List Nat) : Bool := !keyLtB b a

/-- Rust `binary_search` on the (sorted) key list: `some idx` iff the key
is present at `idx`. -/
def leafFind (keys : List (List Nat)) (key : List Nat) : Option Nat :=
  let i := ppoint (fun k => keyLtB k key) keys
  if keys[i]? = some key then some i else none

/-- `BTreeManager::search` (the loop is unrolled with fuel; one
iteration of the loop descends one tree level). -/
def search (s : Store) : Nat → Nat → List Nat → Option (Option Nat)
  | 0, _, _ => none
  | fuel + 1, current, key =>
    match s.read current with
    | none => none
    | some node =>
      match node.node_type with
      | .leaf =>
        match leafFind node.keys key with
        | some idx =>
          match node.children[idx]? with
          | some c => some (some c)
          | none => none
        | none => some none
      | .internal =>
        match node.children[ppoint (fun k => keyLeB k key) node.keys]? with
        | some c => search s fuel c key
        | none => none

/-- Parent-pointer rewrite loop of the internal-node split: every moved
grandchild is re-read and re-written with its new parent. -/
def fixParents (s : Store) : List Nat → Nat → Option Store
  | [], _ => some s
  | g :: rest, pid =>
    match s.read g with
    | none => none
    | some gn =>
      match s.write { gn with parent := some pid } with
      | none => none
      | some s2 => fixParents s2 rest pid

/-- `BTreeManager::split_child`: splits `parent.children[child_idx]` at
its key midpoint into itself plus a freshly allocated sibling, copying up
(leaf) or moving up (internal) the separator, and writes child, sibling
and parent.  Returns the updated store and the updated in-memory parent. -/
def split_child (s : Store) (parent : BTreeNode) (child_idx : Nat) :
    Option (Store × BTreeNode) :=
  match parent.children[child_idx]? with
  | none => none
  | some child_id =>
    match s.read child_id with
    | none => none
    | some child =>
      let a := s.alloc
      let new_page_id := a.1
      let s1 := a.2
      let mid := child.keys.length / 2
      let right_keys := child.keys.drop mid
      match child.node_type with
      | .leaf =>
        match right_keys[0]? with
        | none => none
        | some sep =>
          let sibling : BTreeNode :=
            ⟨new_page_id, some parent.id, .leaf, right_keys, child.children.drop mid⟩
          let child2 :=
            { child with keys := child.keys.take mid, children := child.children.take mid }
          let parent2 :=
            { parent with keys := parent.keys.insertIdx child_idx sep
                          children := parent.children.insertIdx (child_idx + 1) new_page_id }
          match s1.write child2 with
          | none => none
          | some sA =>
            match sA.write sibling with
            | none => none
            | some sB =>
              match sB.write parent2 with
              | none => none
              | some sC => some (sC, parent2)
      | .internal =>
        match right_keys with
        | [] => none
        | key_to_parent :: sib_keys =>
          let sib_children := child.children.drop (mid + 1)
          let child2 :=
            { child with keys := child.keys.take mid, children := child.children.take (mid + 1) }
          let sibling : BTreeNode :=
            ⟨new_page_id, some parent.id, .internal, sib_keys, sib_children⟩
          match fixParents s1 sib_children new_page_id with
          | none => none
          | some s2 =>
            let parent2 :=
              { parent with keys := parent.keys.insertIdx child_idx key_to_parent
                            children := parent.children.insertIdx (child_idx + 1) new_page_id }
            match s2.write child2 with
            | none => none
            | some sA =>
              match sA.write sibling with
              | none => none
              | some sB =>
                match sB.write parent2 with
                | none => none
                | some sC => some (sC, parent2)

/-- `BTreeManager::insert_non_full` (recursion depth bounded by fuel). -/
def insert_non_full : Nat → Store → Nat → List Nat → Nat → Option Store
  | 0, _, _, _, _ => none
  | fuel + 1, s, node_id, key, value =>
    match s.read node_id with
    | none => none
    | some node =>
      match node.node_type with
      | .leaf =>
        let idx := ppoint (fun k => keyLtB k key) node.keys
        s.write { node with keys := node.keys.insertIdx idx key
                            children := node.children.insertIdx idx value }
      | .internal =>
        let idx := ppoint (fun k => keyLtB k key) node.keys
        match node.children[idx]? with
        | none => none
        | some child_id =>
          match s.read child_id with
          | none => none
          | some child =>
            if child.is_full then
              match split_child s node idx with
              | none => none
              | some (s1, node1) =>
                match node1.keys[idx]? with
                | none => none
                | some ksep =>
                  let idx2 := if keyLtB ksep key then idx + 1 else idx
                  match node1.children[idx2]? with
                  | none => none
                  | some c2 => insert_non_full fuel s1 c2 key value
            else insert_non_full fuel s child_id key value

/-- `BTreeManager::insert`: grow the tree at the root when the root is
full (allocate a new internal root over the old one and split), then
insert into the now non-full tree.  Returns the new store and the
manager's updated `root_id`. -/
def insert (s : Store) (fuel root_id : Nat) (key : List Nat) (value : Nat) :
    Option (Store × Nat) :=
  match s.read root_id with
  | none => none
  | some root =>
    if root.is_full then
      let a := s.alloc
      let new_root_id := a.1
      let s1 := a.2
      let new_root : BTreeNode := ⟨new_root_id, none, .internal, [], [root_id]⟩
      match s1.write new_root with
      | none => none
      | some s2 =>
        match s2.write { root with parent := some new_root_id } with
        | none => none
        | some s3 =>
          match split_child s3 new_root 0 with
          | none => none
          | some (s4, _) =>
            match insert_non_full fuel s4 new_root_id key value with
            | none => none
            | some s5 => some (s5, new_root_id)
    else
      match insert_non_full fuel s root_id key value with
      | none => none
      | some s5 => some (s5, root_id)

/-- Run `search` with enough fuel for any well-formed tree (the tree
height is below `total_pages`). -/
def searchRun (s : Store) (root : Nat) (key : List Nat) : Option (Option Nat) :=
  search s s.total_pages root key

/-- Fold a sequence of inserts, tracking the moving root id. -/
def insertAll (s : Store) (root : Nat) : List (List Nat × Nat) → Option (Store × Nat)
  | [] => some (s, root)
  | (k, v) :: rest =>
    match insert s (s.total_pages + 1) root k v with
    | none => none
    | some (s', root') => insertAll s' root' rest

/-- The store the B-tree tests start from: a single empty leaf root
written at page `r`, `total_pages` past it. -/
def initStore (r tp : Nat) : Store :=
  ⟨fun i => if i = r then some (BTreeNode.new_leaf r) else none, tp⟩

/-- A single 3995-byte key: inserting it into the empty root builds a
one-key leaf whose postcard image is 4003 bytes, beyond the 3997-byte
page payload, so `write_node` fails and the insert sequence errors. -/
def bigKvs : List (List Nat × Nat) :=
  [(0 :: List.replicate 3994 0, 10)]

/-! ### Structural (count) invariants of the B-tree

`TrC s h id used` says: `id` roots a well-formed B-tree shape in store
`s` of height at most `h`, occupying exactly the page-id set `used`
(pairwise distinct across subtrees), in which every node stores its own
id, holds at most 50 keys, and has `|children| = |keys| + 1` when
internal and `|children| = |keys|` when leaf.  `TrCL` is the judgment for
the child list of an internal node with `m` separator keys. -/

/-- Field bounds every persisted node satisfies: `id`, `parent` and the
`children` entries are `u32` values, and keys are at most 64 bytes — the
key budget under which any node of at most 51 keys and 52 children still
serializes strictly below the 3997-byte page payload, so that every
`write_node` the manager performs on invariant trees succeeds losslessly
(cf. `nodeBytes_le`). -/
def NodeB (n : BTreeNode) : Prop :=
  n.id < 2 ^ 32 ∧ (∀ p ∈ n.parent, p < 2 ^ 32) ∧
  (∀ k ∈ n.keys, k.length ≤ 64) ∧ (∀ v ∈ n.children, v < 2 ^ 32)

def LeafC (s : Store) (id : Nat) : Prop :=
  ∃ n, s.pages id = some n ∧ n.id = id ∧ n.node_type = .leaf ∧
    n.keys.length ≤ 50 ∧ n.children.length = n.keys.length ∧ NodeB n

mutual
def TrC (s : Store) : Nat → Nat → Finset Nat → Prop
  | 0, id, used => used = {id} ∧ LeafC s id
  | h + 1, id, used =>
    (used = {id} ∧ LeafC s id) ∨
    (∃ n us, s.pages id = some n ∧ n.id = id ∧ n.node_type = .internal ∧
      n.keys.length ≤ 50 ∧ NodeB n ∧ TrCL s h n.keys.length n.children us ∧
      id ∉ us ∧ used = {id} ∪ us)
termination_by h => (h, 0)

def TrCL (s : Store) : Nat → Nat → List Nat → Finset Nat → Prop
  | h, 0, cids, used => ∃ c, cids = [c] ∧ TrC s h c used
  | h, m + 1, cids, used =>
    ∃ c crest us1 us2, cids = c :: crest ∧ used = us1 ∪ us2 ∧ Disjoint us1 us2 ∧
      TrC s h c us1 ∧ TrCL s h m crest us2
termination_by h m => (h, m + 1)
end

def UsedLt (s : Store) (used : Finset Nat) : Prop := ∀ i ∈ used, i < s.total_pages

/-- Agreement of two stores on a page-id set, up to the `parent` field,
which may only be rewritten to another `u32` value (as `fixParents`
does). -/
def AgreeMod (s s2 : Store) (used : Finset Nat) : Prop :=
  ∀ i ∈ used, s2.pages i = s.pages i ∨
    ∃ n pp, s.pages i = some n ∧ s2.pages i = some { n with parent := pp } ∧
      ∀ p ∈ pp, p < 2 ^ 32

/-- Per-node counts plus the field bounds: what a stored node of an
invariant tree provides, and what a loss-free re-write of it needs. -/
def NodeOkB (s : Store) (i : Nat) : Prop :=
  ∃ n, s.pages i = some n ∧ n.id = i ∧ n.keys.length ≤ 50 ∧
    n.children.length ≤ 51 ∧ NodeB n

/-- Lower bound check (`none` is minus infinity): `lo ≤ k`. -/
def okLE : Option (List Nat) → List Nat → Prop
  | none, _ => True
  | some l, k => keyLtB k l = false

/-- Upper bound check (`none` is plus infinity): `k < hi`. -/
def okLT : List Nat → Option (List Nat) → Prop
  | _, none => True
  | k, some u => keyLtB k u = true

/-- First-match association lookup on an entry list. -/
def lookupE : List (List Nat × Nat) → List Nat → Option Nat
  | [], _ => none
  | (k2, v) :: t, k => if k = k2 then some v else lookupE t k

/-- Sorted insertion of a fresh key at its partition point. -/
def insE (k : List Nat) (v : Nat) : List (List Nat × Nat) → List (List Nat × Nat)
  | [] => [(k, v)]
  | (k2, v2) :: t => if keyLtB k2 k then (k2, v2) :: insE k v t else (k, v) :: (k2, v2) :: t

/-- Strict lower bound check for separators (`none` is minus infinity):
`lo < k`. -/
def okLTo : Option (List Nat) → List Nat → Prop
  | none, _ => True
  | some l, k => keyLtB l k = true

/-- Ordered leaf judgment: the leaf at `id` stores the entry list `es`
(as parallel `keys`/`children` arrays), strictly sorted, all keys inside
the half-open window `[lo, hi)`. -/
def LeafF (s : Store) (id : Nat) (lo hi : Option (List Nat))
    (es : List (List Nat × Nat)) : Prop :=
  ∃ n, s.pages id = some n ∧ n.id = id ∧ n.node_type = .leaf ∧
    n.keys.length ≤ 50 ∧ n.children.length = n.keys.length ∧ NodeB n ∧
    es = n.keys.zip n.children ∧
    n.keys.Pairwise (fun a b => keyLtB a b = true) ∧
    (∀ kk ∈ n.keys, okLE lo kk ∧ okLT kk hi)

mutual
/-- Full ordered B-tree invariant: `Tr s h id lo hi es used` says the
subtree rooted at page `id` (height at most `h`, occupying exactly the
page set `used`) represents the sorted entry list `es`, every key inside
`[lo, hi)`; `TrL` is the judgment for an internal node's separator and
child lists, where each separator lies in the window, splits the entries,
and reappears as an entry key of its right part — mirroring the
copy-up/move-up split scheme of the manager. -/
def Tr (s : Store) : Nat → Nat → Option (List Nat) → Option (List Nat) →
    List (List Nat × Nat) → Finset Nat → Prop
  | 0, id, lo, hi, es, used => used = {id} ∧ LeafF s id lo hi es
  | h + 1, id, lo, hi, es, used =>
    (used = {id} ∧ LeafF s id lo hi es) ∨
    (∃ n us, s.pages id = some n ∧ n.id = id ∧ n.node_type = .internal ∧
      n.keys.length ≤ 50 ∧ NodeB n ∧ TrL s h n.keys n.children lo hi es us ∧
      id ∉ us ∧ used = {id} ∪ us)
termination_by h => (h, 0)

def TrL (s : Store) : Nat → List (List Nat) → List Nat → Option (List Nat) →
    Option (List Nat) → List (List Nat × Nat) → Finset Nat → Prop
  | h, [], cids, lo, hi, es, used => ∃ c, cids = [c] ∧ Tr s h c lo hi es used
  | h, sep :: seps, cids, lo, hi, es, used =>
    ∃ c crest es1 es2 us1 us2,
      cids = c :: crest ∧ es = es1 ++ es2 ∧ used = us1 ∪ us2 ∧ Disjoint us1 us2 ∧
      okLTo lo sep ∧ okLT sep hi ∧ (∃ v, lookupE es2 sep = some v) ∧
      Tr s h c lo (some sep) es1 us1 ∧
      TrL s h seps crest (some sep) hi es2 us2
termination_by h seps => (h, seps.length + 1)
end

/-- Ordered analogue of `SplitConc`: everything `split_child` guarantees
about the full child `c` of `parent`, including the entry split at the
separator and the window facts the parent needs. -/
def SplitConcO (s : Store) (parent : BTreeNode) (idx c h : Nat)
    (loC hiC : Option (List Nat)) (esC : List (List Nat × Nat)) (usedC : Finset Nat) : Prop :=
  ∃ s2 parent2 sep usedL usedS esL esR,
    split_child s parent idx = some (s2, parent2) ∧
    parent2 = { parent with keys := parent.keys.insertIdx idx sep
                            children := parent.children.insertIdx (idx + 1) s.total_pages } ∧
    sep.length ≤ 64 ∧
    s2.pages parent.id = some parent2 ∧
    s2.total_pages = s.total_pages + 1 ∧
    esL ++ esR = esC ∧
    Tr s2 h c loC (some sep) esL usedL ∧
    Tr s2 h s.total_pages (some sep) hiC esR usedS ∧
    okLTo loC sep ∧ okLT sep hiC ∧ (∃ v, lookupE esR sep = some v) ∧
    Disjoint usedL usedS ∧ usedL ∪ usedS = usedC ∪ {s.total_pages} ∧
    (∃ nL, s2.pages c = some nL ∧ nL.keys.length < 50) ∧
    (∃ nS, s2.pages s.total_pages = some nS ∧ nS.keys.length < 50) ∧
    (∀ i, i ∉ usedC → i ≠ parent.id → i ≠ s.total_pages → s2.pages i = s.pages i)

@[simp] theorem leBytes_length (w n : Nat) : (leBytes w n).length = w := by
  induction w generalizing n with
  | zero => rfl
  | succ w ih => simp [leBytes, ih]

theorem leVal_leBytes (w n : Nat) (h : n < 256 ^ w) : leVal (leBytes w n) = n := by
  induction w generalizing n with
  | zero => simp [Nat.pow_zero, Nat.lt_one_iff] at h; simp [h, leBytes, leVal]
  | succ w ih =>
      have hdiv : n / 256 < 256 ^ w := by
        rw [Nat.div_lt_iff_lt_mul (by norm_num)]
        calc n < 256 ^ (w + 1) := h
        _ = 256 ^ w * 256 := by ring
      simp [leBytes, leVal, ih _ hdiv, Nat.mod_add_div]

@[simp] theorem streamX_length (key nonce : List Nat) (i : Nat) (bs : List Nat) :
    (streamX key nonce i bs).length = bs.length := by
  induction bs generalizing i with
  | nil => rfl
  | cons b bs ih => simp [streamX, ih]

@[simp] theorem tagBytes_length (key nonce ct : List Nat) : (tagBytes key nonce ct).length = 16 := by
  simp [tagBytes]

theorem streamX_streamX (key nonce : List Nat) (i : Nat) (bs : List Nat) :
    streamX key nonce i (streamX key nonce i bs) = bs := by
  induction bs generalizing i with
  | nil => rfl
  | cons b bs ih =>
      simp only [streamX, ih]
      congr 1
      rw [Nat.xor_assoc, Nat.xor_self, Nat.xor_zero]

theorem encrypt_ok_iff (data key nonce : List Nat) :
    (∃ out, encrypt data key nonce = .ok out) ↔ key.length = 32 := by
  constructor
  · rintro ⟨out, h⟩
    by_contra hk
    simp [encrypt, KEY_SIZE, hk] at h
  · intro hk
    refine ⟨nonce ++ streamX key nonce 0 data ++ tagBytes key nonce (streamX key nonce 0 data), ?_⟩
    simp [encrypt, KEY_SIZE, hk]

theorem encrypt_ok_shape (data key nonce out : List Nat)
    (h : encrypt data key nonce = .ok out) :
    out = nonce ++ streamX key nonce 0 data ++ tagBytes key nonce (streamX key nonce 0 data) := by
  by_cases hk : key.length = KEY_SIZE
  · simpa [encrypt, hk, eq_comm] using h
  · simp [encrypt, hk] at h

/-- Decryption inverts encryption (used by the pager round-trip). -/
theorem decrypt_encrypt (data key nonce out : List Nat)
    (hn : nonce.length = 24) (h : encrypt data key nonce = .ok out) :
    decrypt out key = .ok data := by
  have hk : key.length = 32 := (encrypt_ok_iff data key nonce).1 ⟨out, h⟩
  have hout := encrypt_ok_shape data key nonce out h
  subst hout
  have hct : (streamX key nonce 0 data).length = data.length := streamX_length ..
  have hlen : (nonce ++ streamX key nonce 0 data ++
      tagBytes key nonce (streamX key nonce 0 data)).length = 24 + (data.length + 16) := by
    simp [hn, hct, Nat.add_assoc]
  rw [decrypt]
  rw [if_neg (by rw [hlen]; simp [NONCE_SIZE, TAG_SIZE]; omega)]
  rw [dif_pos (by simpa [KEY_SIZE] using hk)]
  have htake : (nonce ++ streamX key nonce 0 data ++
      tagBytes key nonce (streamX key nonce 0 data)).take NONCE_SIZE = nonce := by
    rw [List.append_assoc, List.take_append_of_le_length (by simp [hn, NONCE_SIZE])]
    simp [hn, NONCE_SIZE]
  have hdrop : (nonce ++ streamX key nonce 0 data ++
      tagBytes key nonce (streamX key nonce 0 data)).drop NONCE_SIZE =
      streamX key nonce 0 data ++ tagBytes key nonce (streamX key nonce 0 data) := by
    rw [List.append_assoc, List.drop_append_of_le_length (by simp [hn, NONCE_SIZE])]
    simp [hn, NONCE_SIZE]
  simp only [htake, hdrop]
  have hplen : (streamX key nonce 0 data ++
      tagBytes key nonce (streamX key nonce 0 data)).length - TAG_SIZE =
      (streamX key nonce 0 data).length := by
    simp [TAG_SIZE]
  rw [hplen]
  rw [List.take_left, List.drop_left]
  rw [if_pos rfl]
  rw [streamX_streamX]

theorem varintDec_varint (n : Nat) (rest : List Nat) :
    varintDec (varint n ++ rest) = some (n, rest) := by
  induction n using Nat.strong_induction_on with
  | _ n ih =>
    rw [varint]
    by_cases h : n < 128
    · simp [h, varintDec]
    · have hpos : 0 < n := by omega
      rw [if_neg h]
      simp only [List.cons_append, varintDec, if_neg (by omega : ¬ n % 128 + 128 < 128),
        List.append_eq]
      rw [ih (n / 128) (Nat.div_lt_self hpos (by omega))]
      simp only [Option.some.injEq, Prod.mk.injEq]
      refine ⟨?_, trivial⟩
      omega

theorem unzigzag_zigzag (i : Int) : unzigzag (zigzag i) = i := by
  unfold zigzag unzigzag
  by_cases h : 0 ≤ i
  · rw [if_pos h, if_pos (by omega)]
    omega
  · rw [if_neg h, if_neg (by omega)]
    omega

theorem varint_small {n : Nat} (h : n < 128) : varint n = [n] := by
  rw [varint, if_pos h]

theorem varint_length_pos (n : Nat) : 1 ≤ (varint n).length := by
  rw [varint]; split <;> simp

theorem decStr_encStr (s rest : List Nat) : decStr (encStr s ++ rest) = some (s, rest) := by
  simp only [decStr, encStr, List.append_assoc, varintDec_varint]
  simp [List.take_left, List.drop_left]

theorem varintF_eq : ∀ (fuel n : Nat), n ≤ fuel → varintF fuel n = varint n := by
  intro fuel
  induction fuel with
  | zero =>
      intro n h
      have h0 : n = 0 := by omega
      subst h0
      rw [show varintF 0 0 = [0] from rfl, varint_small (by omega)]
  | succ fuel ih =>
      intro n h
      by_cases h1 : n < 128
      · rw [varint_small h1]
        simp [varintF, if_pos h1]
      · have hdiv : n / 128 < n := Nat.div_lt_self (by omega) (by omega)
        have hle : n / 128 ≤ fuel := by omega
        rw [varint, if_neg h1]
        simp only [varintF, if_neg h1]
        rw [ih (n / 128) hle]

theorem varintS_eq (n : Nat) : varintS n = varint n := varintF_eq n n (Nat.le_refl n)

theorem encStrS_eq (s : List Nat) : encStrS s = encStr s := by
  rw [encStrS, encStr, varintS_eq]

theorem encStrS_fun : encStrS = encStr := funext encStrS_eq

theorem varint_length_le : ∀ (m n : Nat), n < 128 ^ (m + 1) → (varint n).length ≤ m + 1 := by
  intro m
  induction m with
  | zero =>
      intro n h
      rw [pow_one] at h
      rw [varint_small h]
      simp
  | succ m ih =>
      intro n h
      by_cases h1 : n < 128
      · rw [varint_small h1]; simp
      · rw [varint, if_neg h1]
        simp only [List.length_cons]
        have hd : n / 128 < 128 ^ (m + 1) := by
          apply Nat.div_lt_of_lt_mul
          rw [pow_succ, Nat.mul_comm] at h
          exact h
        have := ih (n / 128) hd
        omega

theorem varint32_length_le (n : Nat) : (varint32 n).length ≤ 5 := by
  have h : n % 2 ^ 32 < 128 ^ 5 := by
    have h2 : n % 2 ^ 32 < 2 ^ 32 := Nat.mod_lt n (by norm_num)
    have h3 : (2 : Nat) ^ 32 < 128 ^ 5 := by norm_num
    omega
  rw [varint32, varintS_eq]
  exact varint_length_le 4 (n % 2 ^ 32) h

theorem keysBytes_le : ∀ ks : List (List Nat), (∀ k ∈ ks, k.length ≤ 64) →
    ((ks.map encStr).flatten).length ≤ 65 * ks.length := by
  intro ks
  induction ks with
  | nil => intro _; simp
  | cons k t ih =>
      intro hb
      simp only [List.map_cons, List.flatten_cons, List.length_append, List.length_cons]
      have hk : k.length ≤ 64 := hb k (by simp)
      have h1 : (encStr k).length ≤ 65 := by
        simp only [encStr, List.length_append, varint_small (show k.length < 128 by omega),
          List.length_cons, List.length_nil]
        omega
      have h2 := ih (fun k2 hk2 => hb k2 (by simp [hk2]))
      omega

theorem childBytes_le : ∀ cs : List Nat, ((cs.map varint32).flatten).length ≤ 5 * cs.length := by
  intro cs
  induction cs with
  | nil => simp
  | cons c t ih =>
      simp only [List.map_cons, List.flatten_cons, List.length_append, List.length_cons]
      have := varint32_length_le c
      omega

/-- Any node with at most 51 keys of at most 64 bytes each and at most 52
children serializes strictly below the truncation boundary. -/
theorem nodeBytes_le (n : BTreeNode) (h50 : n.keys.length ≤ 51)
    (hcl : n.children.length ≤ 52) (hkl : ∀ k ∈ n.keys, k.length ≤ 64) :
    (nodeBytes n).length ≤ 3996 := by
  have h1 := varint32_length_le n.id
  have h2 : (match n.parent with
      | none => [0]
      | some p => 1 :: varint32 p).length ≤ 6 := by
    cases n.parent with
    | none => simp
    | some p =>
        have := varint32_length_le p
        simp only [List.length_cons]
        omega
  have h3 : (match n.node_type with
      | NodeType.internal => [0]
      | NodeType.leaf => [1]).length = 1 := by
    cases n.node_type <;> rfl
  have h4 : (varint n.keys.length).length = 1 := by
    rw [varint_small (by omega)]; rfl
  have h5 := keysBytes_le n.keys hkl
  have h6 : (varint n.children.length).length = 1 := by
    rw [varint_small (by omega)]; rfl
  have h7 := childBytes_le n.children
  simp only [nodeBytes, varintS_eq, encStrS_fun, List.length_append]
  omega

theorem decU32_varint32 (v : Nat) (rest : List Nat) (h : v < 2 ^ 32) :
    decU32 (varint32 v ++ rest) = some (v, rest) := by
  rw [varint32, Nat.mod_eq_of_lt h, varintS_eq]
  simp only [decU32, varintDec_varint]
  rw [if_pos h]

theorem decKeyList_enc : ∀ (ks : List (List Nat)) (rest : List Nat),
    decKeyList ks.length ((ks.map encStr).flatten ++ rest) = some (ks, rest) := by
  intro ks
  induction ks with
  | nil => intro rest; simp [decKeyList]
  | cons k t ih =>
      intro rest
      simp only [List.map_cons, List.flatten_cons, List.length_cons, List.append_assoc]
      simp only [decKeyList, decStr_encStr, ih]

theorem decChildList_enc : ∀ (cs : List Nat) (rest : List Nat), (∀ v ∈ cs, v < 2 ^ 32) →
    decChildList cs.length ((cs.map varint32).flatten ++ rest) = some (cs, rest) := by
  intro cs
  induction cs with
  | nil => intro rest _; simp [decChildList]
  | cons c t ih =>
      intro rest hb
      simp only [List.map_cons, List.flatten_cons, List.length_cons, List.append_assoc]
      have hc := decU32_varint32 c ((t.map varint32).flatten ++ rest) (hb c (by simp))
      have ht := ih rest (fun v hv => hb v (by simp [hv]))
      simp only [decChildList, hc, ht]

theorem decNodeRest_enc (id : Nat) (parent : Option Nat) (ty : NodeType)
    (keys : List (List Nat)) (children : List Nat) (hc : ∀ v ∈ children, v < 2 ^ 32) :
    decNodeRest id parent
      ((match ty with
        | NodeType.internal => [0]
        | NodeType.leaf => [1]) ++
       (varint keys.length ++ ((keys.map encStr).flatten ++
        (varint children.length ++ (children.map varint32).flatten)))) =
      some ⟨id, parent, ty, keys, children⟩ := by
  have hcl : decChildList children.length ((children.map varint32).flatten) =
      some (children, []) := by
    have := decChildList_enc children [] hc
    rwa [List.append_nil] at this
  cases ty with
  | internal =>
      simp only [List.cons_append, List.nil_append]
      simp [decNodeRest, varintDec, varintDec_varint, decKeyList_enc, hcl]
  | leaf =>
      simp only [List.cons_append, List.nil_append]
      simp [decNodeRest, varintDec, varintDec_varint, decKeyList_enc, hcl]

theorem decNode_tagNone (id : Nat) (R : List Nat) (h1 : id < 2 ^ 32) :
    decNode (varint32 id ++ 0 :: R) = decNodeRest id none R := by
  have hid := decU32_varint32 id (0 :: R) h1
  simp only [decNode, hid]

theorem decNode_tagSome (id p : Nat) (R : List Nat) (h1 : id < 2 ^ 32) (hp : p < 2 ^ 32) :
    decNode (varint32 id ++ 1 :: (varint32 p ++ R)) = decNodeRest id (some p) R := by
  have hid := decU32_varint32 id (1 :: (varint32 p ++ R)) h1
  have hpd := decU32_varint32 p R hp
  simp only [decNode, hid, hpd]

/-- Encode/decode round trip for nodes whose `u32` fields are in range:
the image `write_node` produces decodes back to the same node. -/
theorem decNode_nodeBytes (n : BTreeNode) (hb : NodeB n) : decNode (nodeBytes n) = some n := by
  obtain ⟨id, parent, ty, keys, children⟩ := n
  obtain ⟨h1, h2, h3, h4⟩ := hb
  simp only at h1 h2 h3 h4
  have hrest := decNodeRest_enc id parent ty keys children h4
  cases parent with
  | none =>
      simp only [nodeBytes, varintS_eq, encStrS_fun, List.append_assoc, List.cons_append,
        List.nil_append]
      rw [decNode_tagNone _ _ h1]
      exact hrest
  | some p =>
      have hp : p < 2 ^ 32 := h2 p rfl
      simp only [nodeBytes, varintS_eq, encStrS_fun, List.append_assoc, List.cons_append,
        List.nil_append]
      rw [decNode_tagSome _ _ _ h1 hp]
      exact hrest

/-- A write of a node within the invariant bounds is loss-free: it
passes `write_node`'s size check and its image survives the pager's
truncation unchanged, so the page afterwards holds exactly the node. -/
theorem Store.write_put (s : Store) (n : BTreeNode) (h50 : n.keys.length ≤ 51)
    (hcl : n.children.length ≤ 52) (hb : NodeB n) :
    Store.write s n = some (Store.put s n) := by
  have hle := nodeBytes_le n h50 hcl hb.2.2.1
  have hdec := decNode_nodeBytes n hb
  have hgt : ¬ (DATA_SIZE < (nodeBytes n).length) := by
    simp only [DATA_SIZE]
    omega
  simp only [Store.write, Store.put, storedBytes, if_neg hgt, if_pos hle, hdec]

theorem szV_pos (v : DataValue) : 1 ≤ szV v := by
  cases v <;> simp [szV]

theorem dec_enc (fuel : Nat) :
    (∀ v rest, wfV v = true → szV v ≤ fuel → decVal fuel (encVal v ++ rest) = some (v, rest)) ∧
    (∀ xs rest, wfL xs = true → szL xs ≤ fuel →
      decList fuel xs.length (encList xs ++ rest) = some (xs, rest)) ∧
    (∀ kvs rest, wfK kvs = true → szK kvs ≤ fuel →
      decKvs fuel kvs.length (encKvs kvs ++ rest) = some (kvs, rest)) := by
  induction fuel with
  | zero =>
    refine ⟨fun v rest _ h => absurd h (by have := szV_pos v; omega), ?_, ?_⟩
    · intro xs rest _ h
      cases xs with
      | nil => simp [decList, encList, ValueList.length]
      | cons v tl =>
          exfalso
          have h1 := szV_pos v
          simp [szL] at h
          omega
    · intro kvs rest _ h
      cases kvs with
      | nil => simp [decKvs, encKvs, KvList.length]
      | cons k v tl =>
          exfalso
          have h1 := szV_pos v
          simp [szK] at h
          omega
  | succ fuel ih =>
    obtain ⟨ihv, ihl, ihk⟩ := ih
    have hv : ∀ v rest, wfV v = true → szV v ≤ fuel + 1 →
        decVal (fuel + 1) (encVal v ++ rest) = some (v, rest) := by
      intro v rest hwf hsz
      cases v with
      | null =>
          simp [decVal, encVal, List.append_assoc, varintDec_varint]
      | boolean b =>
          cases b <;>
            simp [decVal, encVal, List.append_assoc, varintDec_varint]
      | integer i =>
          simp [decVal, encVal, List.append_assoc, varintDec_varint, unzigzag_zigzag]
      | float bits =>
          have hb : bits < 256 ^ 8 := by
            have : (256 : Nat) ^ 8 = 2 ^ 64 := by norm_num
            rw [this]
            simpa [wfV] using hwf
          simp only [decVal, encVal, List.append_assoc, varintDec_varint]
          have hlen : 8 ≤ (leBytes 8 bits ++ rest).length := by simp
          simp [hlen, List.take_left' (leBytes_length 8 bits),
            List.drop_left' (leBytes_length 8 bits), leVal_leBytes 8 bits hb]
      | text s =>
          simp [decVal, encVal, List.append_assoc, varintDec_varint, decStr_encStr]
      | binary bs =>
          simp [decVal, encVal, List.append_assoc, varintDec_varint, decStr_encStr]
      | encrypted bs =>
          simp [decVal, encVal, List.append_assoc, varintDec_varint, decStr_encStr]
      | array xs =>
          have hwf2 : wfL xs = true := by simpa [wfV] using hwf
          have hsz2 : szL xs ≤ fuel := by simp [szV] at hsz; omega
          simp [decVal, encVal, List.append_assoc, varintDec_varint, ihl xs rest hwf2 hsz2]
      | object kvs =>
          have hwf2 : wfK kvs = true := by simpa [wfV] using hwf
          have hsz2 : szK kvs ≤ fuel := by simp [szV] at hsz; omega
          simp [decVal, encVal, List.append_assoc, varintDec_varint, ihk kvs rest hwf2 hsz2]
    have hl : ∀ n xs rest, ValueList.length xs = n → wfL xs = true → szL xs ≤ fuel + 1 →
        decList (fuel + 1) xs.length (encList xs ++ rest) = some (xs, rest) := by
      intro n
      induction n with
      | zero =>
          intro xs rest hn _ _
          cases xs with
          | nil => simp [decList, encList, ValueList.length]
          | cons v tl => simp [ValueList.length] at hn
      | succ n ihn =>
          intro xs rest hn hwf h
          cases xs with
          | nil => simp [decList, encList, ValueList.length]
          | cons v tl =>
              simp only [szL, Nat.max_le] at h
              simp only [wfL, Bool.and_eq_true] at hwf
              have htn : ValueList.length tl = n := by
                simp [ValueList.length] at hn; omega
              have e1 := hv v (encList tl ++ rest) hwf.1 h.1
              have e2 := ihn tl rest htn hwf.2 h.2
              have hlen : (ValueList.cons v tl).length = tl.length + 1 := by
                simp [ValueList.length, Nat.add_comm]
              rw [hlen]
              simp [decList, encList, List.append_assoc, e1, e2]
    have hk : ∀ n kvs rest, KvList.length kvs = n → wfK kvs = true → szK kvs ≤ fuel + 1 →
        decKvs (fuel + 1) kvs.length (encKvs kvs ++ rest) = some (kvs, rest) := by
      intro n
      induction n with
      | zero =>
          intro kvs rest hn _ _
          cases kvs with
          | nil => simp [decKvs, encKvs, KvList.length]
          | cons k v tl => simp [KvList.length] at hn
      | succ n ihn =>
          intro kvs rest hn hwf h
          cases kvs with
          | nil => simp [decKvs, encKvs, KvList.length]
          | cons k v tl =>
              simp only [szK, Nat.max_le] at h
              simp only [wfK, Bool.and_eq_true] at hwf
              have htn : KvList.length tl = n := by
                simp [KvList.length] at hn; omega
              have e1 := hv v (encKvs tl ++ rest) hwf.2.1 h.1
              have e2 := ihn tl rest htn hwf.2.2 h.2
              have hlen : (KvList.cons k v tl).length = tl.length + 1 := by
                simp [KvList.length, Nat.add_comm]
              rw [hlen]
              simp [decKvs, encKvs, List.append_assoc, decStr_encStr, e1, e2]
    exact ⟨hv, fun xs rest => hl xs.length xs rest rfl, fun kvs rest => hk kvs.length kvs rest rfl⟩

mutual
/-- Size bound: the decoding depth never exceeds the encoded length. -/
theorem szV_le_enc : ∀ v : DataValue, szV v ≤ (encVal v).length
  | .null => by simp [szV, encVal, varint_small]
  | .boolean b => by simp [szV, encVal, varint_small]
  | .integer i => by simp [szV, encVal, varint_small]
  | .float bits => by simp [szV, encVal, varint_small]
  | .text s => by simp [szV, encVal, varint_small, encStr]
  | .binary bs => by simp [szV, encVal, varint_small, encStr]
  | .encrypted bs => by simp [szV, encVal, varint_small, encStr]
  | .array xs => by
      have h := szL_le_enc xs
      have hp : 1 ≤ (varint (ValueList.length xs)).length := varint_length_pos _
      simp only [szV, encVal, List.length_append, varint_small (by omega : (7:Nat) < 128)]
      simp
      omega
  | .object kvs => by
      have h := szK_le_enc kvs
      have hp : 1 ≤ (varint (KvList.length kvs)).length := varint_length_pos _
      simp only [szV, encVal, List.length_append, varint_small (by omega : (8:Nat) < 128)]
      simp
      omega

theorem szL_le_enc : ∀ xs : ValueList, szL xs ≤ (encList xs).length
  | .nil => by simp [szL, encList]
  | .cons v tl => by
      have h1 := szV_le_enc v
      have h2 := szL_le_enc tl
      simp only [szL, encList, List.length_append, Nat.max_le]
      omega

theorem szK_le_enc : ∀ kvs : KvList, szK kvs ≤ (encKvs kvs).length
  | .nil => by simp [szK, encKvs]
  | .cons k v tl => by
      have h1 := szV_le_enc v
      have h2 := szK_le_enc tl
      simp only [szK, encKvs, List.length_append, Nat.max_le]
      omega
end

theorem from_bytes_to_bytes (doc : AuraDocument) (hwf : wfK doc.data = true) :
    from_bytes (to_bytes doc) = some doc := by
  have hsz : szK doc.data ≤ (encKvs doc.data).length + 1 :=
    le_trans (szK_le_enc _) (by omega)
  have hdec := (dec_enc ((encKvs doc.data).length + 1)).2.2 doc.data [] hwf hsz
  simp only [List.append_nil] at hdec
  simp only [from_bytes, to_bytes, List.append_assoc, decStr_encStr, varintDec_varint]
  rw [hdec]

theorem kvsSubEq_cons : ∀ (a b : KvList) (k : List Nat) (v : DataValue),
    kvHasKey a k = false → kvsSubEq a b = true → kvsSubEq a (.cons k v b) = true
  | .nil, _, _, _, _, _ => by simp [kvsSubEq]
  | .cons k' v' tl, b, k, v, h1, h2 => by
      simp only [kvHasKey, Bool.or_eq_false_iff, beq_eq_false_iff_ne, ne_eq] at h1
      simp only [kvsSubEq, Bool.and_eq_true] at h2 ⊢
      refine ⟨?_, kvsSubEq_cons tl b k v h1.2 h2.2⟩
      have hne : (k == k') = false := by
        simp only [beq_eq_false_iff_ne, ne_eq]
        exact fun hk => h1.1 hk.symm
      simpa [kvLookup, hne] using h2.1

mutual
/-- Rust `==` is reflexive on NaN-free well-formed values. -/
theorem valEq_refl : ∀ v : DataValue, wfV v = true → noNanV v = true → valEq v v = true
  | .null, _, _ => by simp [valEq]
  | .boolean b, _, _ => by simp [valEq]
  | .integer i, _, _ => by simp [valEq]
  | .float bits, _, hn => by
      simp only [noNanV] at hn
      simp [valEq, f64eq, hn]
  | .text s, _, _ => by simp [valEq]
  | .binary bs, _, _ => by simp [valEq]
  | .encrypted bs, _, _ => by simp [valEq]
  | .array xs, hw, hn => by
      simp only [wfV] at hw
      simp only [noNanV] at hn
      simp [valEq, listValEq_refl xs hw hn]
  | .object kvs, hw, hn => by
      simp only [wfV] at hw
      simp only [noNanV] at hn
      simp [valEq, kvsSubEq_refl kvs hw hn]
termination_by v => sizeOf v

theorem listValEq_refl : ∀ xs : ValueList, wfL xs = true → noNanL xs = true →
    listValEq xs xs = true
  | .nil, _, _ => by simp [listValEq]
  | .cons v tl, hw, hn => by
      simp only [wfL, Bool.and_eq_true] at hw
      simp only [noNanL, Bool.and_eq_true] at hn
      simp [listValEq, valEq_refl v hw.1 hn.1, listValEq_refl tl hw.2 hn.2]
termination_by xs => sizeOf xs

theorem kvsSubEq_refl : ∀ a : KvList, wfK a = true → noNanK a = true → kvsSubEq a a = true
  | .nil, _, _ => by simp [kvsSubEq]
  | .cons k v tl, hw, hn => by
      simp only [wfK, Bool.and_eq_true, Bool.not_eq_true'] at hw
      simp only [noNanK, Bool.and_eq_true] at hn
      simp only [kvsSubEq, Bool.and_eq_true]
      refine ⟨?_, kvsSubEq_cons tl tl k v hw.1 (kvsSubEq_refl tl hw.2.2 hn.2)⟩
      simp [kvLookup, valEq_refl v hw.2.1 hn.1]
termination_by a => sizeOf a
end

/-- Rust `==` is reflexive on NaN-free well-formed documents. -/
theorem docEq_refl (doc : AuraDocument) (hw : wfK doc.data = true)
    (hn : noNanK doc.data = true) : docEq doc doc = true := by
  simp [docEq, kvsSubEq_refl doc.data hw hn]

/-- C7 (amended): for every well-formed document `D` (floats fit in 64
bits, map keys distinct — both guaranteed by the Rust types),
`from_bytes(to_bytes(D))` succeeds and returns a structurally identical
document, and that document is equal to `D` in the Rust `==` sense
whenever no float value in `D` is a NaN. -/
theorem document_roundtrip (doc : AuraDocument) (hwf : wfK doc.data = true) :
    from_bytes (to_bytes doc) = some doc ∧
      (noNanK doc.data = true → docEq doc doc = true) :=
  ⟨from_bytes_to_bytes doc hwf,
   fun hn => docEq_refl doc hwf hn⟩

/-- Witness for `document_roundtrip` at a concrete multi-variant document. -/
theorem document_roundtrip_witness :
    wfK witDoc.data = true ∧
      (from_bytes (to_bytes witDoc) = some witDoc ∧
        (noNanK witDoc.data = true → docEq witDoc witDoc = true)) :=
  ⟨by decide, document_roundtrip witDoc (by decide)⟩

/-- C7 counterexample: for the NaN document the round trip returns a
bit-identical document, but that document is *not* `==`-equal to the
original (`NaN != NaN` propagates through the derived `PartialEq`), so the
claim `from_bytes(to_bytes(D)) == D` fails at `D = nanDoc`. -/
theorem document_roundtrip_nan_counterexample :
    from_bytes (to_bytes nanDoc) = some nanDoc ∧ docEq nanDoc nanDoc = false := by
  constructor
  · exact from_bytes_to_bytes nanDoc (by decide)
  · decide

theorem writeAt_prefix_length (file : List Nat) (off : Nat) :
    (file.take off ++ List.replicate (off - file.length) 0).length = off := by
  simp [List.length_take]
  omega

theorem readAt_writeAt (file : List Nat) (off : Nat) (bytes : List Nat) :
    readAt (writeAt file off bytes) off bytes.length = some bytes := by
  have hpre := writeAt_prefix_length file off
  have hw : writeAt file off bytes =
      (file.take off ++ List.replicate (off - file.length) 0) ++
        (bytes ++ file.drop (off + bytes.length)) := by
    simp [writeAt]
  rw [readAt, hw]
  rw [if_pos (by simp [hpre]; omega)]
  rw [List.drop_append_of_le_length (by omega), List.drop_of_length_le (by omega)]
  simp [hpre, List.take_left]

theorem pageBytes_length (p : Page) (h5 : p.reserved.length = 88) (h6 : p.data.length = DATA_SIZE) :
    (pageBytes p).length = PAGE_SIZE := by
  simp [pageBytes, h5, h6, DATA_SIZE, PAGE_SIZE]

theorem pageBytes_cons (p : Page) :
    pageBytes p =
      p.id % 256 :: p.id / 256 % 256 :: p.id / 256 / 256 % 256 :: p.id / 256 / 256 / 256 % 256 ::
      p.page_type % 256 :: 0 ::
      p.used_space % 256 :: p.used_space / 256 % 256 ::
      p.next_page % 256 :: p.next_page / 256 % 256 :: p.next_page / 256 / 256 % 256 ::
      p.next_page / 256 / 256 / 256 % 256 ::
      (p.reserved ++ p.data).take 4084 := rfl

theorem bytesToPage_pageBytes (p : Page) (h : p.wf) :
    bytesToPage (pageBytes p) = { p with data := p.data.take 3996 ++ [0] } := by
  obtain ⟨h1, h2, h3, h4, h5, h6⟩ := h
  have htail : (p.reserved ++ p.data).take 4084 = p.reserved ++ p.data.take 3996 := by
    rw [List.take_append_eq_append_take, List.take_of_length_le (by omega), h5]
  have himg : pageBytes p =
      p.id % 256 :: p.id / 256 % 256 :: p.id / 256 / 256 % 256 :: p.id / 256 / 256 / 256 % 256 ::
      p.page_type % 256 :: 0 ::
      p.used_space % 256 :: p.used_space / 256 % 256 ::
      p.next_page % 256 :: p.next_page / 256 % 256 :: p.next_page / 256 / 256 % 256 ::
      p.next_page / 256 / 256 / 256 % 256 ::
      (p.reserved ++ p.data.take 3996) := by rw [pageBytes_cons, htail]
  rw [himg]
  have hid : leVal [p.id % 256, p.id / 256 % 256, p.id / 256 / 256 % 256,
      p.id / 256 / 256 / 256 % 256] = p.id := by
    simp only [leVal]
    omega
  have hpt : leVal [p.page_type % 256] = p.page_type := by
    simp only [leVal]
    omega
  have hus : leVal [p.used_space % 256, p.used_space / 256 % 256] = p.used_space := by
    simp only [leVal]
    omega
  have hnp : leVal [p.next_page % 256, p.next_page / 256 % 256, p.next_page / 256 / 256 % 256,
      p.next_page / 256 / 256 / 256 % 256] = p.next_page := by
    simp only [leVal]
    omega
  have hres : ((p.reserved ++ p.data.take 3996) : List Nat).take 88 = p.reserved :=
    List.take_left' h5
  have hdat : ((p.reserved ++ p.data.take 3996) : List Nat).drop 88 = p.data.take 3996 :=
    List.drop_left' h5
  simp only [bytesToPage, Page.mk.injEq]
  refine ⟨hid, hpt, hus, hnp, hres, ?_⟩
  show ((p.reserved ++ p.data.take 3996).drop 88).take 3996 ++ [0] = p.data.take 3996 ++ [0]
  rw [hdat]
  simp [List.take_take]

theorem page_write_read_aux (p : Pager) (pg : Page) (nonce : List Nat)
    (hkey : p.master_key.length = 32) (hn : nonce.length = 24) (hwf : pg.wf) :
    ∃ p', write_page p pg nonce = .ok p' ∧
      p'.total_pages = (if p.total_pages ≤ pg.id then pg.id + 1 else p.total_pages) ∧
      p'.index = p.index ∧
      read_page p' pg.id = .ok { pg with data := pg.data.take 3996 ++ [0] } := by
  obtain ⟨out, henc⟩ := (encrypt_ok_iff (pageBytes pg) p.master_key nonce).2 hkey
  have hshape := encrypt_ok_shape _ _ _ _ henc
  have hple : (pageBytes pg).length = PAGE_SIZE :=
    pageBytes_length pg hwf.2.2.2.2.1 hwf.2.2.2.2.2
  have hlen : out.length = ENCRYPTED_PAGE_SIZE := by
    rw [hshape]
    simp [hn, hple, ENCRYPTED_PAGE_SIZE, NONCE_SIZE, TAG_SIZE]
    omega
  have hdec : decrypt out p.master_key = .ok (pageBytes pg) :=
    decrypt_encrypt _ _ _ _ hn henc
  refine ⟨⟨writeAt p.file (pg.id * ENCRYPTED_PAGE_SIZE) out,
    (if p.total_pages ≤ pg.id then pg.id + 1 else p.total_pages), p.master_key, p.index⟩,
    by rw [write_page, henc], rfl, rfl, ?_⟩
  have hra := readAt_writeAt p.file (pg.id * ENCRYPTED_PAGE_SIZE) out
  rw [hlen] at hra
  simp only [read_page]
  rw [if_neg (by split <;> omega)]
  rw [hra]
  simp [hdec, hple, bytesToPage_pageBytes pg hwf]

/-- C2 (amended): writing any page `P` and reading back `P.id` on the
same pager returns a page equal to `P` in `id`, `page_type`,
`used_space`, `next_page` and `reserved`, and equal to `P` in the first
3996 bytes of `data`; the 3997th `data` byte always reads back as `0`,
because the `repr(C)` struct is 4100 bytes and only its first 4096 bytes
are encrypted and persisted. -/
theorem write_then_read_page (p : Pager) (pg : Page) (nonce : List Nat)
    (hkey : p.master_key.length = 32) (hn : nonce.length = 24) (hwf : pg.wf) :
    ∃ p', write_page p pg nonce = .ok p' ∧
      read_page p' pg.id = .ok { pg with data := pg.data.take 3996 ++ [0] } := by
  obtain ⟨p', h1, _, _, h2⟩ := page_write_read_aux p pg nonce hkey hn hwf
  exact ⟨p', h1, h2⟩

theorem cePager_key_length : cePager.master_key.length = 32 := by
  show (List.replicate 32 (0 : Nat)).length = 32
  simp only [List.length_replicate]

theorem ceNonce_length : ceNonce.length = 24 := by
  show (List.replicate 24 (5 : Nat)).length = 24
  simp only [List.length_replicate]

theorem pageNew_wf (id : Nat) (h : id < 2 ^ 32) : (Page.new id).wf := by
  refine ⟨h, ?_, ?_, ?_, ?_, ?_⟩
  · show (1 : Nat) < 2 ^ 8
    norm_num
  · show (0 : Nat) < 2 ^ 16
    norm_num
  · show (0 : Nat) < 2 ^ 32
    norm_num
  · show (List.replicate 88 (0 : Nat)).length = 88
    simp only [List.length_replicate]
  · show (List.replicate DATA_SIZE (0 : Nat)).length = DATA_SIZE
    simp only [List.length_replicate]

theorem cePage_wf : cePage.wf := by
  refine ⟨?_, ?_, ?_, ?_, ?_, ?_⟩
  · show (0 : Nat) < 2 ^ 32
    norm_num
  · show (1 : Nat) < 2 ^ 8
    norm_num
  · show (42 : Nat) < 2 ^ 16
    norm_num
  · show (0 : Nat) < 2 ^ 32
    norm_num
  · show (List.replicate 88 (0 : Nat)).length = 88
    simp only [List.length_replicate]
  · show (List.replicate 3996 (0 : Nat) ++ [7]).length = DATA_SIZE
    simp only [List.length_append, List.length_replicate, List.length_cons, List.length_nil,
      DATA_SIZE]

/-- Witness for `write_then_read_page` at a concrete page and pager. -/
theorem write_then_read_page_witness :
    (cePager.master_key.length = 32 ∧ ceNonce.length = 24 ∧ (Page.new 3).wf) ∧
      ∃ p', write_page cePager (Page.new 3) ceNonce = .ok p' ∧
        read_page p' (Page.new 3).id =
          .ok { Page.new 3 with data := (Page.new 3).data.take 3996 ++ [0] } :=
  ⟨⟨cePager_key_length, ceNonce_length, pageNew_wf 3 (by norm_num)⟩,
   write_then_read_page cePager (Page.new 3) ceNonce cePager_key_length ceNonce_length
     (pageNew_wf 3 (by norm_num))⟩

/-- C2 counterexample: for the page whose last `data` byte is `7`, the
write/read round trip succeeds but returns `0` in that byte, so the page
read back is *not* equal to the page written in the full 3997-byte data
array (refuting the claim as stated). -/
theorem write_then_read_page_counterexample :
    cePage.wf ∧ cePager.master_key.length = 32 ∧
      pageRoundTrip cePager cePage ceNonce =
        some { cePage with data := List.replicate 3996 0 ++ [0] } ∧
      ({ cePage with data := List.replicate 3996 0 ++ [0] } : Page).data ≠ cePage.data := by
  obtain ⟨p', h1, _, _, h2⟩ :=
    page_write_read_aux cePager cePage ceNonce cePager_key_length ceNonce_length cePage_wf
  refine ⟨cePage_wf, cePager_key_length, ?_, ?_⟩
  · have htake : cePage.data.take 3996 = List.replicate 3996 0 := by
      show (List.replicate 3996 0 ++ [7]).take 3996 = List.replicate 3996 0
      exact List.take_left' (by simp only [List.length_replicate])
    simp only [pageRoundTrip, h1, h2, htake]
  · show List.replicate 3996 0 ++ [0] ≠ List.replicate 3996 0 ++ [7]
    intro hcontra
    have := List.append_inj_right hcontra (by simp only [List.length_replicate])
    simp at this

/-- C8: `encrypt` succeeds exactly when the key is 32 bytes; on success
the output is `nonce ‖ ciphertext ‖ tag` of length `24 + |plaintext| +
16`. -/
theorem encrypt_output_spec (data key nonce : List Nat) (hn : nonce.length = 24) :
    ((∃ out, encrypt data key nonce = .ok out) ↔ key.length = 32) ∧
      ∀ out, encrypt data key nonce = .ok out →
        out.length = 24 + data.length + 16 ∧ out.take 24 = nonce ∧
          ∃ ct tag, out = nonce ++ ct ++ tag ∧ ct.length = data.length ∧ tag.length = 16 := by
  refine ⟨encrypt_ok_iff data key nonce, ?_⟩
  intro out hout
  have hshape := encrypt_ok_shape _ _ _ _ hout
  subst hshape
  refine ⟨by simp [hn]; omega, ?_, ?_⟩
  · rw [List.append_assoc, List.take_left' hn]
  · exact ⟨streamX key nonce 0 data, tagBytes key nonce (streamX key nonce 0 data),
      rfl, streamX_length .., tagBytes_length ..⟩

/-- Witness for `encrypt_output_spec` at a concrete plaintext and key. -/
theorem encrypt_output_spec_witness :
    ∃ out, encrypt [1, 2] (List.replicate 32 0) (List.replicate 24 9) = .ok out ∧
      out.length = 24 + 2 + 16 := by
  obtain ⟨hiff, hshape⟩ :=
    encrypt_output_spec [1, 2] (List.replicate 32 0) (List.replicate 24 9) (by decide)
  obtain ⟨out, hout⟩ := hiff.2 (by decide)
  exact ⟨out, hout, (hshape out hout).1⟩

/-- C4 (amended): `read_page(id)` returns `PageNotFound(id)` iff
`id ≥ total_pages`.  When `id < total_pages` *and* the whole 4136-byte
record at offset `id * 4136` lies within the file, the result is
`Tampered(id)` exactly when decryption fails (tag mismatch) or the
decrypted length differs from 4096, and otherwise the page rebuilt from
the plaintext; when the record extends past the end of the file the
`read_exact` fails and the result is an I/O error instead. -/
theorem read_page_spec (p : Pager) (id : Nat) :
    (read_page p id = .error (.pageNotFound id) ↔ p.total_pages ≤ id) ∧
    (id < p.total_pages →
      ∀ enc, readAt p.file (id * ENCRYPTED_PAGE_SIZE) ENCRYPTED_PAGE_SIZE = some enc →
        (read_page p id = .error (.tampered id) ↔
          (∀ pt, decrypt enc p.master_key ≠ .ok pt) ∨
            (∃ pt, decrypt enc p.master_key = .ok pt ∧ pt.length ≠ PAGE_SIZE)) ∧
        (∀ pt, decrypt enc p.master_key = .ok pt → pt.length = PAGE_SIZE →
          read_page p id = .ok (bytesToPage pt))) ∧
    (id < p.total_pages → p.file.length < (id + 1) * ENCRYPTED_PAGE_SIZE →
      read_page p id = .error .io) := by
  have hEPS : ENCRYPTED_PAGE_SIZE = 4136 := rfl
  refine ⟨⟨?_, ?_⟩, ?_, ?_⟩
  · intro h
    by_contra hlt
    rw [read_page, if_neg hlt] at h
    cases hread : readAt p.file (id * ENCRYPTED_PAGE_SIZE) ENCRYPTED_PAGE_SIZE with
    | none => rw [hread] at h; simp at h
    | some enc =>
        rw [hread] at h
        simp only [] at h
        cases hdec : decrypt enc p.master_key with
        | error e => rw [hdec] at h; simp at h
        | ok pt =>
            rw [hdec] at h
            by_cases hl : pt.length = PAGE_SIZE <;> simp [hl] at h
  · intro h
    rw [read_page, if_pos h]
  · intro hlt enc hread
    rw [read_page, if_neg (by omega), hread]
    simp only []
    constructor
    · cases hdec : decrypt enc p.master_key with
      | error e =>
          simp only []
          constructor
          · intro _
            exact Or.inl fun pt hpt => Except.noConfusion hpt
          · intro _
            trivial
      | ok pt =>
          simp only []
          by_cases hl : pt.length ≠ PAGE_SIZE
          · rw [if_pos hl]
            constructor
            · intro _
              exact Or.inr ⟨pt, rfl, hl⟩
            · intro _
              trivial
          · rw [if_neg hl]
            push_neg at hl
            constructor
            · intro hcontra
              exact absurd hcontra (by simp)
            · rintro (hall | ⟨pt2, hpt2, hlen2⟩)
              · exact absurd rfl (hall pt)
              · injection hpt2 with h2
                subst h2
                exact absurd hl hlen2
    · intro pt hpt hlen
      rw [hpt]
      simp [hlen]
  · intro hlt hshort
    rw [read_page, if_neg (by omega)]
    have hnone : readAt p.file (id * ENCRYPTED_PAGE_SIZE) ENCRYPTED_PAGE_SIZE = none := by
      rw [readAt, if_neg (by rw [hEPS] at hshort ⊢; omega)]
    rw [hnone]

/-- Witness for `read_page_spec`: on the reachable state `allocPager`
(empty file, `total_pages = 2`) page 0 passes the bounds check and the
read fails with an I/O error. -/
theorem read_page_spec_witness :
    (0 < allocPager.total_pages ∧ allocPager.file.length < (0 + 1) * ENCRYPTED_PAGE_SIZE) ∧
      read_page allocPager 0 = .error .io :=
  ⟨⟨by decide, by decide⟩,
   (read_page_spec allocPager 0).2.2 (by decide) (by decide)⟩

/-- C4 counterexample: in the reachable state `allocPager` we have
`0 < total_pages`, yet `read_page 0` returns neither `Tampered(0)` nor a
page — it returns an I/O error, refuting the claimed dichotomy for
in-bounds ids. -/
theorem read_page_spec_counterexample :
    0 < allocPager.total_pages ∧ read_page allocPager 0 = .error .io ∧
      StoreError.io ≠ .tampered 0 ∧ StoreError.io ≠ .pageNotFound 0 := by
  refine ⟨by decide, rfl, by decide, by decide⟩

/-- C6 (amended): `Pager::open` does not reject file lengths that are not
multiples of 4136: it always succeeds (absent I/O errors, which the model
does not produce) and sets `total_pages` to the *truncating* division
`file_len / 4136`, silently ignoring any trailing partial record. -/
theorem open_pager_no_length_check (file key : List Nat) :
    ∃ p, open_pager file key = .ok p ∧ p.total_pages = file.length / ENCRYPTED_PAGE_SIZE ∧
      p.file = file ∧ p.master_key = key := by
  simp only [open_pager]
  repeat' split
  all_goals exact ⟨_, rfl, rfl, rfl, rfl⟩

/-- C6 counterexample: a 1-byte file (length not a multiple of 4136) is
opened successfully, refuting the claim that `open` fails on such files. -/
theorem open_pager_counterexample :
    (1 : Nat) % 4136 ≠ 0 ∧
      open_pager [0] (List.replicate 32 0) =
        .ok ⟨[0], 0, List.replicate 32 0, ⟨[], false⟩⟩ := by
  exact ⟨by decide, rfl⟩

/-- C10: on a pager opened over an empty file, the first `allocate_page`
returns id 1 and sets `total_pages` to 2; a following `read_page 0`
passes the bounds check (so it does not return `PageNotFound(0)`) and
fails with an I/O error from reading past the end of the file. -/
theorem allocate_then_read_empty_file (key : List Nat) :
    open_pager [] key = .ok ⟨[], 0, key, ⟨[], false⟩⟩ ∧
    (allocate_page ⟨[], 0, key, ⟨[], false⟩⟩).1 = 1 ∧
    (allocate_page ⟨[], 0, key, ⟨[], false⟩⟩).2.total_pages = 2 ∧
    read_page (allocate_page ⟨[], 0, key, ⟨[], false⟩⟩).2 0 = .error .io ∧
    read_page (allocate_page ⟨[], 0, key, ⟨[], false⟩⟩).2 0 ≠ .error (.pageNotFound 0) := by
  refine ⟨rfl, rfl, rfl, rfl, ?_⟩
  intro h
  have hio : read_page (allocate_page ⟨[], 0, key, ⟨[], false⟩⟩).2 0 = .error .io := rfl
  rw [hio] at h
  simp at h

/-- C5: the executor's SELECT path does *not* use the WHERE literal — it
looks up the hard-coded key `"user_007"` for every statement, so two
statements differing only in the `<pk>` literal produce identical
lookups.  (This refutes the claimed behaviour; the spec itself flags the
hard-coding as a bug.) -/
theorem handle_select_hardcodes_key :
    (∀ (p : Pager) (q1 q2 : SelectQuery), handle_select p q1 = handle_select p q2) ∧
      (∀ q : SelectQuery, selectTargetKey q = user007) ∧
      selectTargetKey ⟨[117, 115, 101, 114, 115], [117, 115, 101, 114, 95, 48, 48, 49]⟩ ≠
        [117, 115, 101, 114, 95, 48, 48, 49] :=
  ⟨fun _ _ _ => rfl, fun _ => rfl, by decide⟩

/-- C9: when the built document serialises to more than 3997 bytes,
`handle_insert` fails with a serialisation error and returns the pager
unchanged — no allocation, no page write, no index change — because the
size check precedes `allocate_page`. -/
theorem insert_oversized_doc_no_mutation (p : Pager) (doc : AuraDocument)
    (nonce1 nonce2 : List Nat) (h : DATA_SIZE < (to_bytes doc).length) :
    handle_insert p doc nonce1 nonce2 = (p, .error .serialization) ∧
      (handle_insert p doc nonce1 nonce2).1.total_pages = p.total_pages ∧
      (handle_insert p doc nonce1 nonce2).1.file = p.file ∧
      (handle_insert p doc nonce1 nonce2).1.index = p.index := by
  have hmain : handle_insert p doc nonce1 nonce2 = (p, .error .serialization) := by
    rw [handle_insert, write_document_to_disk]
    simp only [if_pos h]
  exact ⟨hmain, by rw [hmain], by rw [hmain], by rw [hmain]⟩

theorem varint_two (n : Nat) (h1 : 128 ≤ n) (h2 : n < 16384) :
    varint n = [n % 128 + 128, n / 128] := by
  rw [varint, if_neg (by omega), varint_small (by omega)]

theorem bigDoc_oversized : DATA_SIZE < (to_bytes bigDoc).length := by
  have h1 : varint 1 = [1] := varint_small (by norm_num)
  have h5 : varint 5 = [5] := varint_small (by norm_num)
  have h3996 : varint 3996 = [3996 % 128 + 128, 3996 / 128] :=
    varint_two 3996 (by norm_num) (by norm_num)
  show DATA_SIZE <
    (encStr [107] ++ varint 1 ++ varint (KvList.length (.cons [98]
      (.binary (List.replicate 3996 1)) .nil)) ++
      encKvs (.cons [98] (.binary (List.replicate 3996 1)) .nil)).length
  simp only [encStr, encKvs, encVal, KvList.length, List.append_nil, List.length_append,
    List.length_cons, List.length_nil, List.length_replicate, Nat.add_zero, h1, h5, h3996]
  norm_num [DATA_SIZE]

/-- Witness for `insert_oversized_doc_no_mutation` at `bigDoc`. -/
theorem insert_oversized_doc_no_mutation_witness :
    DATA_SIZE < (to_bytes bigDoc).length ∧
      handle_insert cePager bigDoc ceNonce ceNonce = (cePager, .error .serialization) :=
  ⟨bigDoc_oversized,
   (insert_oversized_doc_no_mutation cePager bigDoc ceNonce ceNonce bigDoc_oversized).1⟩

/-- Witness for `open_pager_no_length_check` at a 1-byte file. -/
theorem open_pager_no_length_check_witness :
    ∃ p, open_pager [0] (List.replicate 32 0) = .ok p ∧
      p.total_pages = ([0] : List Nat).length / ENCRYPTED_PAGE_SIZE ∧
      p.file = [0] ∧ p.master_key = List.replicate 32 0 :=
  open_pager_no_length_check [0] (List.replicate 32 0)

/-- Witness for `allocate_then_read_empty_file` at the all-zero key. -/
theorem allocate_then_read_empty_file_witness :
    open_pager [] (List.replicate 32 0) = .ok ⟨[], 0, List.replicate 32 0, ⟨[], false⟩⟩ ∧
    (allocate_page ⟨[], 0, List.replicate 32 0, ⟨[], false⟩⟩).1 = 1 ∧
    (allocate_page ⟨[], 0, List.replicate 32 0, ⟨[], false⟩⟩).2.total_pages = 2 ∧
    read_page (allocate_page ⟨[], 0, List.replicate 32 0, ⟨[], false⟩⟩).2 0 = .error .io ∧
    read_page (allocate_page ⟨[], 0, List.replicate 32 0, ⟨[], false⟩⟩).2 0 ≠
      .error (.pageNotFound 0) :=
  allocate_then_read_empty_file (List.replicate 32 0)

theorem getElem?_insertIdx_lt {α : Type} {l : List α} {x : α} {n k : Nat}
    (hkn : k < n) (hn : n ≤ l.length) : (l.insertIdx n x)[k]? = l[k]? := by
  have hk : k < l.length := by omega
  have hk2 : k < (l.insertIdx n x).length := by
    rw [List.length_insertIdx n l hn]; omega
  rw [List.getElem?_eq_getElem hk, List.getElem?_eq_getElem hk2,
    List.getElem_insertIdx_of_lt l x n k hkn hk]

theorem getElem?_insertIdx_self_eq {α : Type} {l : List α} {x : α} {n : Nat}
    (hn : n ≤ l.length) : (l.insertIdx n x)[n]? = some x := by
  have hk2 : n < (l.insertIdx n x).length := by
    rw [List.length_insertIdx n l hn]; omega
  rw [List.getElem?_eq_getElem hk2, List.getElem_insertIdx_self l x n hn]

theorem AgreeMod_mono {s s2 : Store} {used used2 : Finset Nat}
    (hsub : used2 ⊆ used) (ha : AgreeMod s s2 used) : AgreeMod s s2 used2 :=
  fun i hi => ha i (hsub hi)

theorem NodeB_parent {n : BTreeNode} {pp : Option Nat} (hb : NodeB n)
    (hpp : ∀ p ∈ pp, p < 2 ^ 32) : NodeB { n with parent := pp } :=
  ⟨hb.1, hpp, hb.2.2.1, hb.2.2.2⟩

theorem fixParents_ok : ∀ (ids : List Nat) (s : Store) (pid : Nat),
    (∀ g ∈ ids, ∃ gn, s.pages g = some gn ∧ gn.id = g ∧
      gn.keys.length ≤ 51 ∧ gn.children.length ≤ 52 ∧ NodeB gn) →
    (∀ g ∈ ids, g < s.total_pages) →
    pid < 2 ^ 32 →
    ∃ s2, fixParents s ids pid = some s2 ∧ s2.total_pages = s.total_pages ∧
      (∀ i, i ∉ ids → s2.pages i = s.pages i) ∧
      (∀ i, s2.pages i = s.pages i ∨
        ∃ n pp, s.pages i = some n ∧ s2.pages i = some { n with parent := pp } ∧
          ∀ p ∈ pp, p < 2 ^ 32) := by
  intro ids
  induction ids with
  | nil =>
      intro s pid hex hlt hp32
      exact ⟨s, rfl, rfl, fun i _ => rfl, fun i => Or.inl rfl⟩
  | cons g rest ih =>
      intro s pid hex hlt hp32
      obtain ⟨gn, hgn, hgid, hgk, hgc, hgb⟩ := hex g (by simp)
      have hpidb : ∀ p ∈ some pid, p < 2 ^ 32 := by
        intro p hp
        simp at hp
        omega
      set s1 := s.put { gn with parent := some pid } with hs1
      have hwOk : s.write { gn with parent := some pid } = some s1 := by
        rw [hs1]
        exact Store.write_put s _ hgk hgc (NodeB_parent hgb hpidb)
      have hw : ∀ i, s1.pages i = if i = g then some { gn with parent := some pid }
          else s.pages i := by
        intro i
        simp [hs1, Store.put, hgid]
      have ht1 : s1.total_pages = s.total_pages := by
        have hg := hlt g (by simp)
        simp [hs1, Store.put, hgid]
        omega
      have hex2 : ∀ g2 ∈ rest, ∃ gn2, s1.pages g2 = some gn2 ∧ gn2.id = g2 ∧
          gn2.keys.length ≤ 51 ∧ gn2.children.length ≤ 52 ∧ NodeB gn2 := by
        intro g2 hg2
        by_cases hgg : g2 = g
        · subst hgg
          exact ⟨{ gn with parent := some pid }, by rw [hw]; simp, hgid, hgk, hgc,
            NodeB_parent hgb hpidb⟩
        · obtain ⟨gn2, h1, h2, h3, h4, h5⟩ := hex g2 (by simp [hg2])
          exact ⟨gn2, by rw [hw, if_neg hgg]; exact h1, h2, h3, h4, h5⟩
      have hlt2 : ∀ g2 ∈ rest, g2 < s1.total_pages := by
        intro g2 hg2
        rw [ht1]
        exact hlt g2 (by simp [hg2])
      obtain ⟨s2, hfx, htp, hfr, hmod⟩ := ih s1 pid hex2 hlt2 hp32
      refine ⟨s2, ?_, by rw [htp, ht1], ?_, ?_⟩
      · simp only [fixParents, Store.read, hgn, hwOk]
        exact hfx
      · intro i hi
        have hig : i ≠ g := fun he => hi (by simp [he])
        have hirest : i ∉ rest := fun he => hi (by simp [he])
        rw [hfr i hirest, hw, if_neg hig]
      · intro i
        by_cases hig : i = g
        · subst hig
          rcases hmod i with h1 | ⟨n, pp, h2, h3, hpb⟩
          · rw [hw] at h1
            simp at h1
            exact Or.inr ⟨gn, some pid, hgn, h1, hpidb⟩
          · rw [hw] at h2
            simp at h2
            refine Or.inr ⟨gn, pp, hgn, ?_, hpb⟩
            rw [h3, ← h2]
        · rcases hmod i with h1 | ⟨n, pp, h2, h3, hpb⟩
          · rw [hw, if_neg hig] at h1
            exact Or.inl h1
          · rw [hw, if_neg hig] at h2
            exact Or.inr ⟨n, pp, h2, h3, hpb⟩

theorem ppoint_le (p : List Nat → Bool) (keys : List (List Nat)) :
    ppoint p keys ≤ keys.length := by
  rw [ppoint]
  induction keys with
  | nil => simp
  | cons a t ih =>
      simp only [List.takeWhile]
      cases p a
      · simp
      · simp
        omega

theorem keyLtB_irrefl : ∀ a : List Nat, keyLtB a a = false := by
  intro a
  induction a with
  | nil => rfl
  | cons x t ih => simp [keyLtB, ih]

theorem keyLtB_trans : ∀ a b c : List Nat,
    keyLtB a b = true → keyLtB b c = true → keyLtB a c = true := by
  intro a
  induction a with
  | nil =>
      intro b c hab hbc
      cases b with
      | nil => simp [keyLtB] at hab
      | cons y bt =>
          cases c with
          | nil => simp [keyLtB] at hbc
          | cons z ct => rfl
  | cons x t ih =>
      intro b c hab hbc
      cases b with
      | nil => simp [keyLtB] at hab
      | cons y bt =>
          cases c with
          | nil => simp [keyLtB] at hbc
          | cons z ct =>
              rw [keyLtB] at hab hbc ⊢
              by_cases hxy : x < y
              · by_cases hyz : y < z
                · rw [if_pos (by omega)]
                · rw [if_neg hyz] at hbc
                  by_cases hzy : z < y
                  · rw [if_pos hzy] at hbc
                    cases hbc
                  · have hyzeq : y = z := by omega
                    subst hyzeq
                    rw [if_pos hxy]
              · rw [if_neg hxy] at hab
                by_cases hyx : y < x
                · rw [if_pos hyx] at hab
                  cases hab
                · rw [if_neg hyx] at hab
                  have hxyeq : x = y := by omega
                  subst hxyeq
                  by_cases hyz : x < z
                  · rw [if_pos hyz]
                  · rw [if_neg hyz] at hbc ⊢
                    by_cases hzy : z < x
                    · rw [if_pos hzy] at hbc
                      cases hbc
                    · rw [if_neg hzy] at hbc ⊢
                      exact ih bt ct hab hbc

theorem keyLtB_tri : ∀ a b : List Nat,
    a = b ∨ keyLtB a b = true ∨ keyLtB b a = true := by
  intro a
  induction a with
  | nil =>
      intro b
      cases b with
      | nil => exact Or.inl rfl
      | cons y bt => exact Or.inr (Or.inl rfl)
  | cons x t ih =>
      intro b
      cases b with
      | nil => exact Or.inr (Or.inr rfl)
      | cons y bt =>
          by_cases hxy : x < y
          · refine Or.inr (Or.inl ?_)
            rw [keyLtB, if_pos hxy]
          · by_cases hyx : y < x
            · refine Or.inr (Or.inr ?_)
              rw [keyLtB, if_pos hyx]
            · have hxyeq : x = y := by omega
              subst hxyeq
              rcases ih bt with h | h | h
              · exact Or.inl (by rw [h])
              · refine Or.inr (Or.inl ?_)
                rw [keyLtB, if_neg hyx, if_neg hyx]
                exact h
              · refine Or.inr (Or.inr ?_)
                rw [keyLtB, if_neg hyx, if_neg hyx]
                exact h

theorem keyLtB_ne {a b : List Nat} (h : keyLtB a b = true) : a ≠ b := by
  intro he
  subst he
  rw [keyLtB_irrefl] at h
  cases h

theorem keyLtB_asymm {a b : List Nat} (h : keyLtB a b = true) : keyLtB b a = false := by
  cases hx : keyLtB b a
  · rfl
  · have := keyLtB_trans a b a h hx
    rw [keyLtB_irrefl] at this
    cases this

theorem keyLtB_of_nlt_ne {a b : List Nat} (h : keyLtB a b = false) (hne : a ≠ b) :
    keyLtB b a = true := by
  rcases keyLtB_tri a b with h1 | h1 | h1
  · exact absurd h1 hne
  · rw [h1] at h; cases h
  · exact h1

theorem keyLtB_lt_of_lt_of_nlt {a l s : List Nat}
    (h1 : keyLtB a l = true) (h2 : keyLtB s l = false) : keyLtB a s = true := by
  rcases keyLtB_tri a s with h3 | h3 | h3
  · subst h3; rw [h1] at h2; cases h2
  · exact h3
  · have := keyLtB_trans s a l h3 h1
    rw [this] at h2
    cases h2

theorem keyLtB_nlt_trans {l sep e : List Nat}
    (h1 : keyLtB e sep = false) (h2 : keyLtB sep l = false) : keyLtB e l = false := by
  cases hx : keyLtB e l
  · rfl
  · rw [keyLtB_lt_of_lt_of_nlt hx h2] at h1
    cases h1

theorem lookupE_none_iff (es : List (List Nat × Nat)) (k : List Nat) :
    lookupE es k = none ↔ ∀ e ∈ es, e.1 ≠ k := by
  induction es with
  | nil => simp [lookupE]
  | cons e t ih =>
      obtain ⟨k2, v⟩ := e
      rw [lookupE]
      by_cases he : k = k2
      · subst he
        simp
      · rw [if_neg he, ih]
        constructor
        · intro hall e hmem
          rcases List.mem_cons.1 hmem with h1 | h1
          · subst h1
            exact fun hx => he hx.symm
          · exact hall e h1
        · intro hall e hmem
          exact hall e (List.mem_cons_of_mem _ hmem)

theorem lookupE_some_mem {es : List (List Nat × Nat)} {k : List Nat} {v : Nat}
    (h : lookupE es k = some v) : ∃ e ∈ es, e.1 = k := by
  induction es with
  | nil => cases h
  | cons e t ih =>
      obtain ⟨k2, v2⟩ := e
      rw [lookupE] at h
      by_cases he : k = k2
      · exact ⟨(k2, v2), by simp, he.symm⟩
      · rw [if_neg he] at h
        obtain ⟨e2, he2, hk⟩ := ih h
        exact ⟨e2, by simp [he2], hk⟩

theorem lookupE_append (a b : List (List Nat × Nat)) (k : List Nat) :
    lookupE (a ++ b) k =
      match lookupE a k with
      | some v => some v
      | none => lookupE b k := by
  induction a with
  | nil => simp [lookupE]
  | cons e t ih =>
      obtain ⟨k2, v⟩ := e
      rw [List.cons_append, lookupE, lookupE]
      by_cases he : k = k2
      · rw [if_pos he, if_pos he]
      · rw [if_neg he, if_neg he, ih]

theorem lookupE_insE_self (k : List Nat) (v : Nat) (es : List (List Nat × Nat)) :
    lookupE (insE k v es) k = some v := by
  induction es with
  | nil => simp [insE, lookupE]
  | cons e t ih =>
      obtain ⟨k2, v2⟩ := e
      rw [insE]
      by_cases hlt : keyLtB k2 k = true
      · rw [if_pos hlt, lookupE, if_neg (fun he => keyLtB_ne hlt he.symm), ih]
      · rw [if_neg hlt, lookupE, if_pos rfl]

theorem lookupE_insE_ne (k k2 : List Nat) (v : Nat) (es : List (List Nat × Nat))
    (hne : k2 ≠ k) : lookupE (insE k v es) k2 = lookupE es k2 := by
  induction es with
  | nil => simp [insE, lookupE, hne]
  | cons e t ih =>
      obtain ⟨k3, v3⟩ := e
      rw [insE]
      by_cases hlt : keyLtB k3 k = true
      · rw [if_pos hlt, lookupE, lookupE]
        by_cases he : k2 = k3
        · rw [if_pos he, if_pos he]
        · rw [if_neg he, if_neg he, ih]
      · rw [if_neg hlt, lookupE, if_neg hne]

theorem ppoint_cons (p : List Nat → Bool) (a : List Nat) (t : List (List Nat)) :
    ppoint p (a :: t) = if p a then ppoint p t + 1 else 0 := by
  rw [ppoint, ppoint, List.takeWhile]
  cases p a
  · simp
  · simp

theorem zip_insertIdx_ppoint (k : List Nat) (v : Nat) :
    ∀ (keys : List (List Nat)) (vals : List Nat), keys.length = vals.length →
    (keys.insertIdx (ppoint (fun kk => keyLtB kk k) keys) k).zip
      (vals.insertIdx (ppoint (fun kk => keyLtB kk k) keys) v) = insE k v (keys.zip vals) := by
  intro keys
  induction keys with
  | nil =>
      intro vals hlen
      cases vals with
      | nil => rfl
      | cons v2 vt => simp at hlen
  | cons kk kt ih =>
      intro vals hlen
      cases vals with
      | nil => simp at hlen
      | cons vv vt =>
          rw [ppoint_cons]
          by_cases hp : keyLtB kk k = true
          · rw [if_pos hp, List.insertIdx_succ_cons, List.insertIdx_succ_cons,
              List.zip_cons_cons, List.zip_cons_cons, insE, if_pos hp,
              ih vt (by simpa using hlen)]
          · rw [if_neg hp, List.insertIdx_zero, List.insertIdx_zero, List.zip_cons_cons,
              List.zip_cons_cons, insE, if_neg hp]

theorem insertIdx_ppoint_eq (p : List Nat → Bool) (k : List Nat) :
    ∀ keys : List (List Nat),
      keys.insertIdx (ppoint p keys) k = keys.takeWhile p ++ k :: keys.dropWhile p := by
  intro keys
  induction keys with
  | nil => rfl
  | cons a t ih =>
      rw [ppoint_cons]
      by_cases hp : p a = true
      · rw [if_pos hp, List.insertIdx_succ_cons, ih, List.takeWhile_cons_of_pos hp,
          List.dropWhile_cons_of_pos hp, List.cons_append]
      · rw [if_neg hp, List.insertIdx_zero, List.takeWhile_cons_of_neg hp,
          List.dropWhile_cons_of_neg hp, List.nil_append]

theorem dropWhile_head_false (p : List Nat → Bool) :
    ∀ (l : List (List Nat)) (d : List Nat) (rest : List (List Nat)),
      l.dropWhile p = d :: rest → p d = false := by
  intro l
  induction l with
  | nil => intro d rest h; cases h
  | cons a t ih =>
      intro d rest h
      by_cases hp : p a = true
      · rw [List.dropWhile_cons_of_pos hp] at h
        exact ih d rest h
      · rw [List.dropWhile_cons_of_neg hp] at h
        injection h with h1 h2
        rw [← h1]
        cases hx : p a
        · rfl
        · exact absurd hx hp

theorem pairwise_insertIdx_ppoint (k : List Nat) (keys : List (List Nat))
    (hs : keys.Pairwise (fun a b => keyLtB a b = true))
    (hfresh : ∀ kk ∈ keys, kk ≠ k) :
    (keys.insertIdx (ppoint (fun kk => keyLtB kk k) keys) k).Pairwise
      (fun a b => keyLtB a b = true) := by
  rw [insertIdx_ppoint_eq]
  have hkd : ∀ b ∈ keys.dropWhile (fun kk => keyLtB kk k), keyLtB k b = true := by
    intro b hb
    cases hdw : keys.dropWhile (fun kk => keyLtB kk k) with
    | nil => rw [hdw] at hb; cases hb
    | cons d0 rest =>
        have hnp : keyLtB d0 k = false := dropWhile_head_false _ keys d0 rest hdw
        have hd0mem : d0 ∈ keys := (List.dropWhile_sublist _).subset (by rw [hdw]; simp)
        have hd0k : keyLtB k d0 = true := keyLtB_of_nlt_ne hnp (hfresh d0 hd0mem)
        rw [hdw] at hb
        rcases List.mem_cons.1 hb with rfl | hb2
        · exact hd0k
        · have hdw_sorted : (d0 :: rest).Pairwise (fun a b => keyLtB a b = true) := by
            rw [← hdw]
            exact hs.sublist (List.dropWhile_sublist _)
          exact keyLtB_trans _ _ _ hd0k ((List.pairwise_cons.1 hdw_sorted).1 b hb2)
  rw [List.pairwise_append]
  refine ⟨hs.sublist (List.takeWhile_sublist _), ?_, ?_⟩
  · rw [List.pairwise_cons]
    exact ⟨hkd, hs.sublist (List.dropWhile_sublist _)⟩
  · intro a ha b hb
    have hak : keyLtB a k = true := by
      have := List.mem_takeWhile_imp ha
      exact this
    rcases List.mem_cons.1 hb with rfl | hb2
    · exact hak
    · exact keyLtB_trans _ _ _ hak (hkd b hb2)

theorem mem_insertIdx_ppoint (p : List Nat → Bool) (k : List Nat) (keys : List (List Nat)) :
    ∀ x ∈ keys.insertIdx (ppoint p keys) k, x = k ∨ x ∈ keys := by
  rw [insertIdx_ppoint_eq]
  intro x hx
  rcases List.mem_append.1 hx with h1 | h1
  · exact Or.inr ((List.takeWhile_sublist _).subset h1)
  · rcases List.mem_cons.1 h1 with rfl | h2
    · exact Or.inl rfl
    · exact Or.inr ((List.dropWhile_sublist _).subset h2)

theorem leaf_lookup_pos (k : List Nat) (v : Nat) :
    ∀ (keys : List (List Nat)) (vals : List Nat), keys.length = vals.length →
    keys.Pairwise (fun a b => keyLtB a b = true) →
    lookupE (keys.zip vals) k = some v →
    keys[ppoint (fun kk => keyLtB kk k) keys]? = some k ∧
    vals[ppoint (fun kk => keyLtB kk k) keys]? = some v := by
  intro keys
  induction keys with
  | nil =>
      intro vals hlen hs hlk
      cases vals with
      | nil => cases hlk
      | cons vv vt => simp at hlen
  | cons kk kt ih =>
      intro vals hlen hs hlk
      cases vals with
      | nil => simp at hlen
      | cons vv vt =>
          rw [List.zip_cons_cons, lookupE] at hlk
          rw [ppoint_cons]
          by_cases hp : keyLtB kk k = true
          · rw [if_neg (fun he => keyLtB_ne hp he.symm)] at hlk
            rw [if_pos hp, List.getElem?_cons_succ, List.getElem?_cons_succ]
            exact ih vt (by simpa using hlen) (List.pairwise_cons.1 hs).2 hlk
          · by_cases he : k = kk
            · rw [if_pos he] at hlk
              injection hlk with hv
              subst hv
              subst he
              rw [if_neg hp]
              exact ⟨List.getElem?_cons_zero, List.getElem?_cons_zero⟩
            · rw [if_neg he] at hlk
              obtain ⟨e, hmem, hek⟩ := lookupE_some_mem hlk
              obtain ⟨e1, e2⟩ := e
              have hkin : k ∈ kt := by
                rw [← hek]
                exact (List.of_mem_zip hmem).1
              have := (List.pairwise_cons.1 hs).1 k hkin
              rw [this] at hp
              exact absurd rfl hp

theorem leaf_lookup_neg (k : List Nat) :
    ∀ (keys : List (List Nat)) (vals : List Nat), keys.length = vals.length →
    lookupE (keys.zip vals) k = none → leafFind keys k = none := by
  intro keys
  induction keys with
  | nil => intro vals hlen hlk; rfl
  | cons kk kt ih =>
      intro vals hlen hlk
      cases vals with
      | nil => simp at hlen
      | cons vv vt =>
          rw [List.zip_cons_cons, lookupE] at hlk
          by_cases he : k = kk
          · rw [if_pos he] at hlk
            cases hlk
          · rw [if_neg he] at hlk
            by_cases hp : keyLtB kk k = true
            · by_cases hc : kt[ppoint (fun kk2 => keyLtB kk2 k) kt]? = some k
              · have := ih vt (by simpa using hlen) hlk
                rw [leafFind, if_pos hc] at this
                cases this
              · rw [leafFind, ppoint_cons, if_pos hp, List.getElem?_cons_succ, if_neg hc]
            · rw [leafFind, ppoint_cons, if_neg hp, List.getElem?_cons_zero,
                if_neg (fun hx => he (by injection hx with h1; exact h1.symm))]

theorem keyLtB_nlt_of_lt {l sep e : List Nat}
    (h1 : keyLtB l sep = true) (h2 : keyLtB e sep = false) : keyLtB e l = false := by
  cases hx : keyLtB e l
  · rfl
  · rw [keyLtB_trans e l sep hx h1] at h2
    cases h2

theorem Tr_zero {s : Store} {id : Nat} {lo hi : Option (List Nat)}
    {es : List (List Nat × Nat)} {used : Finset Nat} :
    Tr s 0 id lo hi es used ↔ used = {id} ∧ LeafF s id lo hi es := by
  simp only [Tr]

theorem Tr_succ {s : Store} {h id : Nat} {lo hi : Option (List Nat)}
    {es : List (List Nat × Nat)} {used : Finset Nat} :
    Tr s (h + 1) id lo hi es used ↔
      (used = {id} ∧ LeafF s id lo hi es) ∨
      (∃ n us, s.pages id = some n ∧ n.id = id ∧ n.node_type = .internal ∧
        n.keys.length ≤ 50 ∧ NodeB n ∧ TrL s h n.keys n.children lo hi es us ∧
        id ∉ us ∧ used = {id} ∪ us) := by
  simp only [Tr]

theorem TrL_nil {s : Store} {h : Nat} {cids : List Nat} {lo hi : Option (List Nat)}
    {es : List (List Nat × Nat)} {used : Finset Nat} :
    TrL s h [] cids lo hi es used ↔ ∃ c, cids = [c] ∧ Tr s h c lo hi es used := by
  simp only [TrL]

theorem TrL_cons {s : Store} {h : Nat} {sep : List Nat} {seps : List (List Nat)}
    {cids : List Nat} {lo hi : Option (List Nat)} {es : List (List Nat × Nat)}
    {used : Finset Nat} :
    TrL s h (sep :: seps) cids lo hi es used ↔
      ∃ c crest es1 es2 us1 us2,
        cids = c :: crest ∧ es = es1 ++ es2 ∧ used = us1 ∪ us2 ∧ Disjoint us1 us2 ∧
        okLTo lo sep ∧ okLT sep hi ∧ (∃ v, lookupE es2 sep = some v) ∧
        Tr s h c lo (some sep) es1 us1 ∧
        TrL s h seps crest (some sep) hi es2 us2 := by
  simp only [TrL]

theorem TrL_len : ∀ (seps : List (List Nat)) (s : Store) (h : Nat) (cids : List Nat)
    (lo hi : Option (List Nat)) (es : List (List Nat × Nat)) (used : Finset Nat),
    TrL s h seps cids lo hi es used → cids.length = seps.length + 1 := by
  intro seps
  induction seps with
  | nil =>
      intro s h cids lo hi es used ht
      obtain ⟨c, rfl, -⟩ := TrL_nil.1 ht
      rfl
  | cons sep seps ih =>
      intro s h cids lo hi es used ht
      obtain ⟨c, crest, es1, es2, us1, us2, rfl, -, -, -, -, -, -, -, ht2⟩ := TrL_cons.1 ht
      simp [ih s h crest (some sep) hi es2 us2 ht2]

theorem Tr_mem_id (s : Store) (h id : Nat) (lo hi : Option (List Nat))
    (es : List (List Nat × Nat)) (used : Finset Nat) (ht : Tr s h id lo hi es used) :
    id ∈ used := by
  cases h with
  | zero => obtain ⟨rfl, -⟩ := Tr_zero.1 ht; simp
  | succ h =>
      rcases Tr_succ.1 ht with ⟨rfl, -⟩ | ⟨n, us, -, -, -, -, -, -, -, rfl⟩ <;> simp

theorem LeafF_congr {s s2 : Store} {id : Nat} {lo hi : Option (List Nat)}
    {es : List (List Nat × Nat)} {used : Finset Nat}
    (ha : AgreeMod s s2 used) (hid : id ∈ used) (hl : LeafF s id lo hi es) :
    LeafF s2 id lo hi es := by
  obtain ⟨n, hn, h1, h2, h3, h4, hb, h5, h6, h7⟩ := hl
  rcases ha id hid with heq | ⟨n2, pp, hn2, hn2b, hppb⟩
  · exact ⟨n, heq ▸ hn, h1, h2, h3, h4, hb, h5, h6, h7⟩
  · rw [hn] at hn2
    cases hn2
    exact ⟨_, hn2b, h1, h2, h3, h4, NodeB_parent hb hppb, h5, h6, h7⟩

theorem Tr_congr_all : ∀ h : Nat,
    (∀ s s2 id lo hi es used, AgreeMod s s2 used → Tr s h id lo hi es used →
      Tr s2 h id lo hi es used) ∧
    (∀ seps s s2 cids lo hi es used, AgreeMod s s2 used → TrL s h seps cids lo hi es used →
      TrL s2 h seps cids lo hi es used) := by
  intro h
  induction h with
  | zero =>
      have htr : ∀ s s2 id lo hi es used, AgreeMod s s2 used → Tr s 0 id lo hi es used →
          Tr s2 0 id lo hi es used := by
        intro s s2 id lo hi es used ha ht
        obtain ⟨rfl, hl⟩ := Tr_zero.1 ht
        exact Tr_zero.2 ⟨rfl, LeafF_congr ha (by simp) hl⟩
      refine ⟨htr, ?_⟩
      intro seps
      induction seps with
      | nil =>
          intro s s2 cids lo hi es used ha ht
          obtain ⟨c, rfl, htc⟩ := TrL_nil.1 ht
          exact TrL_nil.2 ⟨c, rfl, htr s s2 c lo hi es used ha htc⟩
      | cons sep seps ihm =>
          intro s s2 cids lo hi es used ha ht
          obtain ⟨c, crest, es1, es2, us1, us2, rfl, rfl, rfl, hd, hb1, hb2, hrl, ht1, ht2⟩ :=
            TrL_cons.1 ht
          exact TrL_cons.2 ⟨c, crest, es1, es2, us1, us2, rfl, rfl, rfl, hd, hb1, hb2, hrl,
            htr s s2 c lo (some sep) es1 us1 (AgreeMod_mono Finset.subset_union_left ha) ht1,
            ihm s s2 crest (some sep) hi es2 us2
              (AgreeMod_mono Finset.subset_union_right ha) ht2⟩
  | succ h ih =>
      have htr : ∀ s s2 id lo hi es used, AgreeMod s s2 used → Tr s (h + 1) id lo hi es used →
          Tr s2 (h + 1) id lo hi es used := by
        intro s s2 id lo hi es used ha ht
        rcases Tr_succ.1 ht with ⟨rfl, hl⟩ | ⟨n, us, hn, h1, h2, h3, hnb, hch, hnm, rfl⟩
        · exact Tr_succ.2 (Or.inl ⟨rfl, LeafF_congr ha (by simp) hl⟩)
        · have hid : id ∈ ({id} ∪ us : Finset Nat) := by simp
          rcases ha id hid with heq | ⟨n2, pp, hn2, hn2b, hppb⟩
          · exact Tr_succ.2 (Or.inr ⟨n, us, heq ▸ hn, h1, h2, h3, hnb,
              ih.2 _ s s2 _ lo hi es us (AgreeMod_mono Finset.subset_union_right ha) hch,
              hnm, rfl⟩)
          · rw [hn] at hn2
            cases hn2
            exact Tr_succ.2 (Or.inr ⟨_, us, hn2b, h1, h2, h3, NodeB_parent hnb hppb,
              ih.2 _ s s2 _ lo hi es us (AgreeMod_mono Finset.subset_union_right ha) hch,
              hnm, rfl⟩)
      refine ⟨htr, ?_⟩
      intro seps
      induction seps with
      | nil =>
          intro s s2 cids lo hi es used ha ht
          obtain ⟨c, rfl, htc⟩ := TrL_nil.1 ht
          exact TrL_nil.2 ⟨c, rfl, htr s s2 c lo hi es used ha htc⟩
      | cons sep seps ihm =>
          intro s s2 cids lo hi es used ha ht
          obtain ⟨c, crest, es1, es2, us1, us2, rfl, rfl, rfl, hd, hb1, hb2, hrl, ht1, ht2⟩ :=
            TrL_cons.1 ht
          exact TrL_cons.2 ⟨c, crest, es1, es2, us1, us2, rfl, rfl, rfl, hd, hb1, hb2, hrl,
            htr s s2 c lo (some sep) es1 us1 (AgreeMod_mono Finset.subset_union_left ha) ht1,
            ihm s s2 crest (some sep) hi es2 us2
              (AgreeMod_mono Finset.subset_union_right ha) ht2⟩

theorem Tr_frame {s s2 : Store} {h id : Nat} {lo hi : Option (List Nat)}
    {es : List (List Nat × Nat)} {used : Finset Nat}
    (ha : ∀ i ∈ used, s2.pages i = s.pages i) (ht : Tr s h id lo hi es used) :
    Tr s2 h id lo hi es used :=
  (Tr_congr_all h).1 s s2 id lo hi es used (fun i hi2 => Or.inl (ha i hi2)) ht

theorem TrL_frame {s s2 : Store} {h : Nat} {seps : List (List Nat)} {cids : List Nat}
    {lo hi : Option (List Nat)} {es : List (List Nat × Nat)} {used : Finset Nat}
    (ha : ∀ i ∈ used, s2.pages i = s.pages i) (ht : TrL s h seps cids lo hi es used) :
    TrL s2 h seps cids lo hi es used :=
  (Tr_congr_all h).2 seps s s2 cids lo hi es used (fun i hi2 => Or.inl (ha i hi2)) ht

theorem Tr_bounds_all : ∀ h : Nat,
    (∀ s id lo hi es used, Tr s h id lo hi es used →
      ∀ e ∈ es, okLE lo e.1 ∧ okLT e.1 hi) ∧
    (∀ seps s cids lo hi es used, TrL s h seps cids lo hi es used →
      ∀ e ∈ es, okLE lo e.1 ∧ okLT e.1 hi) := by
  have hleaf : ∀ s id lo hi es used, (used : Finset Nat) = {id} → LeafF s id lo hi es →
      ∀ e ∈ es, okLE lo e.1 ∧ okLT e.1 hi := by
    intro s id lo hi es used hu hl e he
    obtain ⟨n, -, -, -, -, -, -, hes, -, hbnd⟩ := hl
    rw [hes] at he
    exact hbnd e.1 (List.of_mem_zip he).1
  intro h
  induction h with
  | zero =>
      have htr : ∀ s id lo hi es used, Tr s 0 id lo hi es used →
          ∀ e ∈ es, okLE lo e.1 ∧ okLT e.1 hi := by
        intro s id lo hi es used ht
        obtain ⟨hu, hl⟩ := Tr_zero.1 ht
        exact hleaf s id lo hi es used hu hl
      refine ⟨htr, ?_⟩
      intro seps
      induction seps with
      | nil =>
          intro s cids lo hi es used ht
          obtain ⟨c, rfl, htc⟩ := TrL_nil.1 ht
          exact htr s c lo hi es used htc
      | cons sep seps ihm =>
          intro s cids lo hi es used ht
          obtain ⟨c, crest, es1, es2, us1, us2, rfl, rfl, rfl, hd, hb1, hb2, hrl, ht1, ht2⟩ :=
            TrL_cons.1 ht
          intro e he
          rcases List.mem_append.1 he with h1 | h1
          · obtain ⟨hle, hlt⟩ := htr s c lo (some sep) es1 us1 ht1 e h1
            refine ⟨hle, ?_⟩
            cases hi with
            | none => trivial
            | some u => exact keyLtB_trans _ _ _ hlt hb2
          · obtain ⟨hle, hlt⟩ := ihm s crest (some sep) hi es2 us2 ht2 e h1
            refine ⟨?_, hlt⟩
            cases lo with
            | none => trivial
            | some l => exact keyLtB_nlt_of_lt hb1 hle
  | succ h ih =>
      have htr : ∀ s id lo hi es used, Tr s (h + 1) id lo hi es used →
          ∀ e ∈ es, okLE lo e.1 ∧ okLT e.1 hi := by
        intro s id lo hi es used ht
        rcases Tr_succ.1 ht with ⟨hu, hl⟩ | ⟨n, us, -, -, -, -, -, hch, -, -⟩
        · exact hleaf s id lo hi es used hu hl
        · exact ih.2 n.keys s n.children lo hi es us hch
      refine ⟨htr, ?_⟩
      intro seps
      induction seps with
      | nil =>
          intro s cids lo hi es used ht
          obtain ⟨c, rfl, htc⟩ := TrL_nil.1 ht
          exact htr s c lo hi es used htc
      | cons sep seps ihm =>
          intro s cids lo hi es used ht
          obtain ⟨c, crest, es1, es2, us1, us2, rfl, rfl, rfl, hd, hb1, hb2, hrl, ht1, ht2⟩ :=
            TrL_cons.1 ht
          intro e he
          rcases List.mem_append.1 he with h1 | h1
          · obtain ⟨hle, hlt⟩ := htr s c lo (some sep) es1 us1 ht1 e h1
            refine ⟨hle, ?_⟩
            cases hi with
            | none => trivial
            | some u => exact keyLtB_trans _ _ _ hlt hb2
          · obtain ⟨hle, hlt⟩ := ihm s crest (some sep) hi es2 us2 ht2 e h1
            refine ⟨?_, hlt⟩
            cases lo with
            | none => trivial
            | some l => exact keyLtB_nlt_of_lt hb1 hle

theorem search_leaf (s : Store) (fuel id : Nat) (lo hi : Option (List Nat))
    (es : List (List Nat × Nat)) (k : List Nat) (hl : LeafF s id lo hi es) :
    search s (fuel + 1) id k = some (lookupE es k) := by
  obtain ⟨n, hn, hid, hty, hle, hchl, hnb, hes, hsort, hbnd⟩ := hl
  cases hlk : lookupE es k with
  | none =>
      have hlf : leafFind n.keys k = none :=
        leaf_lookup_neg k n.keys n.children hchl.symm (hes ▸ hlk)
      simp only [search, Store.read, hn, hty, hlf]
  | some v =>
      obtain ⟨h1, h2⟩ := leaf_lookup_pos k v n.keys n.children hchl.symm hsort (hes ▸ hlk)
      have hlf : leafFind n.keys k = some (ppoint (fun kk => keyLtB kk k) n.keys) := by
        rw [leafFind, if_pos h1]
      simp only [search, Store.read, hn, hty, hlf, h2]

theorem search_ok_all : ∀ h : Nat,
    (∀ s id lo hi es used fuel k, Tr s h id lo hi es used → h < fuel →
      search s fuel id k = some (lookupE es k)) ∧
    (∀ seps s cids lo hi es used fuel k, TrL s h seps cids lo hi es used → h < fuel →
      ∃ c, cids[ppoint (fun sp => keyLeB sp k) seps]? = some c ∧
        search s fuel c k = some (lookupE es k)) := by
  intro h
  induction h with
  | zero =>
      have htr : ∀ s id lo hi es used fuel k, Tr s 0 id lo hi es used → 0 < fuel →
          search s fuel id k = some (lookupE es k) := by
        intro s id lo hi es used fuel k ht hf
        obtain ⟨rfl, hl⟩ := Tr_zero.1 ht
        cases fuel with
        | zero => omega
        | succ f => exact search_leaf s f id lo hi es k hl
      refine ⟨htr, ?_⟩
      intro seps
      induction seps with
      | nil =>
          intro s cids lo hi es used fuel k ht hf
          obtain ⟨c, rfl, htc⟩ := TrL_nil.1 ht
          exact ⟨c, List.getElem?_cons_zero, htr s c lo hi es used fuel k htc hf⟩
      | cons sep seps ihm =>
          intro s cids lo hi es used fuel k ht hf
          obtain ⟨c, crest, es1, es2, us1, us2, rfl, rfl, rfl, hd, hb1, hb2, hrl, ht1, ht2⟩ :=
            TrL_cons.1 ht
          by_cases hks : keyLtB k sep = true
          · have hple : (keyLeB sep k = true) = False := by
              rw [keyLeB, hks]
              simp
            have heq : lookupE (es1 ++ es2) k = lookupE es1 k := by
              rw [lookupE_append]
              cases hx : lookupE es1 k with
              | some v => simp
              | none =>
                  simp only []
                  rw [lookupE_none_iff]
                  intro e he hek
                  have := ((Tr_bounds_all 0).2 seps s crest (some sep) hi es2 us2 ht2 e he).1
                  rw [hek, okLE] at this
                  rw [hks] at this
                  cases this
            refine ⟨c, ?_, ?_⟩
            · rw [ppoint_cons, if_neg (by rw [hple]; exact id), List.getElem?_cons_zero]
            · rw [heq]
              exact htr s c lo (some sep) es1 us1 fuel k ht1 hf
          · have hple : keyLeB sep k = true := by
              rw [keyLeB]
              cases hx : keyLtB k sep
              · rfl
              · exact absurd hx hks
            have heq : lookupE (es1 ++ es2) k = lookupE es2 k := by
              rw [lookupE_append]
              have hnone : lookupE es1 k = none := by
                rw [lookupE_none_iff]
                intro e he hek
                have := ((Tr_bounds_all 0).1 s c lo (some sep) es1 us1 ht1 e he).2
                rw [hek, okLT] at this
                exact hks this
              rw [hnone]
            obtain ⟨c2, hcg2, hs2⟩ := ihm s crest (some sep) hi es2 us2 fuel k ht2 hf
            refine ⟨c2, ?_, ?_⟩
            · rw [ppoint_cons, if_pos hple, List.getElem?_cons_succ]
              exact hcg2
            · rw [heq]
              exact hs2
  | succ h ih =>
      have htr : ∀ s id lo hi es used fuel k, Tr s (h + 1) id lo hi es used → h + 1 < fuel →
          search s fuel id k = some (lookupE es k) := by
        intro s id lo hi es used fuel k ht hf
        cases fuel with
        | zero => omega
        | succ f =>
            rcases Tr_succ.1 ht with ⟨rfl, hl⟩ | ⟨n, us, hn, h1, h2, h3, hnb, hch, hnm, rfl⟩
            · exact search_leaf s f id lo hi es k hl
            · obtain ⟨c, hcg, hs⟩ :=
                ih.2 n.keys s n.children lo hi es us f k hch (by omega)
              simp only [search, Store.read, hn, h2, hcg]
              exact hs
      refine ⟨htr, ?_⟩
      intro seps
      induction seps with
      | nil =>
          intro s cids lo hi es used fuel k ht hf
          obtain ⟨c, rfl, htc⟩ := TrL_nil.1 ht
          exact ⟨c, List.getElem?_cons_zero, htr s c lo hi es used fuel k htc hf⟩
      | cons sep seps ihm =>
          intro s cids lo hi es used fuel k ht hf
          obtain ⟨c, crest, es1, es2, us1, us2, rfl, rfl, rfl, hd, hb1, hb2, hrl, ht1, ht2⟩ :=
            TrL_cons.1 ht
          by_cases hks : keyLtB k sep = true
          · have hple : (keyLeB sep k = true) = False := by
              rw [keyLeB, hks]
              simp
            have heq : lookupE (es1 ++ es2) k = lookupE es1 k := by
              rw [lookupE_append]
              cases hx : lookupE es1 k with
              | some v => simp
              | none =>
                  simp only []
                  rw [lookupE_none_iff]
                  intro e he hek
                  have := ((Tr_bounds_all (h + 1)).2 seps s crest (some sep) hi es2 us2
                    ht2 e he).1
                  rw [hek, okLE] at this
                  rw [hks] at this
                  cases this
            refine ⟨c, ?_, ?_⟩
            · rw [ppoint_cons, if_neg (by rw [hple]; exact id), List.getElem?_cons_zero]
            · rw [heq]
              exact htr s c lo (some sep) es1 us1 fuel k ht1 hf
          · have hple : keyLeB sep k = true := by
              rw [keyLeB]
              cases hx : keyLtB k sep
              · rfl
              · exact absurd hx hks
            have heq : lookupE (es1 ++ es2) k = lookupE es2 k := by
              rw [lookupE_append]
              have hnone : lookupE es1 k = none := by
                rw [lookupE_none_iff]
                intro e he hek
                have := ((Tr_bounds_all (h + 1)).1 s c lo (some sep) es1 us1 ht1 e he).2
                rw [hek, okLT] at this
                exact hks this
              rw [hnone]
            obtain ⟨c2, hcg2, hs2⟩ := ihm s crest (some sep) hi es2 us2 fuel k ht2 hf
            refine ⟨c2, ?_, ?_⟩
            · rw [ppoint_cons, if_pos hple, List.getElem?_cons_succ]
              exact hcg2
            · rw [heq]
              exact hs2

theorem lookupE_append_none {a b : List (List Nat × Nat)} {k : List Nat}
    (h : lookupE (a ++ b) k = none) : lookupE a k = none ∧ lookupE b k = none := by
  rw [lookupE_none_iff] at h
  constructor
  · rw [lookupE_none_iff]
    intro e he
    exact h e (List.mem_append.2 (Or.inl he))
  · rw [lookupE_none_iff]
    intro e he
    exact h e (List.mem_append.2 (Or.inr he))

theorem lookupE_mid_congr (pre post c1 c2 : List (List Nat × Nat)) (k : List Nat)
    (hsame : ∀ k2, k2 ≠ k → lookupE c2 k2 = lookupE c1 k2) :
    ∀ k2, k2 ≠ k → lookupE (pre ++ c2 ++ post) k2 = lookupE (pre ++ c1 ++ post) k2 := by
  intro k2 hk2
  rw [List.append_assoc, List.append_assoc, lookupE_append, lookupE_append,
    lookupE_append, lookupE_append, hsame k2 hk2]

/-- Locates the `insert_non_full` descent child at the key partition
point of the separator list, together with the update and split closure
properties needed to reassemble the parent judgment. -/
theorem TrL_stepO : ∀ (seps : List (List Nat)) (s : Store) (h : Nat) (cids : List Nat)
    (lo hi : Option (List Nat)) (es : List (List Nat × Nat)) (used : Finset Nat)
    (k : List Nat),
    TrL s h seps cids lo hi es used →
    okLE lo k → okLT k hi → lookupE es k = none →
    ∃ c loC hiC esPre esC esPost usC usR,
      cids[ppoint (fun sp => keyLtB sp k) seps]? = some c ∧
      es = esPre ++ esC ++ esPost ∧
      used = usC ∪ usR ∧ Disjoint usC usR ∧
      Tr s h c loC hiC esC usC ∧
      okLE loC k ∧ okLT k hiC ∧
      lookupE esC k = none ∧
      (∀ (s2 : Store) (esC2 : List (List Nat × Nat)) (usC2 : Finset Nat),
        (∀ i ∈ usR, s2.pages i = s.pages i) → Disjoint usC2 usR →
        Tr s2 h c loC hiC esC2 usC2 →
        (∀ k2, k2 ≠ k → lookupE esC2 k2 = lookupE esC k2) →
        TrL s2 h seps cids lo hi (esPre ++ esC2 ++ esPost) (usC2 ∪ usR)) ∧
      (∀ (s2 : Store) (newId : Nat) (sep2 : List Nat) (esL esR : List (List Nat × Nat))
          (usL usS : Finset Nat),
        (∀ i ∈ usR, s2.pages i = s.pages i) →
        Disjoint usL usS → Disjoint (usL ∪ usS) usR →
        Tr s2 h c loC (some sep2) esL usL → Tr s2 h newId (some sep2) hiC esR usS →
        okLTo loC sep2 → okLT sep2 hiC →
        (∃ v, lookupE esR sep2 = some v) →
        (∀ k2, k2 ≠ k → lookupE (esL ++ esR) k2 = lookupE esC k2) →
        TrL s2 h (seps.insertIdx (ppoint (fun sp => keyLtB sp k) seps) sep2)
          (cids.insertIdx (ppoint (fun sp => keyLtB sp k) seps + 1) newId)
          lo hi (esPre ++ (esL ++ esR) ++ esPost) ((usL ∪ usS) ∪ usR)) := by
  intro seps
  induction seps with
  | nil =>
      intro s h cids lo hi es used k ht hlo hhi hfr
      obtain ⟨c, rfl, htc⟩ := TrL_nil.1 ht
      refine ⟨c, lo, hi, [], es, [], used, ∅, List.getElem?_cons_zero, by simp, by simp,
        by simp, htc, hlo, hhi, hfr, ?_, ?_⟩
      · intro s2 esC2 usC2 hfrm hd ht2 hsame
        rw [List.nil_append, List.append_nil, Finset.union_empty]
        exact TrL_nil.2 ⟨c, rfl, ht2⟩
      · intro s2 newId sep2 esL esR usL usS hfrm hd1 hd2 htL htS hb1 hb2 hrl hsame
        rw [List.nil_append, List.append_nil, Finset.union_empty]
        refine TrL_cons.2 ⟨c, [newId], esL, esR, usL, usS, ?_, rfl, rfl, hd1, hb1, hb2,
          hrl, htL, TrL_nil.2 ⟨newId, rfl, htS⟩⟩
        rfl
  | cons sep seps ih =>
      intro s h cids lo hi es used k ht hlo hhi hfr
      obtain ⟨c0, crest, es1, es2, us1, us2, rfl, rfl, rfl, hd, hb1, hb2, hrl, ht1, ht2⟩ :=
        TrL_cons.1 ht
      obtain ⟨hfr1, hfr2⟩ := lookupE_append_none hfr
      have hksep : sep ≠ k := by
        intro he
        obtain ⟨v, hv⟩ := hrl
        rw [he, hfr2] at hv
        cases hv
      by_cases hks : keyLtB sep k = true
      · -- descend to the right of `sep`
        have hpp : ppoint (fun sp => keyLtB sp k) (sep :: seps) =
            ppoint (fun sp => keyLtB sp k) seps + 1 := by
          rw [ppoint_cons, if_pos hks]
        have hlo2 : okLE (some sep) k := by
          rw [okLE]
          exact keyLtB_asymm hks
        obtain ⟨c, loC, hiC, esPre, esC, esPost, usC, usR, hcg, hesEq, husEq, hdCR, htc,
          hloC, hhiC, hfrC, hclo1, hclo2⟩ :=
          ih s h crest (some sep) hi es2 us2 k ht2 hlo2 hhi hfr2
        refine ⟨c, loC, hiC, es1 ++ esPre, esC, esPost, usC, us1 ∪ usR, ?_, ?_, ?_, ?_,
          htc, hloC, hhiC, hfrC, ?_, ?_⟩
        · rw [hpp, List.getElem?_cons_succ]
          exact hcg
        · rw [hesEq]
          simp [List.append_assoc]
        · rw [husEq]
          rw [Finset.union_left_comm]
        · rw [husEq] at hd
          rw [Finset.disjoint_union_right]
          exact ⟨(Finset.disjoint_union_right.1 hd).1.symm, hdCR⟩
        · intro s2 esC2 usC2 hfrm hd2 htc2 hsame
          have hfrmR : ∀ i ∈ usR, s2.pages i = s.pages i := fun i hi2 =>
            hfrm i (Finset.mem_union_right _ hi2)
          have hfrm1 : ∀ i ∈ us1, s2.pages i = s.pages i := fun i hi2 =>
            hfrm i (Finset.mem_union_left _ hi2)
          have hd2R : Disjoint usC2 usR := (Finset.disjoint_union_right.1 hd2).2
          have hd21 : Disjoint usC2 us1 := (Finset.disjoint_union_right.1 hd2).1
          have hnew := hclo1 s2 esC2 usC2 hfrmR hd2R htc2 hsame
          have heq2 : ∀ k2, k2 ≠ k →
              lookupE (esPre ++ esC2 ++ esPost) k2 = lookupE es2 k2 := by
            intro k2 hk2
            rw [hesEq]
            exact lookupE_mid_congr esPre esPost esC esC2 k hsame k2 hk2
          refine TrL_cons.2 ⟨c0, crest, es1, esPre ++ esC2 ++ esPost, us1, usC2 ∪ usR, rfl,
            by simp [List.append_assoc], by rw [Finset.union_left_comm], ?_, hb1, hb2,
            ?_, Tr_frame hfrm1 ht1, hnew⟩
          · rw [Finset.disjoint_union_right]
            refine ⟨hd21.symm, ?_⟩
            rw [husEq] at hd
            exact (Finset.disjoint_union_right.1 hd).2
          · obtain ⟨v, hv⟩ := hrl
            exact ⟨v, by rw [heq2 sep hksep]; exact hv⟩
        · intro s2 newId sep2 esL esR usL usS hfrm hd1 hd2 htL htS hsb1 hsb2 hsrl hsame
          have hfrmR : ∀ i ∈ usR, s2.pages i = s.pages i := fun i hi2 =>
            hfrm i (Finset.mem_union_right _ hi2)
          have hfrm1 : ∀ i ∈ us1, s2.pages i = s.pages i := fun i hi2 =>
            hfrm i (Finset.mem_union_left _ hi2)
          have hdLR : Disjoint (usL ∪ usS) usR := (Finset.disjoint_union_right.1 hd2).2
          have hdL1 : Disjoint (usL ∪ usS) us1 := (Finset.disjoint_union_right.1 hd2).1
          have hnew := hclo2 s2 newId sep2 esL esR usL usS hfrmR hd1 hdLR htL htS
            hsb1 hsb2 hsrl hsame
          have heq2 : ∀ k2, k2 ≠ k →
              lookupE (esPre ++ (esL ++ esR) ++ esPost) k2 = lookupE es2 k2 := by
            intro k2 hk2
            rw [hesEq]
            exact lookupE_mid_congr esPre esPost esC (esL ++ esR) k hsame k2 hk2
          rw [hpp, List.insertIdx_succ_cons, List.insertIdx_succ_cons]
          refine TrL_cons.2 ⟨c0, crest.insertIdx
              (ppoint (fun sp => keyLtB sp k) seps + 1) newId, es1,
            esPre ++ (esL ++ esR) ++ esPost, us1, (usL ∪ usS) ∪ usR, rfl,
            by simp [List.append_assoc], by rw [Finset.union_left_comm], ?_, hb1, hb2,
            ?_, Tr_frame hfrm1 ht1, hnew⟩
          · rw [Finset.disjoint_union_right]
            refine ⟨hdL1.symm, ?_⟩
            rw [husEq] at hd
            exact (Finset.disjoint_union_right.1 hd).2
          · obtain ⟨v, hv⟩ := hrl
            exact ⟨v, by rw [heq2 sep hksep]; exact hv⟩
      · -- descend to the left of `sep`
        have hpp : ppoint (fun sp => keyLtB sp k) (sep :: seps) = 0 := by
          rw [ppoint_cons, if_neg hks]
        have hhi2 : okLT k (some sep) := by
          rw [okLT]
          exact keyLtB_of_nlt_ne (by cases hx : keyLtB sep k; rfl; exact absurd hx hks) hksep
        refine ⟨c0, lo, some sep, [], es1, es2, us1, us2, ?_, by simp, rfl, hd, ht1,
          hlo, hhi2, hfr1, ?_, ?_⟩
        · rw [hpp, List.getElem?_cons_zero]
        · intro s2 esC2 usC2 hfrm hd2 htc2 hsame
          refine TrL_cons.2 ⟨c0, crest, esC2, es2, usC2, us2, rfl, by simp, rfl, hd2,
            hb1, hb2, hrl, htc2, TrL_frame hfrm ht2⟩
        · intro s2 newId sep2 esL esR usL usS hfrm hd1 hd2 htL htS hsb1 hsb2 hsrl hsame
          rw [hpp, List.insertIdx_zero, List.insertIdx_succ_cons, List.insertIdx_zero]
          refine TrL_cons.2 ⟨c0, newId :: crest, esL, esR ++ es2, usL, usS ∪ us2,
            rfl, by simp [List.append_assoc], by rw [Finset.union_assoc], ?_, hsb1, ?_,
            ?_, htL, ?_⟩
          · rw [Finset.disjoint_union_right]
            refine ⟨hd1, ?_⟩
            exact (Finset.disjoint_union_left.1 hd2).1
          · -- okLT sep2 hi from sep2 < sep < hi
            cases hi with
            | none => trivial
            | some u =>
                rw [okLT]
                rw [okLT] at hsb2
                exact keyLtB_trans _ _ _ hsb2 hb2
          · obtain ⟨v, hv⟩ := hsrl
            refine ⟨v, ?_⟩
            rw [lookupE_append, hv]
          · refine TrL_cons.2 ⟨newId, crest, esR, es2, usS, us2, rfl, rfl, rfl, ?_,
              ?_, hb2, hrl, htS, TrL_frame (fun i hi2 => hfrm i hi2) ht2⟩
            · exact (Finset.disjoint_union_left.1 hd2).2
            · rw [okLTo]
              rw [okLT] at hsb2
              exact hsb2

theorem Tr_node_all : ∀ h : Nat,
    (∀ s id lo hi es used, Tr s h id lo hi es used →
      ∀ i ∈ used, NodeOkB s i) ∧
    (∀ seps s cids lo hi es used, TrL s h seps cids lo hi es used →
      ∀ i ∈ used, NodeOkB s i) := by
  intro h
  induction h with
  | zero =>
      have htr : ∀ s id lo hi es used, Tr s 0 id lo hi es used →
          ∀ i ∈ used, NodeOkB s i := by
        intro s id lo hi es used ht i hi2
        obtain ⟨rfl, n, hn, hid, hty, hle, hchl, hnb, -⟩ := Tr_zero.1 ht
        rw [Finset.mem_singleton] at hi2
        subst hi2
        exact ⟨n, hn, hid, hle, by omega, hnb⟩
      refine ⟨htr, ?_⟩
      intro seps
      induction seps with
      | nil =>
          intro s cids lo hi es used ht i hi2
          obtain ⟨c, rfl, htc⟩ := TrL_nil.1 ht
          exact htr s c lo hi es used htc i hi2
      | cons sep seps ihm =>
          intro s cids lo hi es used ht i hi2
          obtain ⟨c, crest, es1, es2, us1, us2, rfl, rfl, rfl, hd, hb1, hb2, hrl, ht1, ht2⟩ :=
            TrL_cons.1 ht
          rcases Finset.mem_union.1 hi2 with h1 | h1
          · exact htr s c lo (some sep) es1 us1 ht1 i h1
          · exact ihm s crest (some sep) hi es2 us2 ht2 i h1
  | succ h ih =>
      have htr : ∀ s id lo hi es used, Tr s (h + 1) id lo hi es used →
          ∀ i ∈ used, NodeOkB s i := by
        intro s id lo hi es used ht i hi2
        rcases Tr_succ.1 ht with ⟨rfl, n, hn, hid, hty, hle, hchl, hnb, -⟩ |
          ⟨n, us, hn, h1, h2, h3, hnb, hch, hnm, rfl⟩
        · rw [Finset.mem_singleton] at hi2
          subst hi2
          exact ⟨n, hn, hid, hle, by omega, hnb⟩
        · rcases Finset.mem_union.1 hi2 with h4 | h4
          · rw [Finset.mem_singleton] at h4
            subst h4
            have hcl := TrL_len n.keys s h n.children lo hi es us hch
            exact ⟨n, hn, h1, h3, by omega, hnb⟩
          · exact ih.2 n.keys s n.children lo hi es us hch i h4
      refine ⟨htr, ?_⟩
      intro seps
      induction seps with
      | nil =>
          intro s cids lo hi es used ht i hi2
          obtain ⟨c, rfl, htc⟩ := TrL_nil.1 ht
          exact htr s c lo hi es used htc i hi2
      | cons sep seps ihm =>
          intro s cids lo hi es used ht i hi2
          obtain ⟨c, crest, es1, es2, us1, us2, rfl, rfl, rfl, hd, hb1, hb2, hrl, ht1, ht2⟩ :=
            TrL_cons.1 ht
          rcases Finset.mem_union.1 hi2 with h1 | h1
          · exact htr s c lo (some sep) es1 us1 ht1 i h1
          · exact ihm s crest (some sep) hi es2 us2 ht2 i h1

theorem TrL_cids_used : ∀ (seps : List (List Nat)) (s : Store) (h : Nat) (cids : List Nat)
    (lo hi : Option (List Nat)) (es : List (List Nat × Nat)) (used : Finset Nat),
    TrL s h seps cids lo hi es used → ∀ g ∈ cids, g ∈ used := by
  intro seps
  induction seps with
  | nil =>
      intro s h cids lo hi es used ht g hg
      obtain ⟨c, rfl, htc⟩ := TrL_nil.1 ht
      rw [List.mem_singleton] at hg
      subst hg
      exact Tr_mem_id s h g lo hi es used htc
  | cons sep seps ih =>
      intro s h cids lo hi es used ht g hg
      obtain ⟨c, crest, es1, es2, us1, us2, rfl, rfl, rfl, hd, hb1, hb2, hrl, ht1, ht2⟩ :=
        TrL_cons.1 ht
      rcases List.mem_cons.1 hg with rfl | hg2
      · exact Finset.mem_union_left _ (Tr_mem_id s h g lo (some sep) es1 us1 ht1)
      · exact Finset.mem_union_right _ (ih s h crest (some sep) hi es2 us2 ht2 g hg2)

theorem TrL_splitO : ∀ (seps1 : List (List Nat)) (sep2 : List Nat) (seps3 : List (List Nat))
    (s : Store) (h : Nat) (cids : List Nat) (lo hi : Option (List Nat))
    (es : List (List Nat × Nat)) (used : Finset Nat),
    TrL s h (seps1 ++ sep2 :: seps3) cids lo hi es used →
    ∃ es1 es2 used1 used2,
      es = es1 ++ es2 ∧ used = used1 ∪ used2 ∧ Disjoint used1 used2 ∧
      okLTo lo sep2 ∧ okLT sep2 hi ∧ (∃ v, lookupE es2 sep2 = some v) ∧
      TrL s h seps1 (cids.take (seps1.length + 1)) lo (some sep2) es1 used1 ∧
      TrL s h seps3 (cids.drop (seps1.length + 1)) (some sep2) hi es2 used2 := by
  intro seps1
  induction seps1 with
  | nil =>
      intro sep2 seps3 s h cids lo hi es used ht
      rw [List.nil_append] at ht
      obtain ⟨c, crest, es1, es2, us1, us2, rfl, rfl, rfl, hd, hb1, hb2, hrl, ht1, ht2⟩ :=
        TrL_cons.1 ht
      refine ⟨es1, es2, us1, us2, rfl, rfl, hd, hb1, hb2, hrl, ?_, ?_⟩
      · exact TrL_nil.2 ⟨c, by simp, ht1⟩
      · simpa using ht2
  | cons sp1 rest1 ih =>
      intro sep2 seps3 s h cids lo hi es used ht
      rw [List.cons_append] at ht
      obtain ⟨c, crest, esa, esb, ua, ub, rfl, rfl, rfl, hd, hb1, hb2, hrl, ht1, ht2⟩ :=
        TrL_cons.1 ht
      obtain ⟨es1', es2', u1', u2', rfl, rfl, hd2, hsb1, hsb2, hsrl, hl1, hl2⟩ :=
        ih sep2 seps3 s h crest (some sp1) hi esb ub ht2
      have hstrict : keyLtB sp1 sep2 = true := hsb1
      refine ⟨esa ++ es1', es2', ua ∪ u1', u2', by simp [List.append_assoc],
        by rw [Finset.union_assoc], ?_, ?_, hsb2, hsrl, ?_, ?_⟩
      · rw [Finset.disjoint_union_left]
        exact ⟨(Finset.disjoint_union_right.1 hd).2, hd2⟩
      · cases lo with
        | none => trivial
        | some l =>
            rw [okLTo]
            rw [okLTo] at hb1
            exact keyLtB_trans _ _ _ hb1 hstrict
      · refine TrL_cons.2 ⟨c, crest.take (rest1.length + 1), esa, es1', ua, u1',
          by simp, rfl, rfl, (Finset.disjoint_union_right.1 hd).1, hb1, ?_, ?_, ht1, hl1⟩
        · rw [okLT]
          exact hstrict
        · obtain ⟨v, hv⟩ := hrl
          cases hx : lookupE es1' sp1 with
          | some w => exact ⟨w, rfl⟩
          | none =>
              have hv2 : lookupE es2' sp1 = some v := by
                rw [lookupE_append, hx] at hv
                exact hv
              obtain ⟨e, he, hek⟩ := lookupE_some_mem hv2
              have hb := ((Tr_bounds_all h).2 seps3 s (crest.drop (rest1.length + 1))
                (some sep2) hi es2' u2' hl2 e he).1
              rw [hek, okLE, hstrict] at hb
              cases hb
      · simpa using hl2

theorem keyLtB_lt_of_le {l k0 sep : List Nat}
    (h1 : keyLtB k0 l = false) (h2 : keyLtB k0 sep = true) : keyLtB l sep = true := by
  rcases keyLtB_tri l sep with h3 | h3 | h3
  · subst h3
    rw [h2] at h1
    cases h1
  · exact h3
  · rw [keyLtB_trans k0 sep l h2 h3] at h1
    cases h1

theorem zip_take50 : ∀ (l1 : List (List Nat)) (l2 : List Nat) (n : Nat),
    (l1.take n).zip (l2.take n) = (l1.zip l2).take n := by
  intro l1
  induction l1 with
  | nil => intro l2 n; simp
  | cons a t ih =>
      intro l2 n
      cases l2 with
      | nil => simp
      | cons b u =>
          cases n with
          | zero => simp
          | succ m => simp [ih u m]

theorem zip_drop50 : ∀ (l1 : List (List Nat)) (l2 : List Nat) (n : Nat),
    (l1.drop n).zip (l2.drop n) = (l1.zip l2).drop n := by
  intro l1
  induction l1 with
  | nil => intro l2 n; simp
  | cons a t ih =>
      intro l2 n
      cases l2 with
      | nil => simp
      | cons b u =>
          cases n with
          | zero => simp
          | succ m => simp [ih u m]

theorem splitO_leaf_aux (s : Store) (parent : BTreeNode) (idx c h : Nat)
    (loC hiC : Option (List Nat)) (esC : List (List Nat × Nat)) (cn : BTreeNode)
    (hpc : parent.children[idx]? = some c)
    (hcn : s.pages c = some cn) (hcid : cn.id = c) (hcty : cn.node_type = .leaf)
    (hclen : cn.children.length = cn.keys.length) (hcnL : cn.keys.length = 50)
    (hes : esC = cn.keys.zip cn.children)
    (hsort : cn.keys.Pairwise (fun a b => keyLtB a b = true))
    (hbnd : ∀ kk ∈ cn.keys, okLE loC kk ∧ okLT kk hiC)
    (hclt : c < s.total_pages) (hpid : parent.id ≠ c) (hplt : parent.id < s.total_pages)
    (hcb : NodeB cn) (hpb : NodeB parent) (hpkl : parent.keys.length ≤ 50)
    (hpcc : parent.children.length = parent.keys.length + 1)
    (h32 : s.total_pages < 2 ^ 32) :
    SplitConcO s parent idx c h loC hiC esC {c} := by
  have htot0 : ¬ s.total_pages = 0 := by omega
  have hidxlt : idx < parent.children.length := by
    rcases List.getElem?_eq_some_iff.1 hpc with ⟨hh, -⟩
    exact hh
  have hidxle : idx ≤ parent.keys.length := by omega
  have hdlen : (cn.keys.drop 25).length = 25 := by rw [List.length_drop, hcnL]
  have hddlen : (cn.children.drop 25).length = 25 := by rw [List.length_drop, hclen, hcnL]
  obtain ⟨sep, krest, hkd⟩ : ∃ a l, cn.keys.drop 25 = a :: l := by
    cases hx : cn.keys.drop 25 with
    | nil => rw [hx] at hdlen; simp at hdlen
    | cons a l => exact ⟨a, l, rfl⟩
  obtain ⟨v0, vrest, hvd⟩ : ∃ a l, cn.children.drop 25 = a :: l := by
    cases hx : cn.children.drop 25 with
    | nil => rw [hx] at hddlen; simp at hddlen
    | cons a l => exact ⟨a, l, rfl⟩
  have hsep0 : (cn.keys.drop 25)[0]? = some sep := by
    rw [hkd]
    exact List.getElem?_cons_zero
  have hta : cn.keys.take 25 ++ cn.keys.drop 25 = cn.keys := List.take_append_drop 25 cn.keys
  have hpw2 : (cn.keys.take 25 ++ cn.keys.drop 25).Pairwise
      (fun a b => keyLtB a b = true) := by
    rw [hta]
    exact hsort
  have hcross : ∀ a ∈ cn.keys.take 25, ∀ b ∈ cn.keys.drop 25, keyLtB a b = true :=
    (List.pairwise_append.1 hpw2).2.2
  have hsortT : (cn.keys.take 25).Pairwise (fun a b => keyLtB a b = true) :=
    (List.pairwise_append.1 hpw2).1
  have hsortD : (cn.keys.drop 25).Pairwise (fun a b => keyLtB a b = true) :=
    (List.pairwise_append.1 hpw2).2.1
  have hsepmem : sep ∈ cn.keys.drop 25 := by
    rw [hkd]
    exact List.mem_cons_self _ _
  have hsepkeys : sep ∈ cn.keys := by
    rw [← hta]
    exact List.mem_append.2 (Or.inr hsepmem)
  have htlt : ∀ a ∈ cn.keys.take 25, keyLtB a sep = true := fun a ha => hcross a ha sep hsepmem
  have hdge : ∀ b ∈ cn.keys.drop 25, keyLtB b sep = false := by
    intro b hb
    rw [hkd] at hb
    rcases List.mem_cons.1 hb with rfl | hb2
    · exact keyLtB_irrefl b
    · have hsd : (sep :: krest).Pairwise (fun a b => keyLtB a b = true) := by
        rw [← hkd]
        exact hsortD
      exact keyLtB_asymm ((List.pairwise_cons.1 hsd).1 b hb2)
  have hsepLo : okLTo loC sep := by
    cases loC with
    | none => trivial
    | some l =>
        obtain ⟨k0, ktail, hk0⟩ : ∃ a t, cn.keys = a :: t := by
          cases hx : cn.keys with
          | nil => rw [hx] at hcnL; simp at hcnL
          | cons a t => exact ⟨a, t, rfl⟩
        have hk0mem : k0 ∈ cn.keys := by
          rw [hk0]
          exact List.mem_cons_self _ _
        have hsep_tail : sep ∈ ktail := by
          have hx := hsepmem
          rw [hk0, List.drop_succ_cons] at hx
          exact (List.drop_sublist _ _).subset hx
        have hk0lt : keyLtB k0 sep = true := by
          have hx := hsort
          rw [hk0] at hx
          exact (List.pairwise_cons.1 hx).1 sep hsep_tail
        have hk0le := (hbnd k0 hk0mem).1
        rw [okLTo]
        exact keyLtB_lt_of_le hk0le hk0lt
  have hsepHi : okLT sep hiC := (hbnd sep hsepkeys).2
  set newId := s.total_pages with hnid
  set child2 : BTreeNode :=
    { cn with keys := cn.keys.take 25, children := cn.children.take 25 } with hch2
  set sibling : BTreeNode :=
    ⟨newId, some parent.id, .leaf, cn.keys.drop 25, cn.children.drop 25⟩ with hsib
  set parent2 : BTreeNode :=
    { parent with keys := parent.keys.insertIdx idx sep
                  children := parent.children.insertIdx (idx + 1) newId } with hp2
  set s1 : Store := ⟨s.pages, newId + 1⟩ with hs1
  have hbch2 : NodeB child2 :=
    ⟨hcb.1, hcb.2.1, fun k hk => hcb.2.2.1 k (List.take_subset 25 cn.keys hk),
      fun v hv => hcb.2.2.2 v (List.take_subset 25 cn.children hv)⟩
  have hbsib : NodeB sibling := by
    refine ⟨by rw [hsib, hnid]; exact h32, ?_, ?_, ?_⟩
    · intro p hp
      simp [hsib] at hp
      subst hp
      exact hpb.1
    · intro k hk
      rw [hsib] at hk
      exact hcb.2.2.1 k (List.drop_subset 25 cn.keys hk)
    · intro v hv
      rw [hsib] at hv
      exact hcb.2.2.2 v (List.drop_subset 25 cn.children hv)
  have hbp2 : NodeB parent2 := by
    refine ⟨hpb.1, hpb.2.1, ?_, ?_⟩
    · intro k hk
      rw [hp2] at hk
      rcases (List.mem_insertIdx hidxle).1 hk with rfl | hk2
      · exact hcb.2.2.1 k hsepkeys
      · exact hpb.2.2.1 k hk2
    · intro v hv
      rw [hp2] at hv
      rcases (List.mem_insertIdx (by omega)).1 hv with rfl | hv2
      · rw [hnid]; exact h32
      · exact hpb.2.2.2 v hv2
  have hw1 : Store.write s1 child2 = some (s1.put child2) :=
    Store.write_put s1 child2
      (by show (cn.keys.take 25).length ≤ 51
          simp only [List.length_take]
          omega)
      (by show (cn.children.take 25).length ≤ 52
          simp only [List.length_take]
          omega) hbch2
  have hw2 : Store.write (s1.put child2) sibling = some ((s1.put child2).put sibling) :=
    Store.write_put _ sibling
      (by show (cn.keys.drop 25).length ≤ 51
          simp only [List.length_drop]
          omega)
      (by show (cn.children.drop 25).length ≤ 52
          simp only [List.length_drop]
          omega) hbsib
  have hw3 : Store.write ((s1.put child2).put sibling) parent2 =
      some (((s1.put child2).put sibling).put parent2) :=
    Store.write_put _ parent2
      (by show (parent.keys.insertIdx idx sep).length ≤ 51
          have h5 := List.length_insertIdx_le_succ parent.keys sep idx
          omega)
      (by show (parent.children.insertIdx (idx + 1) newId).length ≤ 52
          have h5 := List.length_insertIdx_le_succ parent.children newId (idx + 1)
          omega) hbp2
  set s2 : Store := ((s1.put child2).put sibling).put parent2 with hs2
  have hch2L : child2 = { cn with node_type := NodeType.leaf
                                  keys := cn.keys.take 25
                                  children := cn.children.take 25 } := by
    rw [hch2, hcty]
  have hstep : split_child s parent idx = some (s2, parent2) := by
    simp only [split_child, hpc, Store.read, hcn, Store.alloc, hcty, hcnL,
      if_neg htot0, Nat.reduceDiv, hsep0]
    rw [← hnid, ← hs1, ← hch2L, ← hsib, ← hp2]
    simp only [hw1, hw2, hw3]
  have hpg : ∀ i, s2.pages i =
      if i = parent.id then some parent2
      else if i = newId then some sibling
      else if i = c then some child2
      else s.pages i := by
    intro i
    simp only [hs2, Store.put, hs1]
    by_cases h1 : i = parent.id
    · simp [h1, hp2]
    · by_cases h2 : i = newId
      · have : ¬ parent2.id = i := by simp [hp2, h2]; omega
        simp [h2, hp2, hsib]
      · by_cases h3 : i = c
        · have hg1 : ¬ i = parent2.id := by simp [hp2, h3]; exact fun he => hpid he.symm
          have hg2 : ¬ i = sibling.id := by simp [hsib, h3]; omega
          simp [hp2, hsib, hch2, hcid, h3, hg1, hg2]
        · have hg1 : ¬ i = parent2.id := by simp [hp2]; exact fun he => h1 he
          have hg2 : ¬ i = sibling.id := by simp [hsib]; exact fun he => h2 he
          have hg3 : ¬ i = child2.id := by simp [hch2, hcid]; exact fun he => h3 he
          simp [hp2, hsib, hch2, hcid, hg1, hg2, hg3, h1, h2, h3]
  have htp2 : s2.total_pages = s.total_pages + 1 := by
    simp only [hs2, Store.put, hs1, hp2, hsib, hch2, hcid]
    simp
    omega
  have hnodeL : s2.pages c = some child2 := by
    rw [hpg]
    simp [Ne.symm hpid]
    intro he
    omega
  have hnodeS : s2.pages newId = some sibling := by
    rw [hpg]
    simp
    omega
  have hlfL : LeafF s2 c loC (some sep) ((cn.keys.take 25).zip (cn.children.take 25)) := by
    refine ⟨child2, hnodeL, by simp [hch2, hcid], by simp [hch2, hcty], ?_, ?_, hbch2,
      ?_, ?_, ?_⟩
    · simp [hch2, List.length_take, hcnL]
    · simp [hch2, List.length_take, hcnL, hclen]
    · simp [hch2]
    · exact hsortT
    · intro kk hkk
      have hkk2 : kk ∈ cn.keys := (List.take_sublist _ _).subset hkk
      refine ⟨(hbnd kk hkk2).1, ?_⟩
      rw [okLT]
      exact htlt kk hkk
  have hlfR : LeafF s2 newId (some sep) hiC
      ((cn.keys.drop 25).zip (cn.children.drop 25)) := by
    refine ⟨sibling, hnodeS, rfl, rfl, ?_, ?_, hbsib, ?_, ?_, ?_⟩
    · simp [hsib, List.length_drop, hcnL]
    · simp [hsib, List.length_drop, hcnL, hclen]
    · simp [hsib]
    · exact hsortD
    · intro kk hkk
      have hkk2 : kk ∈ cn.keys := (List.drop_sublist _ _).subset hkk
      refine ⟨?_, (hbnd kk hkk2).2⟩
      rw [okLE]
      exact hdge kk hkk
  refine ⟨s2, parent2, sep, {c}, {newId},
    (cn.keys.take 25).zip (cn.children.take 25),
    (cn.keys.drop 25).zip (cn.children.drop 25),
    hstep, hp2, hcb.2.2.1 sep hsepkeys, ?_, htp2, ?_, ?_, ?_, hsepLo, hsepHi,
    ?_, ?_, ?_, ?_, ?_, ?_⟩
  · rw [hpg]
    simp
  · rw [hes, zip_take50, zip_drop50, List.take_append_drop]
  · cases h with
    | zero => exact Tr_zero.2 ⟨rfl, hlfL⟩
    | succ h => exact Tr_succ.2 (Or.inl ⟨rfl, hlfL⟩)
  · cases h with
    | zero => exact Tr_zero.2 ⟨rfl, hlfR⟩
    | succ h => exact Tr_succ.2 (Or.inl ⟨rfl, hlfR⟩)
  · refine ⟨v0, ?_⟩
    rw [hkd, hvd, List.zip_cons_cons, lookupE, if_pos rfl]
  · simp [Finset.disjoint_singleton]
    omega
  · rfl
  · refine ⟨child2, hnodeL, ?_⟩
    simp [hch2, List.length_take, hcnL]
  · refine ⟨sibling, hnodeS, ?_⟩
    simp [hsib, List.length_drop, hcnL]
  · intro i hi1 hi2 hi3
    rw [hpg, if_neg hi2, if_neg hi3, if_neg (by simp at hi1; exact hi1)]

set_option maxHeartbeats 1000000 in
theorem splitO_internal_aux (s : Store) (parent : BTreeNode) (idx c h : Nat)
    (loC hiC : Option (List Nat)) (esC : List (List Nat × Nat)) (cn : BTreeNode)
    (us : Finset Nat)
    (hpc : parent.children[idx]? = some c)
    (hcn : s.pages c = some cn) (hcid : cn.id = c) (hcty : cn.node_type = .internal)
    (hcnL : cn.keys.length = 50)
    (hch : TrL s h cn.keys cn.children loC hiC esC us)
    (hcnm : c ∉ us)
    (husL : ∀ i ∈ ({c} ∪ us : Finset Nat), i < s.total_pages)
    (hpnm : parent.id ∉ ({c} ∪ us : Finset Nat))
    (hplt : parent.id < s.total_pages)
    (hcb : NodeB cn) (hpb : NodeB parent) (hpkl : parent.keys.length ≤ 50)
    (hpcc : parent.children.length = parent.keys.length + 1)
    (h32 : s.total_pages < 2 ^ 32) :
    SplitConcO s parent idx c (h + 1) loC hiC esC ({c} ∪ us) := by
  have hclt : c < s.total_pages := husL c (by simp)
  have htot0 : ¬ s.total_pages = 0 := by omega
  have hpidc : parent.id ≠ c := fun he => hpnm (by simp [he])
  have hidxlt : idx < parent.children.length := by
    rcases List.getElem?_eq_some_iff.1 hpc with ⟨hh, -⟩
    exact hh
  have hidxle : idx ≤ parent.keys.length := by omega
  have hdlen : (cn.keys.drop 25).length = 25 := by rw [List.length_drop, hcnL]
  obtain ⟨ktp, sibk, hrk⟩ : ∃ a l, cn.keys.drop 25 = a :: l := by
    cases hx : cn.keys.drop 25 with
    | nil => rw [hx] at hdlen; simp at hdlen
    | cons a l => exact ⟨a, l, rfl⟩
  have hsibkL : sibk.length = 24 := by
    rw [hrk] at hdlen
    simp at hdlen
    omega
  have hktpm : ktp ∈ cn.keys :=
    List.drop_subset 25 cn.keys (by rw [hrk]; simp)
  have hsibkm : ∀ k ∈ sibk, k ∈ cn.keys := by
    intro k hk
    exact List.drop_subset 25 cn.keys (by rw [hrk]; simp [hk])
  have hchL : cn.children.length = 51 := by
    have := TrL_len cn.keys s h cn.children loC hiC esC us hch
    omega
  have hsplit : cn.keys = cn.keys.take 25 ++ ktp :: sibk := by
    rw [← hrk]
    exact (List.take_append_drop 25 cn.keys).symm
  rw [hsplit] at hch
  obtain ⟨es1, es2, u1, u2, hesEq, husEq, hd12, hkb1, hkb2, hkrl, hl1, hl2⟩ :=
    TrL_splitO (cn.keys.take 25) ktp sibk s h cn.children loC hiC esC us hch
  have hlen25 : (cn.keys.take 25).length = 25 := by
    rw [List.length_take]
    omega
  rw [hlen25] at hl1 hl2
  norm_num at hl1 hl2
  set newId := s.total_pages with hnid
  set sibc := cn.children.drop 26 with hsibc
  set child2 : BTreeNode :=
    { cn with keys := cn.keys.take 25
              children := cn.children.take 26 } with hch2
  set sibling : BTreeNode := ⟨newId, some parent.id, .internal, sibk, sibc⟩ with hsib
  set parent2 : BTreeNode :=
    { parent with keys := parent.keys.insertIdx idx ktp
                  children := parent.children.insertIdx (idx + 1) newId } with hp2
  set s1 : Store := ⟨s.pages, newId + 1⟩ with hs1
  have hsub2 : ∀ g ∈ sibc, g ∈ u2 := TrL_cids_used sibk s h sibc (some ktp) hiC es2 u2 hl2
  have hnodes : ∀ g ∈ us, NodeOkB s g := by
    intro g hg
    exact (Tr_node_all h).2 (cn.keys.take 25 ++ ktp :: sibk) s cn.children loC hiC esC us
      hch g hg
  have hex : ∀ g ∈ sibc, ∃ gn, s1.pages g = some gn ∧ gn.id = g ∧
      gn.keys.length ≤ 51 ∧ gn.children.length ≤ 52 ∧ NodeB gn := by
    intro g hg
    have hgu : g ∈ us := by rw [husEq]; exact Finset.mem_union_right _ (hsub2 g hg)
    obtain ⟨n, hn, hgid, hk, hc, hbn⟩ := hnodes g hgu
    exact ⟨n, by rw [hs1]; exact hn, hgid, by omega, by omega, hbn⟩
  have hltg : ∀ g ∈ sibc, g < s1.total_pages := by
    intro g hg
    have hgu : g ∈ us := by rw [husEq]; exact Finset.mem_union_right _ (hsub2 g hg)
    have := husL g (Finset.mem_union_right _ hgu)
    show g < s.total_pages + 1
    omega
  have hnew32 : newId < 2 ^ 32 := by rw [hnid]; exact h32
  obtain ⟨s2v, hfix, htpv, hfrv, hmodv⟩ := fixParents_ok sibc s1 newId hex hltg hnew32
  have hbch2 : NodeB child2 :=
    ⟨hcb.1, hcb.2.1, fun k hk => hcb.2.2.1 k (List.take_subset 25 cn.keys hk),
      fun v hv => hcb.2.2.2 v (List.take_subset 26 cn.children hv)⟩
  have hbsib : NodeB sibling := by
    refine ⟨hnew32, ?_, ?_, ?_⟩
    · intro p hp
      simp [hsib] at hp
      subst hp
      exact hpb.1
    · intro k hk
      rw [hsib] at hk
      exact hcb.2.2.1 k (hsibkm k hk)
    · intro v hv
      rw [hsib] at hv
      exact hcb.2.2.2 v (List.drop_subset 26 cn.children hv)
  have hbp2 : NodeB parent2 := by
    refine ⟨hpb.1, hpb.2.1, ?_, ?_⟩
    · intro k hk
      rw [hp2] at hk
      rcases (List.mem_insertIdx hidxle).1 hk with rfl | hk2
      · exact hcb.2.2.1 k hktpm
      · exact hpb.2.2.1 k hk2
    · intro v hv
      rw [hp2] at hv
      rcases (List.mem_insertIdx (by omega)).1 hv with rfl | hv2
      · exact hnew32
      · exact hpb.2.2.2 v hv2
  have hw1 : Store.write s2v child2 = some (s2v.put child2) :=
    Store.write_put s2v child2
      (by show (cn.keys.take 25).length ≤ 51
          simp only [List.length_take]
          omega)
      (by show (cn.children.take 26).length ≤ 52
          simp only [List.length_take]
          omega) hbch2
  have hw2 : Store.write (s2v.put child2) sibling = some ((s2v.put child2).put sibling) :=
    Store.write_put _ sibling
      (by show sibk.length ≤ 51
          omega)
      (by show sibc.length ≤ 52
          rw [hsibc]
          simp only [List.length_drop]
          omega) hbsib
  have hw3 : Store.write ((s2v.put child2).put sibling) parent2 =
      some (((s2v.put child2).put sibling).put parent2) :=
    Store.write_put _ parent2
      (by show (parent.keys.insertIdx idx ktp).length ≤ 51
          have h5 := List.length_insertIdx_le_succ parent.keys ktp idx
          omega)
      (by show (parent.children.insertIdx (idx + 1) newId).length ≤ 52
          have h5 := List.length_insertIdx_le_succ parent.children newId (idx + 1)
          omega) hbp2
  set s2 : Store := ((s2v.put child2).put sibling).put parent2 with hs2
  have hfixR : fixParents ⟨s.pages, s.total_pages + 1⟩ (cn.children.drop 26) s.total_pages
      = some s2v := by
    rw [← hnid, ← hsibc, ← hs1]
    exact hfix
  have hch2I : child2 = { cn with node_type := NodeType.internal
                                  keys := cn.keys.take 25
                                  children := cn.children.take 26 } := by
    rw [hch2, hcty]
  have hstep : split_child s parent idx = some (s2, parent2) := by
    simp only [split_child, hpc, Store.read, hcn, Store.alloc, hcty, hcnL,
      if_neg htot0, Nat.reduceDiv, Nat.reduceAdd, hrk, hfixR]
    rw [← hnid, ← hsibc, ← hch2I, ← hsib, ← hp2]
    simp only [hw1, hw2, hw3]
  have hpg : ∀ i, s2.pages i =
      if i = parent.id then some parent2
      else if i = newId then some sibling
      else if i = c then some child2
      else s2v.pages i := by
    intro i
    simp only [hs2, Store.put]
    by_cases h1 : i = parent.id
    · simp [h1, hp2]
    · by_cases h2 : i = newId
      · have : ¬ parent2.id = i := by simp [hp2, h2]; omega
        simp [h2, hp2, hsib]
      · by_cases h3 : i = c
        · have hg1 : ¬ i = parent2.id := by simp [hp2, h3]; exact fun he => hpidc he.symm
          have hg2 : ¬ i = sibling.id := by simp [hsib, h3]; omega
          simp [hp2, hsib, hch2, hcid, h3, hg1, hg2]
        · have hg1 : ¬ i = parent2.id := by simp [hp2]; exact fun he => h1 he
          have hg2 : ¬ i = sibling.id := by simp [hsib]; exact fun he => h2 he
          have hg3 : ¬ i = child2.id := by simp [hch2, hcid]; exact fun he => h3 he
          simp [hp2, hsib, hch2, hcid, hg1, hg2, hg3, h1, h2, h3]
  have htpv2 : s2v.total_pages = newId + 1 := by rw [htpv, hs1]
  have htp2 : s2.total_pages = s.total_pages + 1 := by
    simp only [hs2, Store.put]
    simp [hp2, hsib, hch2, hcid, htpv2]
    omega
  have hnodeL : s2.pages c = some child2 := by
    rw [hpg]
    simp [Ne.symm hpidc]
    intro he
    omega
  have hfr1 : ∀ i ∈ u1, s2.pages i = s.pages i := by
    intro i hi
    have hius : i ∈ us := by rw [husEq]; exact Finset.mem_union_left _ hi
    have hic : ¬ i = c := fun he => hcnm (he ▸ hius)
    have hip : ¬ i = parent.id := fun he => hpnm (Finset.mem_union_right _ (he ▸ hius))
    have hilt : i < s.total_pages := husL i (Finset.mem_union_right _ hius)
    have hiu2 : i ∉ u2 := Finset.disjoint_left.1 hd12 hi
    have hisc : i ∉ sibc := fun he => hiu2 (hsub2 i he)
    rw [hpg, if_neg hip, if_neg (by omega : ¬ i = newId), if_neg hic, hfrv i hisc, hs1]
  have hkl : child2.keys.length = 25 := by simp [hch2, hcnL]
  have htL : TrL s2 h (cn.keys.take 25) (cn.children.take 26) loC (some ktp) es1 u1 :=
    TrL_frame hfr1 hl1
  have htcL : Tr s2 (h + 1) c loC (some ktp) es1 ({c} ∪ u1) := by
    refine Tr_succ.2 (Or.inr ⟨child2, u1, hnodeL, ?_, ?_, ?_, hbch2, ?_, ?_, rfl⟩)
    · simp [hch2, hcid]
    · simp [hch2, hcty]
    · omega
    · simp only [hch2]
      exact htL
    · exact fun hcu => hcnm (by rw [husEq]; exact Finset.mem_union_left _ hcu)
  have hfr2 : ∀ i ∈ u2, s2.pages i = s2v.pages i := by
    intro i hi
    have hius : i ∈ us := by rw [husEq]; exact Finset.mem_union_right _ hi
    have hic : ¬ i = c := fun he => hcnm (he ▸ hius)
    have hip : ¬ i = parent.id := fun he => hpnm (Finset.mem_union_right _ (he ▸ hius))
    have hilt : i < s.total_pages := husL i (Finset.mem_union_right _ hius)
    rw [hpg, if_neg hip, if_neg (by omega : ¬ i = newId), if_neg hic]
  have hagree : AgreeMod s s2v u2 := by
    intro i _
    have hmi := hmodv i
    rw [hs1] at hmi
    exact hmi
  have ht2v : TrL s2v h sibk sibc (some ktp) hiC es2 u2 :=
    (Tr_congr_all h).2 sibk s s2v sibc (some ktp) hiC es2 u2 hagree hl2
  have htS : TrL s2 h sibk sibc (some ktp) hiC es2 u2 := TrL_frame hfr2 ht2v
  have hnodeS : s2.pages newId = some sibling := by
    rw [hpg]
    simp
    omega
  have hskl : sibling.keys.length = 24 := by simp [hsib, hsibkL]
  have htcS : Tr s2 (h + 1) newId (some ktp) hiC es2 ({newId} ∪ u2) := by
    refine Tr_succ.2 (Or.inr ⟨sibling, u2, hnodeS, ?_, ?_, ?_, hbsib, ?_, ?_, rfl⟩)
    · simp [hsib]
    · simp [hsib]
    · omega
    · simp only [hsib]
      exact htS
    · intro hnu
      have h1 : newId ∈ us := by rw [husEq]; exact Finset.mem_union_right _ hnu
      have h2 : newId < s.total_pages := husL newId (Finset.mem_union_right _ h1)
      omega
  refine ⟨s2, parent2, ktp, {c} ∪ u1, {newId} ∪ u2, es1, es2, hstep, ?_,
    hcb.2.2.1 ktp hktpm, ?_, htp2, hesEq.symm, htcL, ?_, hkb1, hkb2, hkrl, ?_, ?_,
    ⟨child2, hnodeL, by omega⟩, ?_, ?_⟩
  · rw [hp2, hnid]
  · rw [hpg]
    simp
  · rw [← hnid]
    exact htcS
  · rw [Finset.disjoint_left]
    intro a ha hb
    rw [Finset.mem_union] at ha hb
    rcases ha with ha | ha
    · rw [Finset.mem_singleton] at ha
      subst ha
      rcases hb with hb | hb
      · rw [Finset.mem_singleton] at hb
        omega
      · exact hcnm (by rw [husEq]; exact Finset.mem_union_right _ hb)
    · have hau : a ∈ us := by rw [husEq]; exact Finset.mem_union_left _ ha
      have halt : a < s.total_pages := husL a (Finset.mem_union_right _ hau)
      rcases hb with hb | hb
      · rw [Finset.mem_singleton] at hb
        omega
      · exact Finset.disjoint_left.1 hd12 ha hb
  · rw [husEq, ← hnid]
    ext a
    simp [Finset.mem_union]
    tauto
  · rw [← hnid]
    exact ⟨sibling, hnodeS, by omega⟩
  · intro i hiu hip hins
    have hic : ¬ i = c := fun he => hiu (by simp [he])
    have hius : i ∉ us := fun he => hiu (Finset.mem_union_right _ he)
    have hisc : i ∉ sibc := fun he =>
      hius (by rw [husEq]; exact Finset.mem_union_right _ (hsub2 i he))
    have hin2 : ¬ i = newId := fun he => hins (he.trans hnid)
    rw [hpg, if_neg hip, if_neg hin2, if_neg hic, hfrv i hisc, hs1]

theorem splitO_ok (s : Store) (parent : BTreeNode) (idx c h : Nat)
    (loC hiC : Option (List Nat)) (esC : List (List Nat × Nat)) (usedC : Finset Nat)
    (cn : BTreeNode)
    (hpc : parent.children[idx]? = some c)
    (hcn : s.pages c = some cn) (hfull : cn.keys.length = 50)
    (ht : Tr s h c loC hiC esC usedC)
    (husL : ∀ i ∈ usedC, i < s.total_pages)
    (hpnm : parent.id ∉ usedC)
    (hplt : parent.id < s.total_pages)
    (hpb : NodeB parent) (hpkl : parent.keys.length ≤ 50)
    (hpcc : parent.children.length = parent.keys.length + 1)
    (h32 : s.total_pages < 2 ^ 32) :
    SplitConcO s parent idx c h loC hiC esC usedC := by
  have hclt : c < s.total_pages := husL c (Tr_mem_id s h c loC hiC esC usedC ht)
  have hpidc : parent.id ≠ c := fun he => hpnm (he ▸ Tr_mem_id s h c loC hiC esC usedC ht)
  cases h with
  | zero =>
      obtain ⟨hu, hl⟩ := Tr_zero.1 ht
      obtain ⟨n, hn, hnid2, hnty, hnle, hnchl, hnb, hes, hsort, hbnd⟩ := hl
      rw [hcn] at hn
      injection hn with he
      subst he
      subst hu
      exact splitO_leaf_aux s parent idx c 0 loC hiC esC cn hpc hcn hnid2 hnty hnchl hfull
        hes hsort hbnd hclt hpidc hplt hnb hpb hpkl hpcc h32
  | succ h =>
      rcases Tr_succ.1 ht with ⟨hu, hl⟩ | ⟨n, us, hn, hnid2, hnty, hnle, hnb, hch, hnmem, hu⟩
      · obtain ⟨n, hn, hnid2, hnty2, hnle, hnchl, hnb, hes, hsort, hbnd⟩ := hl
        rw [hcn] at hn
        injection hn with he
        subst he
        subst hu
        exact splitO_leaf_aux s parent idx c (h + 1) loC hiC esC cn hpc hcn hnid2 hnty2
          hnchl hfull hes hsort hbnd hclt hpidc hplt hnb hpb hpkl hpcc h32
      · rw [hcn] at hn
        injection hn with he
        subst he
        subst hu
        exact splitO_internal_aux s parent idx c h loC hiC esC cn us hpc hcn hnid2 hnty
          hfull hch hnmem husL hpnm hplt hnb hpb hpkl hpcc h32

theorem mem_zip_left_ex : ∀ (keys : List (List Nat)) (vals : List Nat) (kk : List Nat),
    keys.length = vals.length → kk ∈ keys → ∃ v, (kk, v) ∈ keys.zip vals := by
  intro keys
  induction keys with
  | nil => intro vals kk hlen hm; cases hm
  | cons a t ih =>
      intro vals kk hlen hm
      cases vals with
      | nil => simp at hlen
      | cons b u =>
          rcases List.mem_cons.1 hm with rfl | hm2
          · exact ⟨b, by rw [List.zip_cons_cons]; exact List.mem_cons_self _ _⟩
          · obtain ⟨v, hv⟩ := ih u kk (by simpa using hlen) hm2
            exact ⟨v, by rw [List.zip_cons_cons]; exact List.mem_cons_of_mem _ hv⟩

/-- The leaf case of `insert_non_full`, ordered version: inserting at the
partition point yields the sorted insertion `insE key value es`. -/
theorem insert_nfO_leaf (fuel : Nat) (s : Store) (id : Nat) (key : List Nat) (value : Nat)
    (lo hi : Option (List Nat)) (es : List (List Nat × Nat))
    (hl : LeafF s id lo hi es) (hnfK : ∃ n, s.pages id = some n ∧ n.keys.length < 50)
    (hlo : okLE lo key) (hhi : okLT key hi)
    (hfresh : lookupE es key = none)
    (hidlt : id < s.total_pages)
    (hkb : key.length ≤ 64) (hvb : value < 2 ^ 32) :
    ∃ s2, insert_non_full (fuel + 1) s id key value = some s2 ∧
      LeafF s2 id lo hi (insE key value es) ∧ s2.total_pages = s.total_pages ∧
      (∀ i, i ≠ id → s2.pages i = s.pages i) := by
  obtain ⟨n, hn, hid, hty, hle, hchl, hnb, hes, hsort, hbnd⟩ := hl
  obtain ⟨n2, hn2, hnfK2⟩ := hnfK
  rw [hn] at hn2
  injection hn2 with he
  subst he
  have hfreshK : ∀ kk ∈ n.keys, kk ≠ key := by
    intro kk hkk
    obtain ⟨v, hv⟩ := mem_zip_left_ex n.keys n.children kk hchl.symm hkk
    rw [hes, lookupE_none_iff] at hfresh
    exact hfresh (kk, v) hv
  set idx := ppoint (fun kk => keyLtB kk key) n.keys with hidx
  have hidxle : idx ≤ n.keys.length := ppoint_le _ _
  have hidxle2 : idx ≤ n.children.length := by omega
  set node2 : BTreeNode :=
    { n with keys := n.keys.insertIdx idx key
             children := n.children.insertIdx idx value } with hn2d
  have hkL : node2.keys.length = n.keys.length + 1 := by
    simp only [hn2d]
    exact List.length_insertIdx idx n.keys hidxle
  have hcL : node2.children.length = n.children.length + 1 := by
    simp only [hn2d]
    exact List.length_insertIdx idx n.children hidxle2
  have hnb2 : NodeB node2 := by
    refine ⟨hnb.1, hnb.2.1, ?_, ?_⟩
    · intro k hk
      rw [hn2d] at hk
      rcases (List.mem_insertIdx hidxle).1 hk with rfl | hk2
      · exact hkb
      · exact hnb.2.2.1 k hk2
    · intro v hv
      rw [hn2d] at hv
      rcases (List.mem_insertIdx hidxle2).1 hv with rfl | hv2
      · exact hvb
      · exact hnb.2.2.2 v hv2
  have hw : Store.write s node2 = some (s.put node2) :=
    Store.write_put s node2 (by omega) (by omega) hnb2
  have hn2L : node2 = { n with node_type := NodeType.leaf
                               keys := n.keys.insertIdx idx key
                               children := n.children.insertIdx idx value } := by
    rw [hn2d, hty]
  refine ⟨s.put node2, ?_, ?_, ?_, ?_⟩
  · simp only [insert_non_full, Store.read, hn, hty, ← hidx, ← hn2L, hw]
  · refine ⟨node2, ?_, ?_, ?_, ?_, ?_, hnb2, ?_, ?_, ?_⟩
    · simp [Store.put, hn2d, hid]
    · simp [hn2d, hid]
    · simp [hn2d, hty]
    · omega
    · omega
    · rw [hes, hn2d]
      exact (zip_insertIdx_ppoint key value n.keys n.children hchl.symm).symm
    · simp only [hn2d]
      exact pairwise_insertIdx_ppoint key n.keys hsort hfreshK
    · intro kk hkk
      simp only [hn2d] at hkk
      rcases mem_insertIdx_ppoint _ key n.keys kk hkk with rfl | hm
      · exact ⟨hlo, hhi⟩
      · exact hbnd kk hm
  · simp [Store.put, hn2d, hid]
    omega
  · intro i hi
    simp [Store.put, hn2d, hid, hi]

theorem Tr_root_node {s : Store} {h id : Nat} {lo hi : Option (List Nat)}
    {es : List (List Nat × Nat)} {used : Finset Nat} (ht : Tr s h id lo hi es used) :
    ∃ n, s.pages id = some n ∧ n.id = id ∧ n.keys.length ≤ 50 := by
  cases h with
  | zero =>
      obtain ⟨-, n, hn, h1, -, h2, -⟩ := Tr_zero.1 ht
      exact ⟨n, hn, h1, h2⟩
  | succ h =>
      rcases Tr_succ.1 ht with ⟨-, n, hn, h1, -, h2, -⟩ | ⟨n, us, hn, h1, -, h2, -⟩
      · exact ⟨n, hn, h1, h2⟩
      · exact ⟨n, hn, h1, h2⟩

/-- `insert_non_full`, ordered version: on a non-full invariant subtree
whose window admits the fresh key, the call succeeds, the subtree's new
entry list maps the key to the value and is otherwise unchanged, and all
the page-accounting facts of the counts version hold. -/
theorem insert_nfO_ok : ∀ (fuel h : Nat) (s : Store) (id : Nat) (key : List Nat)
    (value : Nat) (lo hi : Option (List Nat)) (es : List (List Nat × Nat))
    (used : Finset Nat),
    Tr s h id lo hi es used →
    (∀ i ∈ used, i < s.total_pages) →
    h < fuel →
    okLE lo key → okLT key hi →
    lookupE es key = none →
    key.length ≤ 64 → value < 2 ^ 32 → s.total_pages + h < 2 ^ 32 →
    (∃ n, s.pages id = some n ∧ n.keys.length < 50) →
    ∃ s2 used2 es2, insert_non_full fuel s id key value = some s2 ∧
      Tr s2 h id lo hi es2 used2 ∧
      lookupE es2 key = some value ∧
      (∀ k2, k2 ≠ key → lookupE es2 k2 = lookupE es k2) ∧
      used ⊆ used2 ∧
      (∀ i ∈ used2, i ∈ used ∨ s.total_pages ≤ i) ∧
      (∀ i ∈ used2, i < s2.total_pages) ∧
      s.total_pages ≤ s2.total_pages ∧
      (∀ i, i ∉ used2 → s2.pages i = s.pages i) ∧
      s2.total_pages ≤ s.total_pages + h := by
  intro fuel
  induction fuel with
  | zero => intro h s id key value lo hi es used ht hul hf hlo hhi hfr hkb hvb htp32 hnf; omega
  | succ fuel ih =>
    intro h s id key value lo hi es used ht hul hf hlo hhi hfr hkb hvb htp32 hnf
    cases h with
    | zero =>
        obtain ⟨hu, hl⟩ := Tr_zero.1 ht
        subst hu
        have hidlt : id < s.total_pages := hul id (by simp)
        obtain ⟨s2, hrun, hlf2, htp, hfrm⟩ :=
          insert_nfO_leaf fuel s id key value lo hi es hl hnf hlo hhi hfr hidlt hkb hvb
        refine ⟨s2, {id}, insE key value es, hrun, Tr_zero.2 ⟨rfl, hlf2⟩,
          lookupE_insE_self key value es, fun k2 hk2 => lookupE_insE_ne key k2 value es hk2,
          Finset.Subset.refl _, fun i hi2 => Or.inl hi2, ?_, by omega, ?_, by omega⟩
        · intro i hi2
          rw [Finset.mem_singleton] at hi2
          subst hi2
          omega
        · intro i hi2
          exact hfrm i (fun he => hi2 (by simp [he]))
    | succ h =>
      rcases Tr_succ.1 ht with ⟨hu, hl⟩ | ⟨n, us, hn, hid, hty, hle, hnb, hch, hnm, hu⟩
      · subst hu
        have hidlt : id < s.total_pages := hul id (by simp)
        obtain ⟨s2, hrun, hlf2, htp, hfrm⟩ :=
          insert_nfO_leaf fuel s id key value lo hi es hl hnf hlo hhi hfr hidlt hkb hvb
        refine ⟨s2, {id}, insE key value es, hrun, Tr_succ.2 (Or.inl ⟨rfl, hlf2⟩),
          lookupE_insE_self key value es, fun k2 hk2 => lookupE_insE_ne key k2 value es hk2,
          Finset.Subset.refl _, fun i hi2 => Or.inl hi2, ?_, by omega, ?_, by omega⟩
        · intro i hi2
          rw [Finset.mem_singleton] at hi2
          subst hi2
          omega
        · intro i hi2
          exact hfrm i (fun he => hi2 (by simp [he]))
      · subst hu
        obtain ⟨n0, hn0, hnfK0⟩ := hnf
        rw [hn] at hn0
        injection hn0 with he
        subst he
        have hidlt : id < s.total_pages := hul id (by simp)
        obtain ⟨c, loC, hiC, esPre, esC, esPost, usC, usR, hcg, hesEq, huEq, hdCR, htc,
          hloC, hhiC, hfrC, hclo1, hclo2⟩ :=
          TrL_stepO n.keys s h n.children lo hi es us key hch hlo hhi hfr
        set idx := ppoint (fun sp => keyLtB sp key) n.keys with hidx
        have hidxle : idx ≤ n.keys.length := ppoint_le _ _
        have hchlen : n.children.length = n.keys.length + 1 :=
          TrL_len n.keys s h n.children lo hi es us hch
        have hfrPre : lookupE esPre key = none := by
          rw [hesEq] at hfr
          exact (lookupE_append_none (lookupE_append_none hfr).1).1
        have hfrPost : lookupE esPost key = none := by
          rw [hesEq] at hfr
          exact (lookupE_append_none hfr).2
        have hCsub : ∀ i ∈ usC, i ∈ us := by
          intro i hi2; rw [huEq]; exact Finset.mem_union_left _ hi2
        have hRsub : ∀ i ∈ usR, i ∈ us := by
          intro i hi2; rw [huEq]; exact Finset.mem_union_right _ hi2
        have husC : ∀ i ∈ usC, i < s.total_pages := fun i hi2 =>
          hul i (Finset.mem_union_right _ (hCsub i hi2))
        have husR : ∀ i ∈ usR, i < s.total_pages := fun i hi2 =>
          hul i (Finset.mem_union_right _ (hRsub i hi2))
        have hidC : id ∉ usC := fun hmem => hnm (hCsub id hmem)
        have hidR : id ∉ usR := fun hmem => hnm (hRsub id hmem)
        obtain ⟨child, hchn, hchid, hchle⟩ := Tr_root_node htc
        by_cases hfull : child.is_full = true
        · have hck50 : child.keys.length = 50 := by
            rw [BTreeNode.is_full] at hfull
            simp at hfull
            omega
          have hnidC : n.id ∉ usC := by rw [hid]; exact hidC
          have hnplt : n.id < s.total_pages := by rw [hid]; exact hidlt
          obtain ⟨s1, node1, sep, usedL, usedS, esL, esR, hsc, hp2, hsep64, hpw, htp1, hesC,
            htL, htS, hsb1, hsb2, hsrl, hdLS, huLS, hnfL, hnfS, hfr1⟩ :=
            splitO_ok s n idx c h loC hiC esC usC child hcg hchn hck50 htc husC hnidC hnplt
              hnb hle hchlen (by omega)
          have hbn1 : NodeB node1 := by
            rw [hp2]
            refine ⟨hnb.1, hnb.2.1, ?_, ?_⟩
            · intro k hk
              rcases (List.mem_insertIdx hidxle).1 hk with rfl | hk2
              · exact hsep64
              · exact hnb.2.2.1 k hk2
            · intro v hv
              rcases (List.mem_insertIdx (by omega)).1 hv with rfl | hv2
              · omega
              · exact hnb.2.2.2 v hv2
          have hfrL0 : lookupE esL key = none := by
            rw [← hesC] at hfrC
            exact (lookupE_append_none hfrC).1
          have hfrR0 : lookupE esR key = none := by
            rw [← hesC] at hfrC
            exact (lookupE_append_none hfrC).2
          have hsepne : sep ≠ key := by
            intro he
            obtain ⟨v, hv⟩ := hsrl
            rw [he, hfrR0] at hv
            cases hv
          have hkm : node1.keys[idx]? = some sep := by
            rw [hp2]
            show (n.keys.insertIdx idx sep)[idx]? = some sep
            exact getElem?_insertIdx_self_eq hidxle
          have hch1L : node1.children[idx]? = some c := by
            rw [hp2]
            show (n.children.insertIdx (idx + 1) s.total_pages)[idx]? = some c
            rw [getElem?_insertIdx_lt (by omega) (by omega)]
            exact hcg
          have hch1S : node1.children[idx + 1]? = some s.total_pages := by
            rw [hp2]
            show (n.children.insertIdx (idx + 1) s.total_pages)[idx + 1]? =
              some s.total_pages
            exact getElem?_insertIdx_self_eq (by omega)
          have hLsub : ∀ i ∈ usedL, i ∈ usC ∪ {s.total_pages} := by
            intro i hi2; rw [← huLS]; exact Finset.mem_union_left _ hi2
          have hSsub : ∀ i ∈ usedS, i ∈ usC ∪ {s.total_pages} := by
            intro i hi2; rw [← huLS]; exact Finset.mem_union_right _ hi2
          have hLlt : ∀ i ∈ usedL, i < s.total_pages + 1 := by
            intro i hi2
            rcases Finset.mem_union.1 (hLsub i hi2) with h1 | h1
            · have := husC i h1; omega
            · rw [Finset.mem_singleton] at h1; omega
          have hSlt : ∀ i ∈ usedS, i < s.total_pages + 1 := by
            intro i hi2
            rcases Finset.mem_union.1 (hSsub i hi2) with h1 | h1
            · have := husC i h1; omega
            · rw [Finset.mem_singleton] at h1; omega
          have hidL : id ∉ usedL := by
            intro hmem
            rcases Finset.mem_union.1 (hLsub id hmem) with h1 | h1
            · exact hidC h1
            · rw [Finset.mem_singleton] at h1; omega
          have hidS : id ∉ usedS := by
            intro hmem
            rcases Finset.mem_union.1 (hSsub id hmem) with h1 | h1
            · exact hidC h1
            · rw [Finset.mem_singleton] at h1; omega
          have h1id : node1.id = id := by rw [hp2]; exact hid
          have h1ty : node1.node_type = .internal := by rw [hp2]; exact hty
          have h1kL : node1.keys.length = n.keys.length + 1 := by
            rw [hp2]
            show (n.keys.insertIdx idx sep).length = n.keys.length + 1
            exact List.length_insertIdx idx n.keys hidxle
          by_cases hdir : keyLtB sep key = true
          · -- descend into the fresh sibling
            have hlo2 : okLE (some sep) key := by
              rw [okLE]
              exact keyLtB_asymm hdir
            have hulS1 : ∀ i ∈ usedS, i < s1.total_pages := by
              intro i hi2; rw [htp1]; exact hSlt i hi2
            obtain ⟨s5, used5, es5, hrun5, htc5, hlk5self, hlk5ne, hsub5, hfresh5, hul5,
              htp5, hfr5, htpb5⟩ :=
              ih h s1 s.total_pages key value (some sep) hiC esR usedS htS hulS1
                (by omega) hlo2 hhiC hfrR0 hkb hvb (by omega) hnfS
            have htp15 : s.total_pages + 1 ≤ s5.total_pages := by rw [← htp1]; exact htp5
            have hfrR : ∀ i ∈ usR, s5.pages i = s.pages i := by
              intro i hi2
              have hiC2 : i ∉ usC := Finset.disjoint_right.1 hdCR hi2
              have hilt : i < s.total_pages := husR i hi2
              have h1 : s1.pages i = s.pages i := by
                refine hfr1 i hiC2 ?_ (by omega)
                intro he
                exact hidR ((he.trans hid) ▸ hi2)
              have h2 : i ∉ used5 := by
                intro hmem
                rcases hfresh5 i hmem with h3 | h3
                · rcases Finset.mem_union.1 (hSsub i h3) with h4 | h4
                  · exact hiC2 h4
                  · rw [Finset.mem_singleton] at h4; omega
                · rw [htp1] at h3; omega
              rw [hfr5 i h2, h1]
            have hfrL : ∀ i ∈ usedL, s5.pages i = s1.pages i := by
              intro i hi2
              apply hfr5
              intro hmem
              rcases hfresh5 i hmem with h3 | h3
              · exact Finset.disjoint_left.1 hdLS hi2 h3
              · rw [htp1] at h3
                have := hLlt i hi2
                omega
            have htL5 : Tr s5 h c loC (some sep) esL usedL := Tr_frame hfrL htL
            have hrun : insert_non_full (fuel + 1) s id key value = some s5 := by
              rw [← hrun5]
              simp only [insert_non_full, Store.read, hn, hty, ← hidx, hcg, hchn,
                if_pos hfull, hsc, hkm, if_pos hdir, hch1S]
            have hd1 : Disjoint usedL used5 := by
              rw [Finset.disjoint_left]
              intro a ha hb
              rcases hfresh5 a hb with h3 | h3
              · exact Finset.disjoint_left.1 hdLS ha h3
              · rw [htp1] at h3
                have := hLlt a ha
                omega
            have hd2 : Disjoint (usedL ∪ used5) usR := by
              rw [Finset.disjoint_left]
              intro a ha hb
              rcases Finset.mem_union.1 ha with h3 | h3
              · rcases Finset.mem_union.1 (hLsub a h3) with h4 | h4
                · exact Finset.disjoint_left.1 hdCR h4 hb
                · rw [Finset.mem_singleton] at h4
                  have := husR a hb
                  omega
              · rcases hfresh5 a h3 with h4 | h4
                · rcases Finset.mem_union.1 (hSsub a h4) with h5 | h5
                  · exact Finset.disjoint_left.1 hdCR h5 hb
                  · rw [Finset.mem_singleton] at h5
                    have := husR a hb
                    omega
                · rw [htp1] at h4
                  have := husR a hb
                  omega
            have hsrl5 : ∃ v, lookupE es5 sep = some v := by
              obtain ⟨v, hv⟩ := hsrl
              exact ⟨v, by rw [hlk5ne sep hsepne]; exact hv⟩
            have hsame : ∀ k2, k2 ≠ key →
                lookupE (esL ++ es5) k2 = lookupE esC k2 := by
              intro k2 hk2
              rw [← hesC, lookupE_append, lookupE_append, hlk5ne k2 hk2]
            have hlist := hclo2 s5 s.total_pages sep esL es5 usedL used5 hfrR hd1 hd2
              htL5 htc5 hsb1 hsb2 hsrl5 hsame
            have hid5 : id ∉ used5 := by
              intro hmem
              rcases hfresh5 id hmem with h3 | h3
              · exact hidS h3
              · rw [htp1] at h3; omega
            have hpw5 : s5.pages id = some node1 := by
              rw [hfr5 id hid5, ← hid]
              exact hpw
            refine ⟨s5, {id} ∪ ((usedL ∪ used5) ∪ usR),
              esPre ++ (esL ++ es5) ++ esPost, hrun, ?_, ?_, ?_, ?_, ?_, ?_, by omega, ?_,
              by omega⟩
            · refine Tr_succ.2 (Or.inr ⟨node1, (usedL ∪ used5) ∪ usR, hpw5, h1id, h1ty,
                by omega, hbn1, ?_, ?_, rfl⟩)
              · rw [hp2]
                exact hlist
              · intro hmem
                rcases Finset.mem_union.1 hmem with h3 | h3
                · rcases Finset.mem_union.1 h3 with h4 | h4
                  · exact hidL h4
                  · exact hid5 h4
                · exact hidR h3
            · simp only [lookupE_append, hfrPre, hfrL0, hlk5self]
            · intro k2 hk2
              rw [hesEq]
              exact lookupE_mid_congr esPre esPost esC (esL ++ es5) key hsame k2 hk2
            · intro i hi2
              rcases Finset.mem_union.1 hi2 with h3 | h3
              · exact Finset.mem_union_left _ h3
              · rw [huEq] at h3
                rcases Finset.mem_union.1 h3 with h4 | h4
                · have h5 : i ∈ usedL ∪ usedS := by
                    rw [huLS]; exact Finset.mem_union_left _ h4
                  rcases Finset.mem_union.1 h5 with h6 | h6
                  · exact Finset.mem_union_right _
                      (Finset.mem_union_left _ (Finset.mem_union_left _ h6))
                  · exact Finset.mem_union_right _
                      (Finset.mem_union_left _ (Finset.mem_union_right _ (hsub5 h6)))
                · exact Finset.mem_union_right _ (Finset.mem_union_right _ h4)
            · intro i hi2
              rcases Finset.mem_union.1 hi2 with h3 | h3
              · exact Or.inl (Finset.mem_union_left _ h3)
              · rcases Finset.mem_union.1 h3 with h4 | h4
                · rcases Finset.mem_union.1 h4 with h5 | h5
                  · rcases Finset.mem_union.1 (hLsub i h5) with h6 | h6
                    · exact Or.inl (Finset.mem_union_right _ (hCsub i h6))
                    · rw [Finset.mem_singleton] at h6
                      exact Or.inr (by omega)
                  · rcases hfresh5 i h5 with h6 | h6
                    · rcases Finset.mem_union.1 (hSsub i h6) with h7 | h7
                      · exact Or.inl (Finset.mem_union_right _ (hCsub i h7))
                      · rw [Finset.mem_singleton] at h7
                        exact Or.inr (by omega)
                    · rw [htp1] at h6
                      exact Or.inr (by omega)
                · exact Or.inl (Finset.mem_union_right _ (hRsub i h4))
            · intro i hi2
              rcases Finset.mem_union.1 hi2 with h3 | h3
              · rw [Finset.mem_singleton] at h3
                subst h3
                omega
              · rcases Finset.mem_union.1 h3 with h4 | h4
                · rcases Finset.mem_union.1 h4 with h5 | h5
                  · have := hLlt i h5; omega
                  · exact hul5 i h5
                · have := husR i h4; omega
            · intro i hi2
              have hiid : i ≠ id := fun he => hi2 (by simp [he])
              have hiL : i ∉ usedL := fun he => hi2 (Finset.mem_union_right _
                (Finset.mem_union_left _ (Finset.mem_union_left _ he)))
              have hi5 : i ∉ used5 := fun he => hi2 (Finset.mem_union_right _
                (Finset.mem_union_left _ (Finset.mem_union_right _ he)))
              have hiR : i ∉ usR := fun he => hi2 (Finset.mem_union_right _
                (Finset.mem_union_right _ he))
              have hiS : i ∉ usedS := fun he => hi5 (hsub5 he)
              have hiC2 : i ∉ usC := by
                intro he
                have h5 : i ∈ usedL ∪ usedS := by
                  rw [huLS]; exact Finset.mem_union_left _ he
                rcases Finset.mem_union.1 h5 with h6 | h6
                · exact hiL h6
                · exact hiS h6
              have hitp : i ≠ s.total_pages := by
                intro he
                have h5 : i ∈ usedL ∪ usedS := by
                  rw [huLS]
                  exact Finset.mem_union_right _ (by simp [he])
                rcases Finset.mem_union.1 h5 with h6 | h6
                · exact hiL h6
                · exact hiS h6
              rw [hfr5 i hi5]
              exact hfr1 i hiC2 (fun he => hiid (he.trans hid)) hitp
          · -- descend into the split-off left child
            have hdirF : keyLtB sep key = false := by
              cases hx : keyLtB sep key
              · rfl
              · exact absurd hx hdir
            have hhi2 : okLT key (some sep) := by
              rw [okLT]
              exact keyLtB_of_nlt_ne hdirF hsepne
            have hulL1 : ∀ i ∈ usedL, i < s1.total_pages := by
              intro i hi2; rw [htp1]; exact hLlt i hi2
            obtain ⟨s5, used5, es5, hrun5, htc5, hlk5self, hlk5ne, hsub5, hfresh5, hul5,
              htp5, hfr5, htpb5⟩ :=
              ih h s1 c key value loC (some sep) esL usedL htL hulL1
                (by omega) hloC hhi2 hfrL0 hkb hvb (by omega) hnfL
            have htp15 : s.total_pages + 1 ≤ s5.total_pages := by rw [← htp1]; exact htp5
            have hfrR : ∀ i ∈ usR, s5.pages i = s.pages i := by
              intro i hi2
              have hiC2 : i ∉ usC := Finset.disjoint_right.1 hdCR hi2
              have hilt : i < s.total_pages := husR i hi2
              have h1 : s1.pages i = s.pages i := by
                refine hfr1 i hiC2 ?_ (by omega)
                intro he
                exact hidR ((he.trans hid) ▸ hi2)
              have h2 : i ∉ used5 := by
                intro hmem
                rcases hfresh5 i hmem with h3 | h3
                · rcases Finset.mem_union.1 (hLsub i h3) with h4 | h4
                  · exact hiC2 h4
                  · rw [Finset.mem_singleton] at h4; omega
                · rw [htp1] at h3; omega
              rw [hfr5 i h2, h1]
            have hfrS : ∀ i ∈ usedS, s5.pages i = s1.pages i := by
              intro i hi2
              apply hfr5
              intro hmem
              rcases hfresh5 i hmem with h3 | h3
              · exact Finset.disjoint_left.1 hdLS h3 hi2
              · rw [htp1] at h3
                have := hSlt i hi2
                omega
            have htS5 : Tr s5 h s.total_pages (some sep) hiC esR usedS :=
              Tr_frame hfrS htS
            have hrun : insert_non_full (fuel + 1) s id key value = some s5 := by
              rw [← hrun5]
              simp only [insert_non_full, Store.read, hn, hty, ← hidx, hcg, hchn,
                if_pos hfull, hsc, hkm, if_neg hdir, hch1L]
            have hd1 : Disjoint used5 usedS := by
              rw [Finset.disjoint_left]
              intro a ha hb
              rcases hfresh5 a ha with h3 | h3
              · exact Finset.disjoint_left.1 hdLS h3 hb
              · rw [htp1] at h3
                have := hSlt a hb
                omega
            have hd2 : Disjoint (used5 ∪ usedS) usR := by
              rw [Finset.disjoint_left]
              intro a ha hb
              rcases Finset.mem_union.1 ha with h3 | h3
              · rcases hfresh5 a h3 with h4 | h4
                · rcases Finset.mem_union.1 (hLsub a h4) with h5 | h5
                  · exact Finset.disjoint_left.1 hdCR h5 hb
                  · rw [Finset.mem_singleton] at h5
                    have := husR a hb
                    omega
                · rw [htp1] at h4
                  have := husR a hb
                  omega
              · rcases Finset.mem_union.1 (hSsub a h3) with h4 | h4
                · exact Finset.disjoint_left.1 hdCR h4 hb
                · rw [Finset.mem_singleton] at h4
                  have := husR a hb
                  omega
            have hsame : ∀ k2, k2 ≠ key →
                lookupE (es5 ++ esR) k2 = lookupE esC k2 := by
              intro k2 hk2
              rw [← hesC, lookupE_append, lookupE_append, hlk5ne k2 hk2]
            have hlist := hclo2 s5 s.total_pages sep es5 esR used5 usedS hfrR hd1 hd2
              htc5 htS5 hsb1 hsb2 hsrl hsame
            have hid5 : id ∉ used5 := by
              intro hmem
              rcases hfresh5 id hmem with h3 | h3
              · exact hidL h3
              · rw [htp1] at h3; omega
            have hpw5 : s5.pages id = some node1 := by
              rw [hfr5 id hid5, ← hid]
              exact hpw
            refine ⟨s5, {id} ∪ ((used5 ∪ usedS) ∪ usR),
              esPre ++ (es5 ++ esR) ++ esPost, hrun, ?_, ?_, ?_, ?_, ?_, ?_, by omega, ?_,
              by omega⟩
            · refine Tr_succ.2 (Or.inr ⟨node1, (used5 ∪ usedS) ∪ usR, hpw5, h1id, h1ty,
                by omega, hbn1, ?_, ?_, rfl⟩)
              · rw [hp2]
                exact hlist
              · intro hmem
                rcases Finset.mem_union.1 hmem with h3 | h3
                · rcases Finset.mem_union.1 h3 with h4 | h4
                  · exact hid5 h4
                  · exact hidS h4
                · exact hidR h3
            · simp only [lookupE_append, hfrPre, hlk5self]
            · intro k2 hk2
              rw [hesEq]
              exact lookupE_mid_congr esPre esPost esC (es5 ++ esR) key hsame k2 hk2
            · intro i hi2
              rcases Finset.mem_union.1 hi2 with h3 | h3
              · exact Finset.mem_union_left _ h3
              · rw [huEq] at h3
                rcases Finset.mem_union.1 h3 with h4 | h4
                · have h5 : i ∈ usedL ∪ usedS := by
                    rw [huLS]; exact Finset.mem_union_left _ h4
                  rcases Finset.mem_union.1 h5 with h6 | h6
                  · exact Finset.mem_union_right _
                      (Finset.mem_union_left _ (Finset.mem_union_left _ (hsub5 h6)))
                  · exact Finset.mem_union_right _
                      (Finset.mem_union_left _ (Finset.mem_union_right _ h6))
                · exact Finset.mem_union_right _ (Finset.mem_union_right _ h4)
            · intro i hi2
              rcases Finset.mem_union.1 hi2 with h3 | h3
              · exact Or.inl (Finset.mem_union_left _ h3)
              · rcases Finset.mem_union.1 h3 with h4 | h4
                · rcases Finset.mem_union.1 h4 with h5 | h5
                  · rcases hfresh5 i h5 with h6 | h6
                    · rcases Finset.mem_union.1 (hLsub i h6) with h7 | h7
                      · exact Or.inl (Finset.mem_union_right _ (hCsub i h7))
                      · rw [Finset.mem_singleton] at h7
                        exact Or.inr (by omega)
                    · rw [htp1] at h6
                      exact Or.inr (by omega)
                  · rcases Finset.mem_union.1 (hSsub i h5) with h6 | h6
                    · exact Or.inl (Finset.mem_union_right _ (hCsub i h6))
                    · rw [Finset.mem_singleton] at h6
                      exact Or.inr (by omega)
                · exact Or.inl (Finset.mem_union_right _ (hRsub i h4))
            · intro i hi2
              rcases Finset.mem_union.1 hi2 with h3 | h3
              · rw [Finset.mem_singleton] at h3
                subst h3
                omega
              · rcases Finset.mem_union.1 h3 with h4 | h4
                · rcases Finset.mem_union.1 h4 with h5 | h5
                  · exact hul5 i h5
                  · have := hSlt i h5; omega
                · have := husR i h4; omega
            · intro i hi2
              have hiid : i ≠ id := fun he => hi2 (by simp [he])
              have hi5 : i ∉ used5 := fun he => hi2 (Finset.mem_union_right _
                (Finset.mem_union_left _ (Finset.mem_union_left _ he)))
              have hiS : i ∉ usedS := fun he => hi2 (Finset.mem_union_right _
                (Finset.mem_union_left _ (Finset.mem_union_right _ he)))
              have hiR : i ∉ usR := fun he => hi2 (Finset.mem_union_right _
                (Finset.mem_union_right _ he))
              have hiL : i ∉ usedL := fun he => hi5 (hsub5 he)
              have hiC2 : i ∉ usC := by
                intro he
                have h5 : i ∈ usedL ∪ usedS := by
                  rw [huLS]; exact Finset.mem_union_left _ he
                rcases Finset.mem_union.1 h5 with h6 | h6
                · exact hiL h6
                · exact hiS h6
              have hitp : i ≠ s.total_pages := by
                intro he
                have h5 : i ∈ usedL ∪ usedS := by
                  rw [huLS]
                  exact Finset.mem_union_right _ (by simp [he])
                rcases Finset.mem_union.1 h5 with h6 | h6
                · exact hiL h6
                · exact hiS h6
              rw [hfr5 i hi5]
              exact hfr1 i hiC2 (fun he => hiid (he.trans hid)) hitp
        · -- child not full: plain recursive descent
          have hckNF : child.keys.length < 50 := by
            rw [BTreeNode.is_full] at hfull
            simp at hfull
            omega
          obtain ⟨s5, used5, es5, hrun5, htc5, hlk5self, hlk5ne, hsub5, hfresh5, hul5,
            htp5, hfr5, htpb5⟩ :=
            ih h s c key value loC hiC esC usC htc husC (by omega) hloC hhiC hfrC hkb hvb
              (by omega) ⟨child, hchn, hckNF⟩
          have hrun : insert_non_full (fuel + 1) s id key value = some s5 := by
            rw [← hrun5]
            simp only [insert_non_full, Store.read, hn, hty, ← hidx, hcg, hchn,
              if_neg hfull]
          have hfrR : ∀ i ∈ usR, s5.pages i = s.pages i := by
            intro i hi2
            apply hfr5
            intro hmem
            rcases hfresh5 i hmem with h3 | h3
            · exact Finset.disjoint_left.1 hdCR h3 hi2
            · have := husR i hi2; omega
          have hd5R : Disjoint used5 usR := by
            rw [Finset.disjoint_left]
            intro a ha hb
            rcases hfresh5 a ha with h3 | h3
            · exact Finset.disjoint_left.1 hdCR h3 hb
            · have := husR a hb; omega
          have hlist := hclo1 s5 es5 used5 hfrR hd5R htc5 hlk5ne
          have hid5 : id ∉ used5 := by
            intro hmem
            rcases hfresh5 id hmem with h3 | h3
            · exact hidC h3
            · omega
          have hpw5 : s5.pages id = some n := by rw [hfr5 id hid5]; exact hn
          refine ⟨s5, {id} ∪ (used5 ∪ usR), esPre ++ es5 ++ esPost, hrun, ?_, ?_, ?_,
            ?_, ?_, ?_, by omega, ?_, by omega⟩
          · refine Tr_succ.2 (Or.inr ⟨n, used5 ∪ usR, hpw5, hid, hty, hle, hnb, hlist, ?_,
              rfl⟩)
            intro hmem
            rcases Finset.mem_union.1 hmem with h3 | h3
            · exact hid5 h3
            · exact hidR h3
          · simp only [lookupE_append, hfrPre, hlk5self]
          · intro k2 hk2
            rw [hesEq]
            exact lookupE_mid_congr esPre esPost esC es5 key hlk5ne k2 hk2
          · intro i hi2
            rcases Finset.mem_union.1 hi2 with h3 | h3
            · exact Finset.mem_union_left _ h3
            · rw [huEq] at h3
              rcases Finset.mem_union.1 h3 with h4 | h4
              · exact Finset.mem_union_right _ (Finset.mem_union_left _ (hsub5 h4))
              · exact Finset.mem_union_right _ (Finset.mem_union_right _ h4)
          · intro i hi2
            rcases Finset.mem_union.1 hi2 with h3 | h3
            · exact Or.inl (Finset.mem_union_left _ h3)
            · rcases Finset.mem_union.1 h3 with h4 | h4
              · rcases hfresh5 i h4 with h5 | h5
                · exact Or.inl (Finset.mem_union_right _ (hCsub i h5))
                · exact Or.inr h5
              · exact Or.inl (Finset.mem_union_right _ (hRsub i h4))
          · intro i hi2
            rcases Finset.mem_union.1 hi2 with h3 | h3
            · rw [Finset.mem_singleton] at h3
              subst h3
              omega
            · rcases Finset.mem_union.1 h3 with h4 | h4
              · exact hul5 i h4
              · have := husR i h4; omega
          · intro i hi2
            have hi5 : i ∉ used5 := fun he => hi2 (Finset.mem_union_right _
              (Finset.mem_union_left _ he))
            exact hfr5 i hi5

/-- `BTreeManager::insert`, ordered version: on an invariant tree with a
fresh key it succeeds, the new tree maps the key to the value and leaves
every other lookup unchanged, and height stays below `total_pages`. -/
theorem insertO_ok (s : Store) (h root fuel : Nat) (es : List (List Nat × Nat))
    (used : Finset Nat) (key : List Nat) (value : Nat)
    (ht : Tr s h root none none es used)
    (hul : ∀ i ∈ used, i < s.total_pages)
    (hh : h < s.total_pages)
    (hf : h + 1 < fuel)
    (hfr : lookupE es key = none)
    (hkb : key.length ≤ 64) (hvb : value < 2 ^ 32)
    (htp32 : s.total_pages + h + 3 < 2 ^ 32) :
    ∃ s2 root2 used2 h2 es2, insert s fuel root key value = some (s2, root2) ∧
      Tr s2 h2 root2 none none es2 used2 ∧
      lookupE es2 key = some value ∧
      (∀ k2, k2 ≠ key → lookupE es2 k2 = lookupE es k2) ∧
      (∀ i ∈ used2, i < s2.total_pages) ∧
      h2 < s2.total_pages ∧
      s2.total_pages ≤ s.total_pages + h + 3 ∧
      h2 ≤ h + 1 := by
  have hrmem : root ∈ used := Tr_mem_id s h root none none es used ht
  have hrlt : root < s.total_pages := hul root hrmem
  obtain ⟨n, hn, hnid, hnle, hncl, hnb⟩ := (Tr_node_all h).1 s root none none es used ht
    root hrmem
  by_cases hfull : n.is_full = true
  · have hk50 : n.keys.length = 50 := by
      rw [BTreeNode.is_full] at hfull
      simp at hfull
      omega
    have htp0 : ¬ s.total_pages = 0 := by omega
    set new_root : BTreeNode := ⟨s.total_pages, none, .internal, [], [root]⟩ with hnr
    have hnrid : new_root.id = s.total_pages := by rw [hnr]
    set s1 : Store := ⟨s.pages, s.total_pages + 1⟩ with hs1
    have hbNR : NodeB new_root := by
      refine ⟨?_, ?_, ?_, ?_⟩
      · rw [hnr]
        show s.total_pages < 2 ^ 32
        omega
      · intro p hp
        rw [hnr] at hp
        simp at hp
      · intro k hk
        rw [hnr] at hk
        simp at hk
      · intro v hv
        rw [hnr] at hv
        simp at hv
        omega
    set s2 : Store := s1.put new_root with hs2
    have hwA : Store.write s1 new_root = some s2 := by
      rw [hs2]
      exact Store.write_put s1 new_root (by rw [hnr]; simp) (by rw [hnr]; simp) hbNR
    set s3 : Store := s2.put { n with parent := some s.total_pages } with hs3
    have hwB : Store.write s2 { n with parent := some s.total_pages } = some s3 := by
      rw [hs3]
      exact Store.write_put s2 _ (by show n.keys.length ≤ 51; omega)
        (by show n.children.length ≤ 52; omega)
        (NodeB_parent hnb (by intro p hp; simp at hp; omega))
    have hpg3 : ∀ i, s3.pages i =
        if i = root then some { n with parent := some s.total_pages }
        else if i = s.total_pages then some new_root
        else s.pages i := by
      intro i
      simp only [hs3, hs2, Store.put, hs1]
      by_cases h1 : i = root
      · simp [h1, hnid]
      · by_cases h2 : i = s.total_pages
        · have hg1 : ¬ i = ({ n with parent := some s.total_pages } : BTreeNode).id := by
            simp [hnid]
            exact fun he => h1 he
          simp [h2, hnr, hg1, hnid, h1]
        · have hg1 : ¬ i = ({ n with parent := some s.total_pages } : BTreeNode).id := by
            simp [hnid]
            exact fun he => h1 he
          have hg2 : ¬ i = new_root.id := by rw [hnrid]; exact h2
          simp [hg1, hg2, h1, h2, hnid, hnr]
    have htp3 : s3.total_pages = s.total_pages + 1 := by
      simp [hs3, hs2, Store.put, hs1, hnr, hnid]
      omega
    have hag : AgreeMod s s3 used := by
      intro i hi
      by_cases h1 : i = root
      · subst h1
        refine Or.inr ⟨n, some s.total_pages, hn, ?_, ?_⟩
        · rw [hpg3]
          simp
        · intro p hp
          simp at hp
          omega
      · have h2 : ¬ i = s.total_pages := by have := hul i hi; omega
        refine Or.inl ?_
        rw [hpg3, if_neg h1, if_neg h2]
    have ht3 : Tr s3 h root none none es used :=
      (Tr_congr_all h).1 s s3 root none none es used hag ht
    have hcn3 : s3.pages root = some { n with parent := some s.total_pages } := by
      rw [hpg3]
      simp
    have husL3 : ∀ i ∈ used, i < s3.total_pages := by
      intro i hi
      rw [htp3]
      have := hul i hi
      omega
    have hpnm3 : new_root.id ∉ used := by
      rw [hnrid]
      intro hmem
      have := hul _ hmem
      omega
    have hplt3 : new_root.id < s3.total_pages := by rw [hnrid, htp3]; omega
    have hpc3 : new_root.children[0]? = some root := by rw [hnr]; rfl
    have hk50b : ({ n with parent := some s.total_pages } : BTreeNode).keys.length = 50 :=
      hk50
    obtain ⟨s4, parent2, sep, usedL, usedS, esL, esR, hsc, hp2, hsep64, hpw, htp4, hesC,
      htL, htS, hsb1, hsb2, hsrl, hdLS, huLS, hnfL, hnfS, hfr4⟩ :=
      splitO_ok s3 new_root 0 root h none none es used { n with parent := some s.total_pages }
        hpc3 hcn3 hk50b ht3 husL3 hpnm3 hplt3 hbNR (by rw [hnr]; simp) (by rw [hnr]; simp)
        (by omega)
    have hp2q : parent2 = ⟨s.total_pages, none, .internal, [sep], [root, s3.total_pages]⟩ := by
      rw [hp2, hnr]
      rfl
    have hpwid : s4.pages s.total_pages = some parent2 := by
      have hx := hpw
      rw [hnrid] at hx
      exact hx
    have hulLS : ∀ i ∈ usedL ∪ usedS, i < s.total_pages + 2 := by
      intro i hi
      have h1 : i ∈ used ∪ {s3.total_pages} := by rw [← huLS]; exact hi
      rcases Finset.mem_union.1 h1 with h2 | h2
      · have := hul i h2; omega
      · rw [Finset.mem_singleton, htp3] at h2; omega
    have htpNotLS : s.total_pages ∉ usedL ∪ usedS := by
      intro hmem
      have h1 : s.total_pages ∈ used ∪ {s3.total_pages} := by rw [← huLS]; exact hmem
      rcases Finset.mem_union.1 h1 with h2 | h2
      · have := hul _ h2; omega
      · rw [Finset.mem_singleton, htp3] at h2; omega
    have hchain : TrL s4 h [sep] [root, s3.total_pages] none none (esL ++ esR)
        (usedL ∪ usedS) :=
      TrL_cons.2 ⟨root, [s3.total_pages], esL, esR, usedL, usedS, rfl, rfl, rfl, hdLS,
        trivial, trivial, hsrl, htL, TrL_nil.2 ⟨s3.total_pages, rfl, htS⟩⟩
    have htRoot : Tr s4 (h + 1) s.total_pages none none (esL ++ esR)
        ({s.total_pages} ∪ (usedL ∪ usedS)) := by
      refine Tr_succ.2 (Or.inr ⟨parent2, usedL ∪ usedS, hpwid, ?_, ?_, ?_, ?_, ?_,
        htpNotLS, rfl⟩)
      · rw [hp2q]
      · rw [hp2q]
      · rw [hp2q]
        simp
      · rw [hp2q]
        refine ⟨by show s.total_pages < 2 ^ 32; omega, ?_, ?_, ?_⟩
        · intro p hp
          simp at hp
        · intro k hk
          simp at hk
          rw [hk]
          exact hsep64
        · intro v hv
          simp at hv
          rcases hv with rfl | rfl
          · omega
          · omega
      · rw [hp2q]
        exact hchain
    have hulRoot : ∀ i ∈ ({s.total_pages} ∪ (usedL ∪ usedS) : Finset Nat),
        i < s4.total_pages := by
      intro i hi
      rw [htp4, htp3]
      rcases Finset.mem_union.1 hi with h1 | h1
      · rw [Finset.mem_singleton] at h1; omega
      · have := hulLS i h1; omega
    have hnfR : ∃ nn, s4.pages s.total_pages = some nn ∧ nn.keys.length < 50 := by
      refine ⟨parent2, hpwid, ?_⟩
      rw [hp2q]
      simp
    have hfrRoot : lookupE (esL ++ esR) key = none := by
      rw [hesC]
      exact hfr
    obtain ⟨s5, used5, es5, hrun5, htc5, hlk5self, hlk5ne, hsub5, hfresh5, hul5, htp5,
      hfr5, htpb5⟩ :=
      insert_nfO_ok fuel (h + 1) s4 s.total_pages key value none none (esL ++ esR)
        ({s.total_pages} ∪ (usedL ∪ usedS)) htRoot hulRoot (by omega) trivial trivial
        hfrRoot hkb hvb (by omega) hnfR
    have hrun : insert s fuel root key value = some (s5, s.total_pages) := by
      simp only [insert, Store.read, hn, if_pos hfull, Store.alloc, if_neg htp0,
        ← hs1, ← hnr, hwA, hwB, hsc, hrun5]
    have htp45 : s4.total_pages ≤ s5.total_pages := htp5
    refine ⟨s5, s.total_pages, used5, h + 1, es5, hrun, htc5, hlk5self, ?_, hul5, ?_,
      ?_, by omega⟩
    · intro k2 hk2
      rw [hlk5ne k2 hk2, hesC]
    · rw [htp4, htp3] at htp45
      omega
    · rw [htp4, htp3] at htpb5
      omega
  · have hkNF : n.keys.length < 50 := by
      rw [BTreeNode.is_full] at hfull
      simp at hfull
      omega
    obtain ⟨s5, used5, es5, hrun5, htc5, hlk5self, hlk5ne, hsub5, hfresh5, hul5, htp5,
      hfr5, htpb5⟩ :=
      insert_nfO_ok fuel h s root key value none none es used ht hul (by omega)
        trivial trivial hfr hkb hvb (by omega) ⟨n, hn, hkNF⟩
    have hrun : insert s fuel root key value = some (s5, root) := by
      simp only [insert, Store.read, hn, if_neg hfull, hrun5]
    exact ⟨s5, root, used5, h, es5, hrun, htc5, hlk5self, hlk5ne, hul5, by omega,
      by omega, by omega⟩

theorem lookupE_of_mem_nodup : ∀ (kvs : List (List Nat × Nat)) (kv : List Nat × Nat),
    (kvs.map Prod.fst).Nodup → kv ∈ kvs → lookupE kvs kv.1 = some kv.2 := by
  intro kvs
  induction kvs with
  | nil => intro kv hnd hm; cases hm
  | cons e rest ih =>
      intro kv hnd hm
      obtain ⟨k0, v0⟩ := e
      have hk0nin : k0 ∉ rest.map Prod.fst := (List.nodup_cons.1 (by simpa using hnd)).1
      rcases List.mem_cons.1 hm with rfl | hm2
      · rw [lookupE, if_pos rfl]
      · have hne : kv.1 ≠ k0 := by
          intro he
          exact hk0nin (he ▸ List.mem_map_of_mem Prod.fst hm2)
        rw [lookupE, if_neg hne]
        exact ih kv (List.nodup_cons.1 (by simpa using hnd)).2 hm2

/-- Folding a list of inserts with the manager's fuel discipline keeps the
invariant and updates the lookup function entry by entry. -/
theorem insertAll_ok : ∀ (kvs : List (List Nat × Nat)) (s : Store) (root h : Nat)
    (es : List (List Nat × Nat)) (used : Finset Nat),
    Tr s h root none none es used →
    (∀ i ∈ used, i < s.total_pages) →
    h < s.total_pages →
    (∀ kv ∈ kvs, lookupE es kv.1 = none) →
    (kvs.map Prod.fst).Nodup →
    (∀ kv ∈ kvs, kv.1.length ≤ 64 ∧ kv.2 < 2 ^ 32) →
    s.total_pages + kvs.length * (h + kvs.length + 3) < 2 ^ 32 →
    ∃ s2 root2 used2 h2 es2, insertAll s root kvs = some (s2, root2) ∧
      Tr s2 h2 root2 none none es2 used2 ∧
      (∀ i ∈ used2, i < s2.total_pages) ∧ h2 < s2.total_pages ∧
      (∀ k, lookupE es2 k =
        match lookupE kvs k with
        | some v => some v
        | none => lookupE es k) := by
  intro kvs
  induction kvs with
  | nil =>
      intro s root h es used ht hul hh hfr hnd hkvb hbud
      exact ⟨s, root, used, h, es, rfl, ht, hul, hh, fun k => rfl⟩
  | cons kv rest ihr =>
      intro s root h es used ht hul hh hfr hnd hkvb hbud
      obtain ⟨k0, v0⟩ := kv
      have hfr0 : lookupE es k0 = none := hfr (k0, v0) (List.mem_cons_self _ _)
      have hk0b := hkvb (k0, v0) (List.mem_cons_self _ _)
      have hbd1 : h + (rest.length + 1) + 3 ≤
          (rest.length + 1) * (h + (rest.length + 1) + 3) :=
        Nat.le_mul_of_pos_left _ (by omega)
      have hbud' : s.total_pages + h + 3 < 2 ^ 32 := by
        simp only [List.length_cons] at hbud
        linarith
      obtain ⟨s2, root2, used2, h2, es2, hrun2, htc2, hlkself, hlkne, hul2, hh2,
        htpb2, hh2b⟩ :=
        insertO_ok s h root (s.total_pages + 1) es used k0 v0 ht hul hh (by omega) hfr0
          hk0b.1 hk0b.2 hbud'
      have hk0nin : k0 ∉ rest.map Prod.fst := (List.nodup_cons.1 (by simpa using hnd)).1
      have hnd2 : (rest.map Prod.fst).Nodup := (List.nodup_cons.1 (by simpa using hnd)).2
      have hfrRest : ∀ kv2 ∈ rest, lookupE es2 kv2.1 = none := by
        intro kv2 hm
        have hne : kv2.1 ≠ k0 := by
          intro he
          exact hk0nin (he ▸ List.mem_map_of_mem Prod.fst hm)
        rw [hlkne kv2.1 hne]
        exact hfr kv2 (List.mem_cons_of_mem _ hm)
      have hbud2 : s2.total_pages + rest.length * (h2 + rest.length + 3) < 2 ^ 32 := by
        have hm1 : h2 + rest.length + 3 ≤ h + (rest.length + 1) + 3 := by omega
        have hm2 : rest.length * (h2 + rest.length + 3) ≤
            rest.length * (h + (rest.length + 1) + 3) :=
          Nat.mul_le_mul_left _ hm1
        have hexp : (rest.length + 1) * (h + (rest.length + 1) + 3) =
            rest.length * (h + (rest.length + 1) + 3) + (h + (rest.length + 1) + 3) := by
          ring
        simp only [List.length_cons] at hbud
        rw [hexp] at hbud
        linarith
      obtain ⟨s3, root3, used3, h3, es3, hrun3, htc3, hul3, hh3, hlk3⟩ :=
        ihr s2 root2 h2 es2 used2 htc2 hul2 hh2 hfrRest hnd2
          (fun kv2 hm => hkvb kv2 (List.mem_cons_of_mem _ hm)) hbud2
      refine ⟨s3, root3, used3, h3, es3, ?_, htc3, hul3, hh3, ?_⟩
      · simp only [insertAll, hrun2, hrun3]
      · intro k
        rw [hlk3 k]
        by_cases he : k = k0
        · subst he
          have hrnone : lookupE rest k = none := by
            rw [lookupE_none_iff]
            intro e hm hek
            exact hk0nin (hek ▸ List.mem_map_of_mem Prod.fst hm)
          simp [hrnone, lookupE, hlkself]
        · simp only [lookupE, if_neg he]
          cases hx : lookupE rest k with
          | some v => rfl
          | none =>
              simp only []
              exact hlkne k he

/-- C1 (corrected): a sequence of B-tree inserts of distinct keys into a
tree that starts as a single empty leaf root succeeds with every
subsequent `search` returning the inserted data-page id (and `none` for
never-inserted keys) under the size bounds the original claim omits:
every key is at most 64 bytes (so every node image fits the 3997-byte
page payload), every value is a `u32`, and the page count stays below
`2 ^ 32` throughout.  Without the key bound the run can error
(`bigKvs_fails_cex`): a leaf of large keys exceeds the page payload and
`write_node` reports `Node too big for Page`. -/
theorem btree_insert_search_correct
    (r tp : Nat) (hrtp : r < tp)
    (kvs : List (List Nat × Nat)) (hnd : (kvs.map Prod.fst).Nodup)
    (hkvb : ∀ kv ∈ kvs, kv.1.length ≤ 64 ∧ kv.2 < 2 ^ 32)
    (hbud : tp + kvs.length * (kvs.length + 3) < 2 ^ 32) :
    ∃ s2 root2, insertAll (initStore r tp) r kvs = some (s2, root2) ∧
      (∀ kv ∈ kvs, searchRun s2 root2 kv.1 = some (some kv.2)) ∧
      (∀ k, (∀ kv ∈ kvs, kv.1 ≠ k) → searchRun s2 root2 k = some none) := by
  have hr32 : r < 2 ^ 32 := by
    have := Nat.le_add_right tp (kvs.length * (kvs.length + 3))
    linarith
  have htInit : Tr (initStore r tp) 0 r none none [] {r} := by
    refine Tr_zero.2 ⟨rfl, BTreeNode.new_leaf r, ?_, rfl, rfl, ?_, rfl, ?_, rfl, ?_, ?_⟩
    · simp [initStore]
    · simp [BTreeNode.new_leaf]
    · refine ⟨hr32, ?_, ?_, ?_⟩ <;> intro x hx <;> simp [BTreeNode.new_leaf] at hx
    · exact List.Pairwise.nil
    · intro kk hkk
      simp [BTreeNode.new_leaf] at hkk
  have hulInit : ∀ i ∈ ({r} : Finset Nat), i < (initStore r tp).total_pages := by
    intro i hi
    rw [Finset.mem_singleton] at hi
    subst hi
    exact hrtp
  have hhInit : 0 < (initStore r tp).total_pages := by
    show 0 < tp
    omega
  have hbudI : (initStore r tp).total_pages +
      kvs.length * (0 + kvs.length + 3) < 2 ^ 32 := by
    show tp + kvs.length * (0 + kvs.length + 3) < 2 ^ 32
    simpa using hbud
  obtain ⟨s2, root2, used2, h2, es2, hrun, htc, hul2, hh2, hlk⟩ :=
    insertAll_ok kvs (initStore r tp) r 0 [] {r} htInit hulInit hhInit (fun _ _ => rfl)
      hnd hkvb hbudI
  refine ⟨s2, root2, hrun, ?_, ?_⟩
  · intro kv hm
    have hs := (search_ok_all h2).1 s2 root2 none none es2 used2 s2.total_pages kv.1
      htc hh2
    rw [searchRun, hs, hlk kv.1, lookupE_of_mem_nodup kvs kv hnd hm]
  · intro k hnk
    have hs := (search_ok_all h2).1 s2 root2 none none es2 used2 s2.total_pages k
      htc hh2
    have hkn : lookupE kvs k = none := by
      rw [lookupE_none_iff]
      intro e he hek
      exact hnk e he hek
    rw [searchRun, hs, hlk k, hkn]
    rfl

theorem btree_insert_search_correct_witness :
    ∃ s2 root2,
      insertAll (initStore 1 2) 1 ([([65], 7), ([66], 9)] : List (List Nat × Nat)) =
        some (s2, root2) ∧
      (∀ kv ∈ ([([65], 7), ([66], 9)] : List (List Nat × Nat)),
        searchRun s2 root2 kv.1 = some (some kv.2)) ∧
      (∀ k, (∀ kv ∈ ([([65], 7), ([66], 9)] : List (List Nat × Nat)), kv.1 ≠ k) →
        searchRun s2 root2 k = some none) :=
  btree_insert_search_correct 1 2 (by decide) [([65], 7), ([66], 9)] (by decide)
    (by decide) (by decide)

/-- The one-key leaf that inserting `bigKvs` builds serializes to 4003 bytes. -/
theorem nodeBytes_bigLeaf : (nodeBytes ⟨1, none, NodeType.leaf,
    [0 :: List.replicate 3994 0], [10]⟩).length = 4003 := by
  have e1 : (varintS 1).length = 1 := rfl
  have e10 : (varintS 10).length = 1 := rfl
  have e3995 : (varintS 3995).length = 2 := rfl
  simp only [nodeBytes, varint32, encStrS, List.map_cons, List.map_nil,
    List.flatten_cons, List.flatten_nil, List.append_nil, List.length_append,
    List.length_cons, List.length_replicate]
  norm_num [e1, e10, e3995]

/-- Writing that leaf exceeds `DATA_SIZE`, so `write_node` errors. -/
theorem write_bigLeaf : Store.write (initStore 1 2)
    ⟨1, none, NodeType.leaf, [0 :: List.replicate 3994 0], [10]⟩ = none := by
  simp only [Store.write, nodeBytes_bigLeaf, DATA_SIZE]
  norm_num

/-- The non-full insert of the oversized key reduces to that failing write. -/
theorem insert_nf_bigLeaf :
    insert_non_full 3 (initStore 1 2) 1 (0 :: List.replicate 3994 0) 10 =
    Store.write (initStore 1 2)
      ⟨1, none, NodeType.leaf, [0 :: List.replicate 3994 0], [10]⟩ := by
  show insert_non_full (2 + 1) (initStore 1 2) 1 (0 :: List.replicate 3994 0) 10 = _
  simp only [insert_non_full, Store.read, initStore, BTreeNode.new_leaf, ppoint,
    List.takeWhile_nil, List.length_nil, List.insertIdx_zero, if_pos]

/-- `insert` on a non-full root is `insert_non_full` on the root. -/
theorem insert_notfull_run (s : Store) (fuel root_id : Nat) (key : List Nat)
    (value : Nat) (root : BTreeNode) (hr : s.read root_id = some root)
    (hnf : root.is_full = false) :
    insert s fuel root_id key value =
      match insert_non_full fuel s root_id key value with
      | none => none
      | some s5 => some (s5, root_id) := by
  simp only [insert, hr, hnf, Bool.false_eq_true, if_false]

/-- One step of `insertAll`. -/
theorem insertAll_cons_run (s : Store) (root : Nat) (k : List Nat) (v : Nat)
    (rest : List (List Nat × Nat)) :
    insertAll s root ((k, v) :: rest) =
      match insert s (s.total_pages + 1) root k v with
      | none => none
      | some (s2, root2) => insertAll s2 root2 rest := by
  simp only [insertAll]

/-- C1 counterexample: a distinct-key (singleton) insert sequence that
errors — its 3995-byte key builds a leaf whose serialized image (4003
bytes) exceeds the page's 3997-byte payload, so `write_node` returns the
`Node too big for Page` error and `insertAll` is `none`, refuting the
original unconditional claim. -/
theorem bigKvs_fails_cex :
    (bigKvs.map Prod.fst).Nodup ∧ insertAll (initStore 1 2) 1 bigKvs = none := by
  refine ⟨by decide, ?_⟩
  have hins : insert (initStore 1 2) 3 1 (0 :: List.replicate 3994 0) 10 = none := by
    rw [insert_notfull_run (initStore 1 2) 3 1 (0 :: List.replicate 3994 0) 10
      (BTreeNode.new_leaf 1) rfl rfl, insert_nf_bigLeaf, write_bigLeaf]
  have htp : (initStore 1 2).total_pages + 1 = 3 := rfl
  show insertAll (initStore 1 2) 1 [(0 :: List.replicate 3994 0, 10)] = none
  rw [insertAll_cons_run, htp, hins]

end Aura
